import Mathlib

/-!
TurboPFor delta-plus-one decoder (`turbopfor.h`), Docid = uint32

Shallow embedding of the decoder.

* The input is a byte memory `Mem` addressed by natural numbers; a cursor
  (`const unsigned char *`) is an address.
* The output array is a `Buf`, indexed by integers, so that `out[-1]` of a
  block whose output pointer is `o` is the slot `o - 1`.
* Values of type `uint32_t` / `Docid` are natural numbers reduced with
  `u32` wherever the C arithmetic can leave 32 bits.
* A left shift of a 32-bit value by a count of 32 or more is undefined in C.
  In the mask `(1U << bits) - 1` of the two readers the count is reduced
  modulo 32, as the compiled decoder does: the mask is 0 at width 32, and a
  reader of that width returns 0.  In `exception << bit_width` a count of 32
  or more shifts every bit out of the 32-bit value: the result is 0.
* Quantities of type `unsigned` that count positions, bits or bytes
  (`num`, `i`, `bits_used`, byte counts) are natural numbers.
* `assert(false)` is failure: the function returns `none`.
-/

namespace TurboPFor

/-- Input memory: the byte stored at each address (reduced modulo 256 on access). -/
abbrev Mem := Nat → Nat

/-- Output array of `Docid` slots, indexed relative to the start of the caller's array. -/
abbrev Buf := Int → Nat

/-- Reduction of a value to 32 bits. -/
def u32 (x : Nat) : Nat := x % 4294967296

/-- Reduction of a value to 64 bits. -/
def u64 (x : Nat) : Nat := x % 18446744073709551616

/-- The byte at address `p` (`in[0]` for a cursor `in = p`). -/
def byteAt (m : Mem) (p : Nat) : Nat := m p % 256

/-- Store `v` into slot `i` of the output array. -/
def Buf.set (out : Buf) (i : Int) (v : Nat) : Buf :=
  fun j => if j = i then v else out j

/-- Little-endian 16-bit load, `read_le<uint16_t>`. -/
def read_le16 (m : Mem) (p : Nat) : Nat :=
  byteAt m p + 256 * byteAt m (p + 1)

/-- Little-endian 32-bit load, `read_le<uint32_t>`. -/
def read_le32 (m : Mem) (p : Nat) : Nat :=
  byteAt m p + 256 * byteAt m (p + 1) + 65536 * byteAt m (p + 2) +
    16777216 * byteAt m (p + 3)

/-- Little-endian 64-bit load, `read_le<uint64_t>`. -/
def read_le64 (m : Mem) (p : Nat) : Nat :=
  read_le32 m p + 4294967296 * read_le32 m (p + 4)

/-- The function `read_baseval`: the new cursor and the value stored to `*out`. -/
def read_baseval (m : Mem) (p : Nat) : Option (Nat × Nat) :=
  if byteAt m p < 128 then
    some (p + 1, byteAt m p)
  else if byteAt m p < 192 then
    some (p + 2, (u32 (byteAt m p <<< 8) ||| byteAt m (p + 1)) &&& 0x3fff)
  else if byteAt m p < 224 then
    some (p + 3, (u32 (byteAt m p <<< 16) ||| u32 (byteAt m (p + 2) <<< 8) |||
                  byteAt m (p + 1)) &&& 0x1fffff)
  else
    none

/-- The function `read_vb`: the new cursor and the value stored to `*out`. -/
def read_vb (m : Mem) (p : Nat) : Option (Nat × Nat) :=
  if byteAt m p ≤ 176 then
    some (p + 1, byteAt m p)
  else if byteAt m p ≤ 240 then
    some (p + 2, u32 ((u32 ((byteAt m p - 177) <<< 8) ||| byteAt m (p + 1)) + 177))
  else if byteAt m p ≤ 248 then
    some (p + 3, u32 ((u32 ((byteAt m p - 241) <<< 16) ||| read_le16 m (p + 1)) + 16561))
  else if byteAt m p = 249 then
    some (p + 4, byteAt m (p + 1) ||| u32 (byteAt m (p + 2) <<< 8) |||
                  u32 (byteAt m (p + 3) <<< 16))
  else if byteAt m p = 250 then
    some (p + 5, read_le32 m (p + 1))
  else
    none

/-- State of `struct BitReader`; `inp` is the member `in`. -/
structure BitReader where
  inp : Nat
  bits : Nat
  mask : Nat
  bits_used : Nat
deriving DecidableEq

/-- The mask `(1U << bits) - 1` computed by both reader constructors.  The shift is
undefined in C for `bits ≥ 32`; the compiled decoder shifts by `bits` modulo 32, so the
mask is `0` at width 32 (and `2^(bits - 32) - 1` for the widths 33 to 63). -/
def mask_of (bits : Nat) : Nat := u32 (u32 (1 <<< (bits % 32)) + 4294967295)

/-- Constructor `BitReader(in, bits)`. -/
def BitReader.init (p bits : Nat) : BitReader :=
  { inp := p, bits := bits, mask := mask_of bits, bits_used := 0 }

/-- The value returned by `BitReader::read()`. -/
def BitReader.val (m : Mem) (bs : BitReader) : Nat :=
  (read_le32 m bs.inp >>> bs.bits_used) &&& bs.mask

/-- The reader state after `BitReader::read()`. -/
def BitReader.next (bs : BitReader) : BitReader :=
  { bs with inp := bs.inp + (bs.bits_used + bs.bits) / 8,
            bits_used := (bs.bits_used + bs.bits) % 8 }

/-- The method `BitReader::read()`: the value and the advanced reader. -/
def BitReader.read (m : Mem) (bs : BitReader) : Nat × BitReader :=
  (bs.val m, bs.next)

/-- State of `struct InterleavedBitReader<NumStreams>`; `Stride = NumStreams * 4`. -/
structure InterleavedBitReader where
  stride : Nat
  inp : Nat
  bits : Nat
  mask : Nat
  bits_used : Nat
deriving DecidableEq

/-- Constructor `InterleavedBitReader<NumStreams>(in, bits)`. -/
def InterleavedBitReader.init (numStreams p bits : Nat) : InterleavedBitReader :=
  { stride := numStreams * 4, inp := p, bits := bits, mask := mask_of bits, bits_used := 0 }

/-- The value returned by `InterleavedBitReader::read()`. -/
def InterleavedBitReader.val (m : Mem) (bs : InterleavedBitReader) : Nat :=
  (if bs.bits_used + bs.bits > 32 then
      (read_le32 m bs.inp >>> bs.bits_used) |||
        u32 (read_le32 m (bs.inp + bs.stride) <<< (32 - bs.bits_used))
    else
      read_le32 m bs.inp >>> bs.bits_used) &&& bs.mask

/-- The reader state after `InterleavedBitReader::read()`. -/
def InterleavedBitReader.next (bs : InterleavedBitReader) : InterleavedBitReader :=
  { bs with inp := bs.inp + bs.stride * ((bs.bits_used + bs.bits) / 32),
            bits_used := (bs.bits_used + bs.bits) % 32 }

/-- The method `InterleavedBitReader::read()`: the value and the advanced reader. -/
def InterleavedBitReader.read (m : Mem) (bs : InterleavedBitReader) :
    Nat × InterleavedBitReader :=
  (bs.val m, bs.next)

/-- The function `div_round_up`. -/
def div_round_up (val div : Nat) : Nat := (val + div - 1) / div

/-- The function `bytes_for_packed_bits` (`CHAR_BIT = 8`). -/
def bytes_for_packed_bits (num bit_width : Nat) : Nat :=
  div_round_up (num * bit_width) 8

/-- The loop of `decode_constant`: `out[i] = prev_val = val + prev_val + 1` for `n` more positions. -/
def decode_constant_loop (val : Nat) (o : Int) : Nat → Nat → Nat → Buf → Buf
  | 0, _, _, out => out
  | n + 1, i, prev_val, out =>
    decode_constant_loop val o n (i + 1) (u32 (val + prev_val + 1))
      (out.set (o + i) (u32 (val + prev_val + 1)))

/-- The function `decode_constant<uint32_t>(in, num, out)` with `in = p` and `out` the slot `o`
of the array: the returned cursor and the array after the call. -/
def decode_constant (m : Mem) (p num : Nat) (out : Buf) (o : Int) : Nat × Buf :=
  let bit_width := byteAt m p &&& 0x3f
  let val := read_le32 m (p + 1)
  let val := if bit_width < 32 then val &&& mask_of bit_width else val
  (p + 1 + div_round_up bit_width 8, decode_constant_loop val o num 0 (out (o - 1)) out)

/-- The loop of `decode_for`: `prev_val = out[i] = bs.read() + prev_val + 1`. -/
def decode_for_loop (m : Mem) (o : Int) : Nat → Nat → BitReader → Nat → Buf → Buf
  | 0, _, _, _, out => out
  | n + 1, i, bs, prev_val, out =>
    decode_for_loop m o n (i + 1) bs.next (u32 (bs.val m + prev_val + 1))
      (out.set (o + i) (u32 (bs.val m + prev_val + 1)))

/-- The function `decode_for<uint32_t>(in, num, out)`. -/
def decode_for (m : Mem) (p num : Nat) (out : Buf) (o : Int) : Nat × Buf :=
  let bit_width := byteAt m p &&& 0x3f
  (p + 1 + bytes_for_packed_bits num bit_width,
    decode_for_loop m o num 0 (BitReader.init (p + 1) bit_width) (out (o - 1)) out)

/-- The four readers `bs0 .. bs3` of the interleaved decoders. -/
structure Lanes where
  bs0 : InterleavedBitReader
  bs1 : InterleavedBitReader
  bs2 : InterleavedBitReader
  bs3 : InterleavedBitReader
deriving DecidableEq

/-- The readers `InterleavedBitReader<4> bsK(in + K * sizeof(uint32_t), bit_width)`. -/
def Lanes.init (p bit_width : Nat) : Lanes :=
  { bs0 := InterleavedBitReader.init 4 (p + 0 * 4) bit_width,
    bs1 := InterleavedBitReader.init 4 (p + 1 * 4) bit_width,
    bs2 := InterleavedBitReader.init 4 (p + 2 * 4) bit_width,
    bs3 := InterleavedBitReader.init 4 (p + 3 * 4) bit_width }

/-- All four readers after one `read()` each. -/
def Lanes.next (l : Lanes) : Lanes :=
  { bs0 := l.bs0.next, bs1 := l.bs1.next, bs2 := l.bs2.next, bs3 := l.bs3.next }

/-- The unpacking loop `out[i * 4 + K] = bsK.read()` of the interleaved decoders. -/
def unpack_interleaved (m : Mem) (o : Int) : Nat → Nat → Lanes → Buf → Buf
  | 0, _, _, out => out
  | n + 1, i, l, out =>
    unpack_interleaved m o n (i + 1) l.next
      ((((out.set (o + (i * 4 + 0 : Nat)) (l.bs0.val m)).set (o + (i * 4 + 1 : Nat)) (l.bs1.val m)).set
        (o + (i * 4 + 2 : Nat)) (l.bs2.val m)).set (o + (i * 4 + 3 : Nat)) (l.bs3.val m))

/-- The final loop `out[i] = prev_val = out[i] + prev_val + 1` of the two-pass decoders. -/
def delta_decode (o : Int) : Nat → Nat → Nat → Buf → Buf
  | 0, _, _, out => out
  | n + 1, i, prev_val, out =>
    delta_decode o n (i + 1) (u32 (out (o + i) + prev_val + 1))
      (out.set (o + i) (u32 (out (o + i) + prev_val + 1)))

/-- The function `decode_for_interleaved<BlockSize, uint32_t>(in, out)`. -/
def decode_for_interleaved (BlockSize : Nat) (m : Mem) (p : Nat) (out : Buf) (o : Int) :
    Nat × Buf :=
  let bit_width := byteAt m p &&& 0x3f
  let out1 := unpack_interleaved m o (BlockSize / 4) 0 (Lanes.init (p + 1) bit_width) out
  (p + 1 + bytes_for_packed_bits BlockSize bit_width,
    delta_decode o BlockSize 0 (out1 (o - 1)) out1)

/-- Search for the least set bit of `x` at positions `k, k + 1, ...`, at most `fuel` of them:
one plus its index, or 0 when none is found. -/
def ffs_from (x : Nat) : Nat → Nat → Nat
  | 0, _ => 0
  | fuel + 1, k => if x.testBit k then k + 1 else ffs_from x fuel (k + 1)

/-- The C library function `ffsll` on a 64-bit word: one plus the index of the least
significant set bit, 0 for the word 0. -/
def ffsll (x : Nat) : Nat := ffs_from x 64 0

/-- The call `memset(out, 0, num * sizeof(Docid))`. -/
def Buf.zero (out : Buf) (o : Int) (num : Nat) : Buf :=
  fun j => if o ≤ j ∧ j < o + num then 0 else out j

/-- State carried through the exception loops of the bitmap decoders. -/
structure ExcState where
  bs : BitReader
  num_exceptions : Nat
  out : Buf

/-- The inner loop `for (; exceptions != 0; exceptions &= exceptions - 1, ++num_exceptions)`
over one bitmap word at block offset `i`; a 64-bit word needs at most 64 rounds. -/
def exception_word_loop (m : Mem) (bit_width : Nat) (o : Int) (i : Nat) :
    Nat → Nat → ExcState → ExcState
  | 0, _, st => st
  | fuel + 1, exceptions, st =>
    if exceptions = 0 then st
    else
      let idx := (ffsll exceptions - 1) + i
      exception_word_loop m bit_width o i fuel (exceptions &&& (exceptions - 1))
        { bs := st.bs.next, num_exceptions := st.num_exceptions + 1,
          out := st.out.set (o + idx) (u32 (st.bs.val m <<< bit_width)) }

/-- The outer loop `for (i = 0; i < num; i += 64, ++exception_bitmap_ptr)` of
`decode_pfor_bitmap`, which masks the last word to `num - i` bits. -/
def exception_bitmap_loop (m : Mem) (bit_width num : Nat) (o : Int) :
    Nat → Nat → Nat → ExcState → ExcState
  | 0, _, _, st => st
  | fuel + 1, i, exception_bitmap_ptr, st =>
    if i < num then
      let exceptions := read_le64 m exception_bitmap_ptr
      let exceptions :=
        if num - i < 64 then exceptions &&& ((1 <<< (num - i)) - 1) else exceptions
      exception_bitmap_loop m bit_width num o fuel (i + 64) (exception_bitmap_ptr + 8)
        (exception_word_loop m bit_width o i 64 exceptions st)
    else st

/-- The outer loop of `decode_pfor_bitmap_interleaved`, which does not mask. -/
def exception_bitmap_loop_interleaved (m : Mem) (bit_width BlockSize : Nat) (o : Int) :
    Nat → Nat → Nat → ExcState → ExcState
  | 0, _, _, st => st
  | fuel + 1, i, exception_bitmap_ptr, st =>
    if i < BlockSize then
      exception_bitmap_loop_interleaved m bit_width BlockSize o fuel (i + 64)
        (exception_bitmap_ptr + 8)
        (exception_word_loop m bit_width o i 64 (read_le64 m exception_bitmap_ptr) st)
    else st

/-- The last loop of `decode_pfor_bitmap`:
`out[i] = prev_val = (out[i] | bs.read()) + prev_val + 1`. -/
def pfor_bitmap_base_loop (m : Mem) (o : Int) : Nat → Nat → BitReader → Nat → Buf → Buf
  | 0, _, _, _, out => out
  | n + 1, i, bs, prev_val, out =>
    pfor_bitmap_base_loop m o n (i + 1) bs.next (u32 ((out (o + i) ||| bs.val m) + prev_val + 1))
      (out.set (o + i) (u32 ((out (o + i) ||| bs.val m) + prev_val + 1)))

/-- The function `decode_pfor_bitmap<uint32_t>(in, num, out)`. The outer exception loop runs
`div_round_up(num, 64)` times, so `num` rounds of fuel are enough. -/
def decode_pfor_bitmap (m : Mem) (p num : Nat) (out : Buf) (o : Int) : Nat × Buf :=
  let out0 := out.zero o num
  let bit_width := byteAt m p &&& 0x3f
  let exception_bit_width := byteAt m (p + 1)
  let exception_bitmap_ptr := p + 2
  let in1 := p + 2 + div_round_up num 8
  let st := exception_bitmap_loop m bit_width num o num 0 exception_bitmap_ptr
    { bs := BitReader.init in1 exception_bit_width, num_exceptions := 0, out := out0 }
  let in2 := in1 + bytes_for_packed_bits st.num_exceptions exception_bit_width
  (in2 + bytes_for_packed_bits num bit_width,
    pfor_bitmap_base_loop m o num 0 (BitReader.init in2 bit_width) (st.out (o - 1)) st.out)

/-- The loop `out[i * 4 + K] |= bsK.read()` of `decode_pfor_bitmap_interleaved`. -/
def unpack_interleaved_or (m : Mem) (o : Int) : Nat → Nat → Lanes → Buf → Buf
  | 0, _, _, out => out
  | n + 1, i, l, out =>
    let out0 := out.set (o + (i * 4 + 0 : Nat)) (out (o + (i * 4 + 0 : Nat)) ||| l.bs0.val m)
    let out1 := out0.set (o + (i * 4 + 1 : Nat)) (out0 (o + (i * 4 + 1 : Nat)) ||| l.bs1.val m)
    let out2 := out1.set (o + (i * 4 + 2 : Nat)) (out1 (o + (i * 4 + 2 : Nat)) ||| l.bs2.val m)
    let out3 := out2.set (o + (i * 4 + 3 : Nat)) (out2 (o + (i * 4 + 3 : Nat)) ||| l.bs3.val m)
    unpack_interleaved_or m o n (i + 1) l.next out3

/-- The function `decode_pfor_bitmap_interleaved<BlockSize, uint32_t>(in, out)`. -/
def decode_pfor_bitmap_interleaved (BlockSize : Nat) (m : Mem) (p : Nat) (out : Buf)
    (o : Int) : Nat × Buf :=
  let out0 := out.zero o BlockSize
  let bit_width := byteAt m p &&& 0x3f
  let exception_bit_width := byteAt m (p + 1)
  let exception_bitmap_ptr := p + 2
  let in1 := p + 2 + div_round_up BlockSize 8
  let st := exception_bitmap_loop_interleaved m bit_width BlockSize o BlockSize 0
    exception_bitmap_ptr
    { bs := BitReader.init in1 exception_bit_width, num_exceptions := 0, out := out0 }
  let in2 := in1 + bytes_for_packed_bits st.num_exceptions exception_bit_width
  let out1 := unpack_interleaved_or m o (BlockSize / 4) 0 (Lanes.init in2 bit_width) st.out
  (in2 + bytes_for_packed_bits BlockSize bit_width,
    delta_decode o BlockSize 0 (out1 (o - 1)) out1)

/-- The loop `out[i] = bs.read()` of `decode_pfor_vb`. -/
def unpack_contiguous (m : Mem) (o : Int) : Nat → Nat → BitReader → Buf → Buf
  | 0, _, _, out => out
  | n + 1, i, bs, out =>
    unpack_contiguous m o n (i + 1) bs.next (out.set (o + i) (bs.val m))

/-- The loop `exceptions[i] = read_le<Docid>(in); in += sizeof(Docid)` after a 255 byte:
the cursor and the array `exceptions`, filled in index order. -/
def read_exceptions_le (m : Mem) : Nat → Nat → List Nat → Nat × List Nat
  | 0, p, exceptions => (p, exceptions)
  | n + 1, p, exceptions => read_exceptions_le m n (p + 4) (exceptions ++ [read_le32 m p])

/-- The loop `in = read_vb(in, &exceptions[i])`. -/
def read_exceptions_vb (m : Mem) : Nat → Nat → List Nat → Option (Nat × List Nat)
  | 0, p, exceptions => some (p, exceptions)
  | n + 1, p, exceptions =>
    match read_vb m p with
    | none => none
    | some (p1, v) => read_exceptions_vb m n p1 (exceptions ++ [v])

/-- The exception decoding common to `decode_pfor_vb` and `decode_pfor_vb_interleaved`. -/
def read_exceptions (m : Mem) (p num_exceptions : Nat) : Option (Nat × List Nat) :=
  if byteAt m p = 255 then
    some (read_exceptions_le m num_exceptions (p + 1) [])
  else
    read_exceptions_vb m num_exceptions p []

/-- The loop `idx = *in++; out[idx] |= exceptions[i] << bit_width`. -/
def apply_exceptions (m : Mem) (bit_width : Nat) (exceptions : List Nat) (o : Int) :
    Nat → Nat → Nat → Buf → Nat × Buf
  | 0, _, p, out => (p, out)
  | n + 1, i, p, out =>
    let idx := byteAt m p
    apply_exceptions m bit_width exceptions o n (i + 1) (p + 1)
      (out.set (o + idx) (out (o + idx) ||| u32 (exceptions.getD i 0 <<< bit_width)))

/-- The function `decode_pfor_vb<BlockSize, uint32_t>(in, num, out)`. The scratch array
`exceptions[BlockSize]` cannot hold more than `BlockSize` values: with a larger exception
count the C behaviour is undefined and there is no result. -/
def decode_pfor_vb (BlockSize : Nat) (m : Mem) (p num : Nat) (out : Buf) (o : Int) :
    Option (Nat × Buf) :=
  let bit_width := byteAt m p &&& 0x3f
  let num_exceptions := byteAt m (p + 1)
  let out1 := unpack_contiguous m o num 0 (BitReader.init (p + 2) bit_width) out
  let in1 := p + 2 + bytes_for_packed_bits num bit_width
  if BlockSize < num_exceptions then none
  else
    match read_exceptions m in1 num_exceptions with
    | none => none
    | some (in2, exceptions) =>
      let r := apply_exceptions m bit_width exceptions o num_exceptions 0 in2 out1
      some (r.1, delta_decode o num 0 (r.2 (o - 1)) r.2)

/-- The function `decode_pfor_vb_interleaved<BlockSize, uint32_t>(in, out)`, with the same
treatment of the scratch array as `decode_pfor_vb`. -/
def decode_pfor_vb_interleaved (BlockSize : Nat) (m : Mem) (p : Nat) (out : Buf) (o : Int) :
    Option (Nat × Buf) :=
  let bit_width := byteAt m p &&& 0x3f
  let num_exceptions := byteAt m (p + 1)
  let out1 := unpack_interleaved m o (BlockSize / 4) 0 (Lanes.init (p + 2) bit_width) out
  let in1 := p + 2 + bytes_for_packed_bits BlockSize bit_width
  if BlockSize < num_exceptions then none
  else
    match read_exceptions m in1 num_exceptions with
    | none => none
    | some (in2, exceptions) =>
      let r := apply_exceptions m bit_width exceptions o num_exceptions 0 in2 out1
      some (r.1, delta_decode o BlockSize 0 (r.2 (o - 1)) r.2)

/-- One round of the `switch (in[0] >> 6)` of `decode_pfor_delta1`: the block at cursor `p`
decoded into the slots from `o` on. -/
def decode_block (BlockSize : Nat) (m : Mem) (interleaved : Bool) (p num_this_block : Nat)
    (out : Buf) (o : Int) : Option (Nat × Buf) :=
  if byteAt m p >>> 6 = 0 then
    if interleaved = true ∧ num_this_block = BlockSize then
      some (decode_for_interleaved BlockSize m p out o)
    else
      some (decode_for m p num_this_block out o)
  else if byteAt m p >>> 6 = 1 then
    if interleaved = true ∧ num_this_block = BlockSize then
      decode_pfor_vb_interleaved BlockSize m p out o
    else
      decode_pfor_vb BlockSize m p num_this_block out o
  else if byteAt m p >>> 6 = 2 then
    if interleaved = true ∧ num_this_block = BlockSize then
      some (decode_pfor_bitmap_interleaved BlockSize m p out o)
    else
      some (decode_pfor_bitmap m p num_this_block out o)
  else if byteAt m p >>> 6 = 3 then
    some (decode_constant m p num_this_block out o)
  else
    some (p, out)

/-- The loop `for (i = 1; i < num; i += BlockSize, out += BlockSize)` of
`decode_pfor_delta1`. With `BlockSize = 0` the C loop does not terminate; the model then runs
out of fuel and gives no result. -/
def decode_pfor_delta1_loop (BlockSize : Nat) (m : Mem) (num : Nat) (interleaved : Bool) :
    Nat → Nat → Nat → Buf → Int → Option (Nat × Buf)
  | 0, i, p, out, _ => if i < num then none else some (p, out)
  | fuel + 1, i, p, out, o =>
    if i < num then
      match decode_block BlockSize m interleaved p (min (num - i) BlockSize) out o with
      | none => none
      | some (p1, out1) =>
        decode_pfor_delta1_loop BlockSize m num interleaved fuel (i + BlockSize) p1 out1
          (o + BlockSize)
    else some (p, out)

/-- The function `decode_pfor_delta1<BlockSize, uint32_t>(in, num, interleaved, out)`:
the returned cursor and the array after the call, `o` being the slot `out` points to.
The loop runs at most `num` rounds when `BlockSize > 0`. -/
def decode_pfor_delta1 (BlockSize : Nat) (m : Mem) (p num : Nat) (interleaved : Bool)
    (out : Buf) (o : Int) : Option (Nat × Buf) :=
  if num = 0 then some (p, out)
  else
    match read_baseval m p with
    | none => none
    | some (p1, v) =>
      decode_pfor_delta1_loop BlockSize m num interleaved num 1 p1 (out.set o v) (o + 1)

/-- Memory holding the bytes `bs` from address 0 on, and 0 elsewhere. -/
def memOf (bs : List Nat) : Mem := fun a => bs.getD a 0

/-- The slots `out[0 .. n)` of an array, from slot `o` on. -/
def Buf.slice (out : Buf) (o : Int) (n : Nat) : List Nat :=
  (List.range n).map (fun i => out (o + (i : Int)))

/-- Common shape of the delta-plus-one loops: at position `i` the gap is `g s (out[i])`, `s`
being a reader state advanced by `adv`, and `out[i] = prev_val = gap + prev_val + 1`. -/
def scan_loop {σ : Type} (g : σ → Nat → Nat) (adv : σ → σ) (o : Int) :
    Nat → Nat → σ → Nat → Buf → Buf
  | 0, _, _, _, out => out
  | n + 1, i, s, prev_val, out =>
    scan_loop g adv o n (i + 1) (adv s) (u32 (g s (out (o + i)) + prev_val + 1))
      (out.set (o + i) (u32 (g s (out (o + i)) + prev_val + 1)))

/-- The running value of a delta-plus-one scan over the gaps `c 0, c 1, ...` that starts
from `prev`: the value stored at position `k`. -/
def scan_val (c : Nat → Nat) (prev : Nat) : Nat → Nat
  | 0 => u32 (c 0 + prev + 1)
  | k + 1 => u32 (c (k + 1) + scan_val c prev k + 1)

/-- The value returned by the `(k + 1)`-th call of `read()` on the reader `bs`. -/
def BitReader.nth (m : Mem) (bs : BitReader) (k : Nat) : Nat :=
  (BitReader.next^[k] bs).val m

/-- The exception part of position `i`: the values `exceptions[k] << bit_width`, for the
`n` exceptions from number `k` on whose index byte (at `idxs + k`) is `i`, OR-ed together. -/
def exception_part (m : Mem) (bit_width : Nat) (exceptions : List Nat) (idxs i : Nat) :
    Nat → Nat → Nat
  | 0, _ => 0
  | n + 1, k =>
    (if byteAt m (idxs + k) = i then u32 (exceptions.getD k 0 <<< bit_width) else 0) |||
      exception_part m bit_width exceptions idxs i n (k + 1)

/-- Number of positions below `t` at which the bit predicate `f` holds. -/
def count_below (f : Nat → Bool) : Nat → Nat
  | 0 => 0
  | t + 1 => count_below f t + (if f t then 1 else 0)

/-- Bit `i` of the exception bitmap stored from address `bitmap` on: bit `i mod 8` of byte
`i div 8`. -/
def bitmap_bit (m : Mem) (bitmap i : Nat) : Bool :=
  (byteAt m (bitmap + i / 8)).testBit (i % 8)

/-- Number of set bitmap bits at positions below `i`. -/
def bitmap_rank (m : Mem) (bitmap i : Nat) : Nat :=
  count_below (bitmap_bit m bitmap) i

/-- The little-endian value of the `n` bytes stored from address `a` on. -/
def le_bytes (m : Mem) : Nat → Nat → Nat
  | _, 0 => 0
  | a, n + 1 => byteAt m a + 256 * le_bytes m (a + 1) n

/-- Bitmap bit `t` as the exception loop of `decode_pfor_bitmap` sees it: bits at positions
`num` and above are masked off. -/
def masked_bit (m : Mem) (bitmap num t : Nat) : Bool :=
  bitmap_bit m bitmap t && decide (t < num)

/-- The combined value of position `i` of a PFOR_BITMAP block at `p` covering `num`
positions: the `i`-th read of a contiguous reader of the header bit width over the base
values, OR-ed, when bitmap bit `i` is set, with the read number `bitmap_rank .. i` of a
contiguous reader of the exception bit width over the exception region, shifted left by the
header bit width. The exception region follows the `ceil(num / 8)` bitmap bytes; the base
values follow the packed exceptions of all set bits below `num`. -/
def pfor_bitmap_combined (m : Mem) (p num i : Nat) : Nat :=
  let bit_width := byteAt m p &&& 0x3f
  let exception_bit_width := byteAt m (p + 1)
  let exc_region := p + 2 + div_round_up num 8
  let base_region :=
    exc_region + bytes_for_packed_bits (bitmap_rank m (p + 2) num) exception_bit_width
  let base := (BitReader.init base_region bit_width).nth m i
  if bitmap_bit m (p + 2) i then
    base ||| u32 ((BitReader.init exc_region exception_bit_width).nth m
      (bitmap_rank m (p + 2) i) <<< bit_width)
  else base

/-- The value returned by the `(k + 1)`-th call of `read()` on the interleaved reader `bs`. -/
def InterleavedBitReader.nth (m : Mem) (bs : InterleavedBitReader) (k : Nat) : Nat :=
  (InterleavedBitReader.next^[k] bs).val m

/-- The value the four readers deliver for block position `i`: read number `i div 4` of
lane `i mod 4`. -/
def Lanes.nth (m : Mem) (l : Lanes) (i : Nat) : Nat :=
  if i % 4 = 0 then l.bs0.nth m (i / 4)
  else if i % 4 = 1 then l.bs1.nth m (i / 4)
  else if i % 4 = 2 then l.bs2.nth m (i / 4)
  else l.bs3.nth m (i / 4)

/-- Byte `k` of a bit stream given by its bits: stream bit `8 k + t` is bit `t` of the byte. -/
def byte_of_bits (f : Nat → Bool) (k : Nat) : Nat :=
  ((List.range 8).map (fun t => if f (8 * k + t) then 2 ^ t else 0)).sum

/-- Contiguous packing of the values `g` with `b` bits each: value `j` occupies the bits
`[j b, (j + 1) b)` of the little-endian bit stream. -/
def pack_contiguous (b : Nat) (g : List Nat) : List Nat :=
  (List.range ((g.length * b + 7) / 8)).map
    (byte_of_bits (fun j => (g.getD (j / b) 0).testBit (j % b)))

/-- 4-lane packing of the values `g` with `b` bits each: value `4 k + l` occupies the bits
`[k b, (k + 1) b)` of lane `l`, whose word number `w` (32 bits, little-endian) lies at byte
offset `16 w + 4 l`. Stream bit `j` belongs to byte `j div 8`, that is to lane
`(j div 32) mod 4`, where it is lane bit `32 (j div 128) + j mod 32`. -/
def pack_interleaved (b : Nat) (g : List Nat) : List Nat :=
  (List.range ((g.length * b + 7) / 8)).map
    (byte_of_bits (fun j =>
      (g.getD (4 * ((32 * (j / 128) + j % 32) / b) + (j / 32) % 4) 0).testBit
        ((32 * (j / 128) + j % 32) % b)))

/-- A block of 128 gaps, all 0 except the gap `2^26` at position 2, which needs 27 bits. -/
def wide_gap_block : List Nat :=
  [0, 0, 67108864] ++ List.replicate 125 0

/-- The integer formed by the `b` bits `f start, f (start + 1), ...`, least significant
first. -/
def bits_value (f : Nat → Bool) (start : Nat) : Nat → Nat
  | 0 => 0
  | b + 1 => bits_value f start b + (if f (start + b) then 2 ^ b else 0)

/-- Bit `j` of the byte stream that starts at address `p`, read as a little-endian bit
string: bit `j mod 8` of byte `j div 8`. -/
def stream_bit (m : Mem) (p j : Nat) : Bool :=
  (byteAt m (p + j / 8)).testBit (j % 8)

/-- Bit `j` of the lane that starts at address `p`: the lane is the concatenation, least
significant bit first, of the little-endian 32-bit words at `p`, `p + 16`, `p + 32`, ... -/
def lane_bit (m : Mem) (p j : Nat) : Bool :=
  (read_le32 m (p + 16 * (j / 32))).testBit (j % 32)

/-- The blocks number `a, a + 1, ..., a + count - 1` of a sequence of `num` identifiers
decoded one after the other from the state `s` (cursor and array): block `j` starts at the
cursor the block before it returned, covers `min (num - (1 + j * BlockSize)) BlockSize`
positions from output position `1 + j * BlockSize` on, and finds its previous value in the
slot before them, `out[j * BlockSize]`. -/
def block_chain (BlockSize : Nat) (m : Mem) (num : Nat) (interleaved : Bool) (o : Int) :
    Nat → Nat → Nat × Buf → Option (Nat × Buf)
  | 0, _, s => some s
  | count + 1, a, s =>
    match decode_block BlockSize m interleaved s.1
        (min (num - (1 + a * BlockSize)) BlockSize) s.2 (o + 1 + ((a * BlockSize : Nat) : Int)) with
    | none => none
    | some s1 => block_chain BlockSize m num interleaved o count (a + 1) s1

/-- The array of `decode_pfor_bitmap_interleaved` before its delta loop: the exception parts
stored by the exception loop, OR-ed with the values the four lanes deliver. -/
def pfor_bitmap_interleaved_unpacked (BlockSize : Nat) (m : Mem) (p : Nat) (out : Buf)
    (o : Int) : Buf :=
  let out0 := out.zero o BlockSize
  let bit_width := byteAt m p &&& 0x3f
  let exception_bit_width := byteAt m (p + 1)
  let exception_bitmap_ptr := p + 2
  let in1 := p + 2 + div_round_up BlockSize 8
  let st := exception_bitmap_loop_interleaved m bit_width BlockSize o BlockSize 0
    exception_bitmap_ptr
    { bs := BitReader.init in1 exception_bit_width, num_exceptions := 0, out := out0 }
  let in2 := in1 + bytes_for_packed_bits st.num_exceptions exception_bit_width
  unpack_interleaved_or m o (BlockSize / 4) 0 (Lanes.init in2 bit_width) st.out

/-- The gap that the block decoder selected by `decode_block` takes from the input for block
position `t`, before one is added and the running sum is formed:
* FOR: read `t` of the contiguous reader; interleaved, the value `out[t]` holds after the
  unpacking loop (the read of its lane, see `block_gap_for_interleaved`);
* PFOR_VB: that base value OR-ed with the exception part of position `t`;
* PFOR_BITMAP: the combined value `pfor_bitmap_combined`; interleaved, the value `out[t]`
  holds before the delta loop;
* CONSTANT: the stored value, masked to the bit width when that is below 32. -/
def block_gap (BlockSize : Nat) (m : Mem) (interleaved : Bool) (p num_this_block : Nat)
    (out : Buf) (o : Int) (t : Nat) : Nat :=
  if byteAt m p >>> 6 = 0 then
    if interleaved = true ∧ num_this_block = BlockSize then
      unpack_interleaved m o (BlockSize / 4) 0 (Lanes.init (p + 1) (byteAt m p &&& 0x3f)) out
        (o + (t : Int))
    else
      (BitReader.init (p + 1) (byteAt m p &&& 0x3f)).nth m t
  else if byteAt m p >>> 6 = 1 then
    if interleaved = true ∧ num_this_block = BlockSize then
      match read_exceptions m (p + 2 + bytes_for_packed_bits BlockSize (byteAt m p &&& 0x3f))
          (byteAt m (p + 1)) with
      | none => 0
      | some (in2, exceptions) =>
        unpack_interleaved m o (BlockSize / 4) 0 (Lanes.init (p + 2) (byteAt m p &&& 0x3f)) out
            (o + (t : Int)) |||
          exception_part m (byteAt m p &&& 0x3f) exceptions in2 t (byteAt m (p + 1)) 0
    else
      match read_exceptions m (p + 2 + bytes_for_packed_bits num_this_block (byteAt m p &&& 0x3f))
          (byteAt m (p + 1)) with
      | none => 0
      | some (in2, exceptions) =>
        (BitReader.init (p + 2) (byteAt m p &&& 0x3f)).nth m t |||
          exception_part m (byteAt m p &&& 0x3f) exceptions in2 t (byteAt m (p + 1)) 0
  else if byteAt m p >>> 6 = 2 then
    if interleaved = true ∧ num_this_block = BlockSize then
      pfor_bitmap_interleaved_unpacked BlockSize m p out o (o + (t : Int))
    else
      pfor_bitmap_combined m p num_this_block t
  else
    if byteAt m p &&& 0x3f < 32 then read_le32 m (p + 1) &&& mask_of (byteAt m p &&& 0x3f)
    else read_le32 m (p + 1)

/-- The gap between `out[i]` and `out[i + 1]` that `decode_pfor_delta1` decodes from the
input: position `i + 1` is position `i mod BlockSize` of block `i div BlockSize`, which
starts at the cursor (and with the array) the chain of the blocks before it returns. -/
def decoded_gap (BlockSize : Nat) (m : Mem) (p num : Nat) (interleaved : Bool) (out : Buf)
    (o : Int) (i : Nat) : Nat :=
  match read_baseval m p with
  | none => 0
  | some (p1, v) =>
    match block_chain BlockSize m num interleaved o (i / BlockSize) 0 (p1, out.set o v) with
    | none => 0
    | some s =>
      block_gap BlockSize m interleaved s.1
        (min (num - (1 + i / BlockSize * BlockSize)) BlockSize) s.2
        (o + 1 + ((i / BlockSize * BlockSize : Nat) : Int)) (i % BlockSize)

/-- Whether the block at cursor `p`, decoded for `num_this_block` positions, keeps its stores
inside the block: in a PFOR_VB block every exception index byte is below `num_this_block`;
in a PFOR_BITMAP block decoded by the interleaved decoder, whose exception loop does not mask
the last 64-bit bitmap word, no bitmap bit at a position from `BlockSize` on is set (there
is no such position when `BlockSize` is a multiple of 64). The other decoders store only
inside the block. -/
def block_in_range (BlockSize : Nat) (m : Mem) (interleaved : Bool) (p num_this_block : Nat) :
    Bool :=
  if byteAt m p >>> 6 = 1 then
    match read_exceptions m
        (p + 2 + bytes_for_packed_bits num_this_block (byteAt m p &&& 0x3f)) (byteAt m (p + 1)) with
    | none => true
    | some (in2, _) => decide (∀ k, k < byteAt m (p + 1) → byteAt m (in2 + k) < num_this_block)
  else if byteAt m p >>> 6 = 2 ∧ interleaved = true ∧ num_this_block = BlockSize then
    decide (∀ t, t < 64 * ((BlockSize + 63) / 64) → bitmap_bit m (p + 2) t = true → t < BlockSize)
  else true

/-- Whether every block of the chain `block_chain` keeps its stores inside the block. -/
def chain_in_range (BlockSize : Nat) (m : Mem) (num : Nat) (interleaved : Bool) (o : Int) :
    Nat → Nat → Nat × Buf → Bool
  | 0, _, _ => true
  | count + 1, a, s =>
    block_in_range BlockSize m interleaved s.1 (min (num - (1 + a * BlockSize)) BlockSize) &&
      match decode_block BlockSize m interleaved s.1
          (min (num - (1 + a * BlockSize)) BlockSize) s.2 (o + 1 + ((a * BlockSize : Nat) : Int)) with
      | none => true
      | some s1 => chain_in_range BlockSize m num interleaved o count (a + 1) s1

/-- Whether every block that `decode_pfor_delta1` decodes keeps its stores inside the block. -/
def blocks_in_range (BlockSize : Nat) (m : Mem) (p num : Nat) (interleaved : Bool) (out : Buf)
    (o : Int) : Bool :=
  match read_baseval m p with
  | none => true
  | some (p1, v) =>
    chain_in_range BlockSize m num interleaved o ((num - 1 + BlockSize - 1) / BlockSize) 0
      (p1, out.set o v)

/-! ## Lemmas and theorems -/

theorem u32_of_lt {x : Nat} (h : x < 4294967296) : u32 x = x := Nat.mod_eq_of_lt h

theorem u32_lt (x : Nat) : u32 x < 4294967296 := Nat.mod_lt _ (by decide)

theorem byteAt_lt (m : Mem) (p : Nat) : byteAt m p < 256 := Nat.mod_lt _ (by decide)

theorem read_le16_lt (m : Mem) (p : Nat) : read_le16 m p < 65536 := by
  have h0 := byteAt_lt m p
  have h1 := byteAt_lt m (p + 1)
  unfold read_le16; omega

theorem read_le32_lt (m : Mem) (p : Nat) : read_le32 m p < 4294967296 := by
  have h0 := byteAt_lt m p
  have h1 := byteAt_lt m (p + 1)
  have h2 := byteAt_lt m (p + 2)
  have h3 := byteAt_lt m (p + 3)
  unfold read_le32; omega

/-- A byte shifted left by at most 24 bits fits in 32 bits. -/
theorem u32_byte_shift {x k : Nat} (hx : x < 256) (hk : k ≤ 24) : u32 (x <<< k) = x <<< k := by
  apply u32_of_lt
  rw [Nat.shiftLeft_eq]
  calc x * 2 ^ k ≤ 255 * 2 ^ 24 :=
        Nat.mul_le_mul (by omega) (Nat.pow_le_pow_right (by decide) hk)
    _ < 4294967296 := by decide

/-- C6: `read_baseval` on a first byte `x < 224`: one byte with value `x` when `x < 128`;
two bytes with value `((x << 8) | b1) & 0x3FFF` when `128 ≤ x < 192`; three bytes with value
`((x << 16) | (b2 << 8) | b1) & 0x1FFFFF` when `192 ≤ x < 224`, `b1` and `b2` being the two
bytes that follow `x` in stream order. -/
theorem read_baseval_table (m : Mem) (p : Nat) (h : byteAt m p < 224) :
    read_baseval m p =
      if byteAt m p < 128 then some (p + 1, byteAt m p)
      else if byteAt m p < 192 then
        some (p + 2, ((byteAt m p <<< 8) ||| byteAt m (p + 1)) &&& 0x3FFF)
      else
        some (p + 3, ((byteAt m p <<< 16) ||| (byteAt m (p + 2) <<< 8) ||| byteAt m (p + 1))
          &&& 0x1FFFFF) := by
  unfold read_baseval
  rw [u32_byte_shift (byteAt_lt m p) (by decide : 8 ≤ 24),
    u32_byte_shift (byteAt_lt m p) (by decide : 16 ≤ 24),
    u32_byte_shift (byteAt_lt m (p + 2)) (by decide : 8 ≤ 24)]
  simp only [h, if_true]

/-- Witness for `read_baseval_table`: the bytes `C1 02 03` decode to `0x10302` in three bytes,
the second and third stream bytes being swapped. -/
theorem read_baseval_table_witness :
    byteAt (memOf [0xC1, 0x02, 0x03]) 0 < 224 ∧
      read_baseval (memOf [0xC1, 0x02, 0x03]) 0 = some (3, 0x10302) :=
  ⟨by decide, (read_baseval_table (memOf [0xC1, 0x02, 0x03]) 0 (by decide)).trans (by decide)⟩


/-- Three bytes combined with shifts and `|` are their little-endian sum. -/
theorem lor_bytes3 {a b c : Nat} (ha : a < 256) (hb : b < 256) (hc : c < 256) :
    a ||| u32 (b <<< 8) ||| u32 (c <<< 16) = a + 256 * b + 65536 * c := by
  rw [u32_byte_shift hb (by decide : 8 ≤ 24), u32_byte_shift hc (by decide : 16 ≤ 24),
    Nat.shiftLeft_eq, Nat.shiftLeft_eq]
  have h1 : a ||| b * 2 ^ 8 = 2 ^ 8 * b + a := by
    rw [Nat.mul_add_lt_is_or (by omega : a < 2 ^ 8) b, Nat.lor_comm, Nat.mul_comm]
  have h2 : 2 ^ 8 * b + a < 2 ^ 16 := by omega
  rw [h1, Nat.lor_comm, Nat.mul_comm c, ← Nat.mul_add_lt_is_or h2 c]
  omega

/-- C7: `read_vb` on a first byte `x ≤ 250`, with `b1 .. b4` the following bytes: value `x`
in 1 byte for `x ≤ 176`; `(((x - 177) << 8) | b1) + 177` in 2 bytes for `177 ≤ x ≤ 240`;
`(((x - 241) << 16) | (b1 + 256 b2)) + 16561` in 3 bytes for `241 ≤ x ≤ 248`;
`b1 + 256 b2 + 65536 b3` in 4 bytes for `x = 249`; the little-endian 32-bit word `b1 .. b4`
in 5 bytes for `x = 250`. -/
theorem read_vb_table (m : Mem) (p : Nat) (h : byteAt m p ≤ 250) :
    read_vb m p =
      if byteAt m p ≤ 176 then some (p + 1, byteAt m p)
      else if byteAt m p ≤ 240 then
        some (p + 2, (((byteAt m p - 177) <<< 8) ||| byteAt m (p + 1)) + 177)
      else if byteAt m p ≤ 248 then
        some (p + 3, (((byteAt m p - 241) <<< 16) |||
          (byteAt m (p + 1) + 256 * byteAt m (p + 2))) + 16561)
      else if byteAt m p = 249 then
        some (p + 4, byteAt m (p + 1) + 256 * byteAt m (p + 2) + 65536 * byteAt m (p + 3))
      else
        some (p + 5, byteAt m (p + 1) + 256 * byteAt m (p + 2) + 65536 * byteAt m (p + 3) +
          16777216 * byteAt m (p + 4)) := by
  have hx := byteAt_lt m p
  have h1 := byteAt_lt m (p + 1)
  have h2 := byteAt_lt m (p + 2)
  have h3 := byteAt_lt m (p + 3)
  have e8 : u32 ((byteAt m p - 177) <<< 8) = (byteAt m p - 177) <<< 8 :=
    u32_byte_shift (by omega) (by decide)
  have e16 : u32 ((byteAt m p - 241) <<< 16) = (byteAt m p - 241) <<< 16 :=
    u32_byte_shift (by omega) (by decide)
  have b8 : ((byteAt m p - 177) <<< 8 ||| byteAt m (p + 1)) < 2 ^ 16 := by
    apply Nat.or_lt_two_pow
    · rw [Nat.shiftLeft_eq]; omega
    · omega
  have hle : read_le16 m (p + 1) = byteAt m (p + 1) + 256 * byteAt m (p + 2) := rfl
  have b16 : ((byteAt m p - 241) <<< 16 ||| (byteAt m (p + 1) + 256 * byteAt m (p + 2)))
      < 2 ^ 24 := by
    apply Nat.or_lt_two_pow
    · rw [Nat.shiftLeft_eq]; omega
    · omega
  unfold read_vb
  rw [e8, e16, hle, u32_of_lt (by omega), u32_of_lt (by omega), lor_bytes3 h1 h2 h3]
  by_cases c1 : byteAt m p ≤ 176
  · simp only [c1, if_true]
  · by_cases c2 : byteAt m p ≤ 240
    · simp only [c1, c2, if_true, if_false]
    · by_cases c3 : byteAt m p ≤ 248
      · simp only [c1, c2, c3, if_true, if_false]
      · by_cases c4 : byteAt m p = 249
        · simp only [c1, c2, c3, c4, if_true, if_false]
        · have c5 : byteAt m p = 250 := by omega
          simp only [c1, c2, c3, c4, c5, if_true, if_false]
          rfl

/-- Witness for `read_vb_table`: the bytes `B1 7B` are the two-byte form of 300. -/
theorem read_vb_table_witness :
    byteAt (memOf [0xB1, 0x7B]) 0 ≤ 250 ∧ read_vb (memOf [0xB1, 0x7B]) 0 = some (2, 300) :=
  ⟨by decide, (read_vb_table (memOf [0xB1, 0x7B]) 0 (by decide)).trans (by decide)⟩

/-- The driver fails when `read_baseval` does. -/
theorem decode_pfor_delta1_baseval_none (BlockSize : Nat) (m : Mem) (p num : Nat)
    (interleaved : Bool) (out : Buf) (o : Int) (hn : 1 ≤ num) (h : read_baseval m p = none) :
    decode_pfor_delta1 BlockSize m p num interleaved out o = none := by
  unfold decode_pfor_delta1
  rw [if_neg (by omega), h]

/-- C8: `read_baseval` fails exactly on a first byte `≥ 224` and `read_vb` exactly on a first
byte `≥ 251`; on every other first byte each returns a value and a cursor further on; and
`decode_pfor_delta1` with `num ≥ 1` fails when the first input byte is `≥ 224`. -/
theorem reserved_prefixes_rejected (m : Mem) (p : Nat) :
    (read_baseval m p = none ↔ 224 ≤ byteAt m p) ∧
    (read_vb m p = none ↔ 251 ≤ byteAt m p) ∧
    (byteAt m p < 224 → ∃ c v, read_baseval m p = some (c, v) ∧ p < c ∧ c ≤ p + 3) ∧
    (byteAt m p < 251 → ∃ c v, read_vb m p = some (c, v) ∧ p < c ∧ c ≤ p + 5) ∧
    (∀ (BlockSize num : Nat) (interleaved : Bool) (out : Buf) (o : Int),
      1 ≤ num → 224 ≤ byteAt m p →
        decode_pfor_delta1 BlockSize m p num interleaved out o = none) := by
  have hb : read_baseval m p = none ↔ 224 ≤ byteAt m p := by
    unfold read_baseval
    split_ifs <;> simp <;> omega
  have hv : read_vb m p = none ↔ 251 ≤ byteAt m p := by
    unfold read_vb
    split_ifs <;> simp <;> omega
  refine ⟨hb, hv, ?_, ?_, ?_⟩
  · intro h
    unfold read_baseval
    split_ifs
    · exact ⟨_, _, rfl, by omega, by omega⟩
    · exact ⟨_, _, rfl, by omega, by omega⟩
    · exact ⟨_, _, rfl, by omega, by omega⟩
  · intro h
    unfold read_vb
    split_ifs
    · exact ⟨_, _, rfl, by omega, by omega⟩
    · exact ⟨_, _, rfl, by omega, by omega⟩
    · exact ⟨_, _, rfl, by omega, by omega⟩
    · exact ⟨_, _, rfl, by omega, by omega⟩
    · exact ⟨_, _, rfl, by omega, by omega⟩
    · omega
  · intro BlockSize num interleaved out o hn h
    exact decode_pfor_delta1_baseval_none BlockSize m p num interleaved out o hn (hb.mpr h)

/-- Witness for `reserved_prefixes_rejected`: a sequence that starts with the byte `E0`
cannot be decoded. -/
theorem reserved_prefixes_rejected_witness :
    1 ≤ 1 ∧ 224 ≤ byteAt (memOf [0xE0]) 0 ∧
      decode_pfor_delta1 128 (memOf [0xE0]) 0 1 false (fun _ => 0) 0 = none :=
  ⟨by decide, by decide,
    (reserved_prefixes_rejected (memOf [0xE0]) 0).2.2.2.2 128 1 false (fun _ => 0) 0
      (by decide) (by decide)⟩

theorem u32_add_u32_left (a b : Nat) : u32 (u32 a + b) = u32 (a + b) := Nat.mod_add_mod a _ b

theorem u32_add_u32_right (a b : Nat) : u32 (a + u32 b) = u32 (a + b) := Nat.add_mod_mod a b _

theorem Buf.set_same (out : Buf) (i : Int) (v : Nat) : out.set i v i = v := by
  simp [Buf.set]

theorem Buf.set_other (out : Buf) (i j : Int) (v : Nat) (h : j ≠ i) : out.set i v j = out j := by
  simp [Buf.set, h]

theorem scan_val_lt (c : Nat → Nat) (prev k : Nat) : scan_val c prev k < 4294967296 := by
  cases k <;> exact u32_lt _

theorem scan_val_shift (c : Nat → Nat) (prev k : Nat) :
    scan_val (fun t => c (t + 1)) (scan_val c prev 0) k = scan_val c prev (k + 1) := by
  induction k with
  | zero => rfl
  | succ k ih => simp only [scan_val] at ih ⊢; rw [ih]

theorem scan_val_congr (c d : Nat → Nat) (prev k : Nat) (h : ∀ t, t ≤ k → c t = d t) :
    scan_val c prev k = scan_val d prev k := by
  induction k with
  | zero => simp only [scan_val, h 0 (le_refl 0)]
  | succ k ih =>
    simp only [scan_val]
    rw [ih (fun t ht => h t (Nat.le_succ_of_le ht)), h (k + 1) (le_refl _)]

/-- Slots outside `[i, i + n)` are left alone by a scan loop. -/
theorem scan_loop_frame {σ : Type} (g : σ → Nat → Nat) (adv : σ → σ) (o : Int) :
    ∀ (n i : Nat) (s : σ) (prev : Nat) (out : Buf) (j : Int),
      (j < o + i ∨ o + i + n ≤ j) → scan_loop g adv o n i s prev out j = out j := by
  intro n
  induction n with
  | zero => intro i s prev out j _; rfl
  | succ n ih =>
    intro i s prev out j hj
    simp only [scan_loop]
    rw [ih (i + 1) _ _ _ j (by push_cast; omega), Buf.set_other _ _ _ _ (by omega)]

/-- The slot at position `i + k`, `k < n`, after a scan loop. -/
theorem scan_loop_get {σ : Type} (g : σ → Nat → Nat) (adv : σ → σ) (o : Int) :
    ∀ (n i : Nat) (s : σ) (prev : Nat) (out : Buf) (k : Nat), k < n →
      scan_loop g adv o n i s prev out (o + ((i + k : Nat) : Int)) =
        scan_val (fun t => g (adv^[t] s) (out (o + ((i + t : Nat) : Int)))) prev k := by
  intro n
  induction n with
  | zero => intro i s prev out k hk; omega
  | succ n ih =>
    intro i s prev out k hk
    simp only [scan_loop]
    cases k with
    | zero =>
      rw [scan_loop_frame g adv o n (i + 1) _ _ _ _ (by push_cast; omega)]
      simp only [Nat.add_zero, Buf.set_same, scan_val, Function.iterate_zero, id_eq]
    | succ k =>
      have hidx : (o + ((i + (k + 1) : Nat) : Int)) = o + ((i + 1 + k : Nat) : Int) := by
        push_cast; omega
      rw [hidx, ih (i + 1) _ _ _ k (by omega), ← scan_val_shift]
      simp only [scan_val, Function.iterate_zero, id_eq, Nat.add_zero]
      apply scan_val_congr
      intro t _
      rw [Function.iterate_succ_apply, Buf.set_other _ _ _ _ (by push_cast; omega)]
      congr 3
      omega

theorem decode_constant_loop_eq (val : Nat) (o : Int) :
    ∀ (n i prev : Nat) (out : Buf),
      decode_constant_loop val o n i prev out =
        scan_loop (fun (_ : Unit) (_ : Nat) => val) id o n i () prev out := by
  intro n
  induction n with
  | zero => intro i prev out; rfl
  | succ n ih => intro i prev out; simp only [decode_constant_loop, scan_loop, ih, id_eq]

/-- The mask `(1U << b) - 1` selects the low `b` bits when `b < 32`. -/
theorem mask_of_eq {b : Nat} (hb : b < 32) : mask_of b = 2 ^ b - 1 := by
  unfold mask_of
  rw [Nat.mod_eq_of_lt hb]
  have h1 : 2 ^ b < 4294967296 :=
    calc 2 ^ b < 2 ^ 32 := Nat.pow_lt_pow_right (by decide) hb
      _ = 4294967296 := by decide
  have h0 : 0 < 2 ^ b := Nat.two_pow_pos b
  rw [Nat.shiftLeft_eq, Nat.one_mul, u32_of_lt h1]
  unfold u32
  omega

theorem and_mask_of {b : Nat} (hb : b < 32) (x : Nat) : x &&& mask_of b = x % 2 ^ b := by
  rw [mask_of_eq hb, Nat.and_pow_two_sub_one_eq_mod]

/-- A scan with the constant gap `v` has a closed form. -/
theorem scan_val_const (v prev k : Nat) :
    scan_val (fun _ => v) prev k = u32 (prev + (k + 1) * (v + 1)) := by
  induction k with
  | zero => simp only [scan_val]; congr 1; omega
  | succ k ih =>
    simp only [scan_val]
    have e : (k + 1 + 1) * (v + 1) = (k + 1) * (v + 1) + (v + 1) := by
      rw [Nat.add_mul (k + 1) 1 (v + 1), Nat.one_mul]
    rw [ih, e]
    generalize (k + 1) * (v + 1) = q
    unfold u32
    omega

/-- C5: CONSTANT block with header bit width `b < 32`: with `v` the low `b` bits of the
little-endian 32-bit word after the header byte and `prev = out[-1]`, the call returns the
cursor advanced by `1 + ceil(b / 8)` and writes `out[k] = prev + (k + 1) * (v + 1)` modulo
`2^32` for every `k < num`. -/
theorem decode_constant_closed_form (m : Mem) (p num : Nat) (out : Buf) (o : Int)
    (hb : byteAt m p &&& 0x3f < 32) :
    (decode_constant m p num out o).1 = p + 1 + ((byteAt m p &&& 0x3f) + 7) / 8 ∧
    ∀ k : Nat, k < num →
      (decode_constant m p num out o).2 (o + (k : Int)) =
        (out (o - 1) + (k + 1) * (read_le32 m (p + 1) % 2 ^ (byteAt m p &&& 0x3f) + 1))
          % 2 ^ 32 := by
  refine ⟨rfl, ?_⟩
  intro k hk
  simp only [decode_constant, if_pos hb, decode_constant_loop_eq, and_mask_of hb]
  have h := scan_loop_get (fun (_ : Unit) (_ : Nat) => read_le32 m (p + 1) % 2 ^ (byteAt m p &&& 0x3f))
    id o num 0 () (out (o - 1)) out k hk
  simp only [Nat.zero_add] at h
  rw [h, scan_val_const]
  rfl

/-- Witness for `decode_constant_closed_form`: the block `C5 07 00 00 00` (`b = 5`, stored
value 7) with `num = 128` after the value 1000 gives `out[k] = 1000 + 8 (k + 1)`, and the
cursor moves 2 bytes. -/
theorem decode_constant_closed_form_witness :
    byteAt (memOf [0xC5, 0x07, 0, 0, 0]) 0 &&& 0x3f < 32 ∧
    (decode_constant (memOf [0xC5, 0x07, 0, 0, 0]) 0 128 (fun _ => 1000) 1).1 = 2 ∧
    ∀ k : Nat, k < 128 →
      (decode_constant (memOf [0xC5, 0x07, 0, 0, 0]) 0 128 (fun _ => 1000) 1).2 (1 + (k : Int))
        = 1000 + 8 * (k + 1) := by
  have h := decode_constant_closed_form (memOf [0xC5, 0x07, 0, 0, 0]) 0 128 (fun _ => 1000) 1
    (by decide)
  refine ⟨by decide, h.1.trans (by decide), ?_⟩
  intro k hk
  rw [h.2 k hk]
  have e : read_le32 (memOf [0xC5, 0x07, 0, 0, 0]) (0 + 1) %
      2 ^ (byteAt (memOf [0xC5, 0x07, 0, 0, 0]) 0 &&& 0x3f) = 7 := by decide
  rw [e]
  show (1000 + (k + 1) * (7 + 1)) % 2 ^ 32 = 1000 + 8 * (k + 1)
  omega

/-- Slots outside `[i, i + n)` are left alone by the unpacking loop. -/
theorem unpack_contiguous_frame (m : Mem) (o : Int) :
    ∀ (n i : Nat) (bs : BitReader) (out : Buf) (j : Int),
      (j < o + i ∨ o + i + n ≤ j) → unpack_contiguous m o n i bs out j = out j := by
  intro n
  induction n with
  | zero => intro i bs out j _; rfl
  | succ n ih =>
    intro i bs out j hj
    simp only [unpack_contiguous]
    rw [ih (i + 1) _ _ j (by push_cast; omega), Buf.set_other _ _ _ _ (by omega)]

/-- The unpacking loop stores the successive reads of the reader. -/
theorem unpack_contiguous_get (m : Mem) (o : Int) :
    ∀ (n i : Nat) (bs : BitReader) (out : Buf) (k : Nat), k < n →
      unpack_contiguous m o n i bs out (o + ((i + k : Nat) : Int)) = bs.nth m k := by
  intro n
  induction n with
  | zero => intro i bs out k hk; omega
  | succ n ih =>
    intro i bs out k hk
    simp only [unpack_contiguous]
    cases k with
    | zero =>
      rw [unpack_contiguous_frame m o n (i + 1) _ _ _ (by push_cast; omega)]
      simp only [Nat.add_zero, Buf.set_same, BitReader.nth, Function.iterate_zero, id_eq]
    | succ k =>
      have hidx : (o + ((i + (k + 1) : Nat) : Int)) = o + ((i + 1 + k : Nat) : Int) := by
        push_cast; omega
      rw [hidx, ih (i + 1) _ _ k (by omega)]
      simp only [BitReader.nth, Function.iterate_succ_apply]

/-- The exception loop moves the cursor past the `n` index bytes and ORs into each slot the
exception parts addressed to it. -/
theorem apply_exceptions_eq (m : Mem) (bit_width : Nat) (exceptions : List Nat) (o : Int) :
    ∀ (n k p : Nat) (out : Buf),
      (apply_exceptions m bit_width exceptions o n k (p + k) out).1 = p + k + n ∧
      ∀ i : Nat, (apply_exceptions m bit_width exceptions o n k (p + k) out).2 (o + (i : Int)) =
        out (o + (i : Int)) ||| exception_part m bit_width exceptions p i n k := by
  intro n
  induction n with
  | zero =>
    intro k p out
    exact ⟨rfl, fun i => by simp [apply_exceptions, exception_part]⟩
  | succ n ih =>
    intro k p out
    simp only [apply_exceptions, exception_part]
    have h := ih (k + 1) p
      (out.set (o + (byteAt m (p + k) : Int))
        (out (o + (byteAt m (p + k) : Int)) ||| u32 (exceptions.getD k 0 <<< bit_width)))
    have e : p + k + 1 = p + (k + 1) := by omega
    rw [e]
    refine ⟨by rw [h.1]; omega, ?_⟩
    intro i
    rw [h.2 i]
    by_cases c : byteAt m (p + k) = i
    · rw [if_pos c, c, Buf.set_same, Nat.lor_assoc]
    · rw [if_neg c, Buf.set_other _ _ _ _ (by omega), Nat.zero_or]

/-- The exception loop leaves slots before the block alone. -/
theorem apply_exceptions_frame (m : Mem) (bit_width : Nat) (exceptions : List Nat) (o : Int) :
    ∀ (n k p : Nat) (out : Buf) (j : Int), j < o →
      (apply_exceptions m bit_width exceptions o n k p out).2 j = out j := by
  intro n
  induction n with
  | zero => intro k p out j _; rfl
  | succ n ih =>
    intro k p out j hj
    simp only [apply_exceptions]
    rw [ih (k + 1) (p + 1) _ j hj, Buf.set_other _ _ _ _ (by omega)]

theorem delta_decode_eq (o : Int) :
    ∀ (n i prev : Nat) (out : Buf),
      delta_decode o n i prev out =
        scan_loop (fun (_ : Unit) (old : Nat) => old) id o n i () prev out := by
  intro n
  induction n with
  | zero => intro i prev out; rfl
  | succ n ih => intro i prev out; simp only [delta_decode, scan_loop, ih, id_eq]

/-- After a scan loop over `[0, n)` every slot is the slot before it (the start value for
slot 0) plus the gap of the position plus one. -/
theorem scan_loop_step {σ : Type} (g : σ → Nat → Nat) (adv : σ → σ) (o : Int) (n : Nat)
    (s : σ) (out : Buf) (i : Nat) (hi : i < n) :
    scan_loop g adv o n 0 s (out (o - 1)) out (o + (i : Int)) =
      u32 (scan_loop g adv o n 0 s (out (o - 1)) out (o + (i : Int) - 1) +
        g (adv^[i] s) (out (o + (i : Int))) + 1) := by
  have hget := fun k hk => scan_loop_get g adv o n 0 s (out (o - 1)) out k hk
  simp only [Nat.zero_add] at hget
  cases i with
  | zero =>
    rw [hget 0 hi, scan_loop_frame g adv o n 0 _ _ _ _ (by push_cast; omega)]
    simp only [scan_val, Function.iterate_zero, id_eq, Nat.cast_zero, add_zero]
    congr 1; omega
  | succ i =>
    have e : o + ((i + 1 : Nat) : Int) - 1 = o + (i : Int) := by push_cast; omega
    rw [e, hget (i + 1) hi, hget i (by omega)]
    simp only [scan_val]
    congr 1; omega

/-- The little-endian exception loop appends the `n` words found at `p, p + 4, ...` and
stops `4 n` bytes further. -/
theorem read_exceptions_le_eq (m : Mem) :
    ∀ (n p : Nat) (acc : List Nat),
      (read_exceptions_le m n p acc).1 = p + 4 * n ∧
      ∀ k, k < n → (read_exceptions_le m n p acc).2.getD (acc.length + k) 0 =
        read_le32 m (p + 4 * k) := by
  intro n
  induction n with
  | zero => intro p acc; exact ⟨rfl, fun k hk => by omega⟩
  | succ n ih =>
    intro p acc
    simp only [read_exceptions_le]
    have h := ih (p + 4) (acc ++ [read_le32 m p])
    refine ⟨by rw [h.1]; omega, ?_⟩
    intro k hk
    cases k with
    | zero =>
      have hpre : ∀ (n p : Nat) (acc : List Nat) (j : Nat), j < acc.length →
          (read_exceptions_le m n p acc).2.getD j 0 = acc.getD j 0 := by
        intro n
        induction n with
        | zero => intro p acc j _; rfl
        | succ n ih2 =>
          intro p acc j hj
          simp only [read_exceptions_le]
          rw [ih2 (p + 4) _ j (by simp; omega)]
          simp [List.getD_eq_getElem?_getD, List.getElem?_append_left hj]
      simp only [Nat.add_zero, Nat.mul_zero]
      rw [hpre n (p + 4) _ acc.length (by simp)]
      simp [List.getD_eq_getElem?_getD]
    | succ k =>
      have h2 := h.2 k (by omega)
      simp only [List.length_append, List.length_singleton] at h2
      have e1 : acc.length + (k + 1) = acc.length + 1 + k := by omega
      have e2 : p + 4 * (k + 1) = p + 4 + 4 * k := by omega
      rw [e1, e2, h2]

/-- Result of `decode_pfor_vb` when the exception count fits the scratch array and the
exception values decode to `es`, the index bytes starting at `in2`: the cursor ends after
the index bytes, the slot before the block is untouched, and every slot `i < num` is the
slot before it plus the base value OR-ed with its exception part, plus one. -/
theorem decode_pfor_vb_spec (BlockSize : Nat) (m : Mem) (p num : Nat) (out : Buf) (o : Int)
    (in2 : Nat) (es : List Nat)
    (hn : byteAt m (p + 1) ≤ BlockSize)
    (hes : read_exceptions m (p + 2 + bytes_for_packed_bits num (byteAt m p &&& 0x3f))
      (byteAt m (p + 1)) = some (in2, es)) :
    ∃ r, decode_pfor_vb BlockSize m p num out o = some (in2 + byteAt m (p + 1), r) ∧
      r (o - 1) = out (o - 1) ∧
      ∀ i : Nat, i < num → r (o + (i : Int)) =
        u32 (r (o + (i : Int) - 1) +
          ((BitReader.init (p + 2) (byteAt m p &&& 0x3f)).nth m i |||
            exception_part m (byteAt m p &&& 0x3f) es in2 i (byteAt m (p + 1)) 0) + 1) := by
  have hap := apply_exceptions_eq m (byteAt m p &&& 0x3f) es o (byteAt m (p + 1)) 0 in2
    (unpack_contiguous m o num 0 (BitReader.init (p + 2) (byteAt m p &&& 0x3f)) out)
  simp only [Nat.add_zero] at hap
  have hfr : (apply_exceptions m (byteAt m p &&& 0x3f) es o (byteAt m (p + 1)) 0 in2
      (unpack_contiguous m o num 0 (BitReader.init (p + 2) (byteAt m p &&& 0x3f)) out)).2 (o - 1)
      = out (o - 1) := by
    rw [apply_exceptions_frame _ _ _ _ _ _ _ _ _ (by omega),
      unpack_contiguous_frame _ _ _ _ _ _ _ (by push_cast; omega)]
  refine ⟨delta_decode o num 0
    ((apply_exceptions m (byteAt m p &&& 0x3f) es o (byteAt m (p + 1)) 0 in2
      (unpack_contiguous m o num 0 (BitReader.init (p + 2) (byteAt m p &&& 0x3f)) out)).2 (o - 1))
    (apply_exceptions m (byteAt m p &&& 0x3f) es o (byteAt m (p + 1)) 0 in2
      (unpack_contiguous m o num 0 (BitReader.init (p + 2) (byteAt m p &&& 0x3f)) out)).2,
    ?_, ?_, ?_⟩
  · simp only [decode_pfor_vb, if_neg (Nat.not_lt.mpr hn), hes, hap.1]
  · rw [delta_decode_eq, scan_loop_frame _ _ _ _ _ _ _ _ _ (by push_cast; omega), hfr]
  · intro i hi
    rw [delta_decode_eq, scan_loop_step _ _ _ _ _ _ i hi, hap.2 i]
    have hg := unpack_contiguous_get m o num 0 (BitReader.init (p + 2) (byteAt m p &&& 0x3f))
      out i hi
    simp only [Nat.zero_add] at hg
    rw [hg]

/-- C3: PFOR_VB block with header bit width `b < 32`, exception count `n_exc ≤ BlockSize`,
exception values `es` (as read by the exception decoding after the base values) and index
bytes all below `num`: the call succeeds, and every `out[i]`, `i < num`, is
`out[i-1] + v_i + 1` modulo `2^32`, `v_i` being the `i`-th read of a contiguous reader of
width `b` over the base values OR-ed with `e_k << b` for every `k` whose index byte is `i`.
After a `0xFF` byte the exception values are the `n_exc` little-endian 32-bit words that
follow it; otherwise they are `n_exc` successive `read_vb` values. -/
theorem decode_pfor_vb_value_rule (BlockSize : Nat) (m : Mem) (p num : Nat) (out : Buf)
    (o : Int) (in2 : Nat) (es : List Nat)
    (_hb : byteAt m p &&& 0x3f < 32)
    (hn : byteAt m (p + 1) ≤ BlockSize)
    (hes : read_exceptions m (p + 2 + bytes_for_packed_bits num (byteAt m p &&& 0x3f))
      (byteAt m (p + 1)) = some (in2, es))
    (_hidx : ∀ k, k < byteAt m (p + 1) → byteAt m (in2 + k) < num) :
    (∃ r, decode_pfor_vb BlockSize m p num out o = some (in2 + byteAt m (p + 1), r) ∧
      r (o - 1) = out (o - 1) ∧
      ∀ i : Nat, i < num → r (o + (i : Int)) =
        u32 (r (o + (i : Int) - 1) +
          ((BitReader.init (p + 2) (byteAt m p &&& 0x3f)).nth m i |||
            exception_part m (byteAt m p &&& 0x3f) es in2 i (byteAt m (p + 1)) 0) + 1)) ∧
    (byteAt m (p + 2 + bytes_for_packed_bits num (byteAt m p &&& 0x3f)) = 255 →
      in2 = p + 2 + bytes_for_packed_bits num (byteAt m p &&& 0x3f) + 1 + 4 * byteAt m (p + 1) ∧
      ∀ k, k < byteAt m (p + 1) → es.getD k 0 =
        read_le32 m (p + 2 + bytes_for_packed_bits num (byteAt m p &&& 0x3f) + 1 + 4 * k)) ∧
    (byteAt m (p + 2 + bytes_for_packed_bits num (byteAt m p &&& 0x3f)) ≠ 255 →
      read_exceptions_vb m (byteAt m (p + 1))
        (p + 2 + bytes_for_packed_bits num (byteAt m p &&& 0x3f)) [] = some (in2, es)) := by
  refine ⟨decode_pfor_vb_spec BlockSize m p num out o in2 es hn hes, ?_, ?_⟩
  · intro h255
    simp only [read_exceptions, if_pos h255, Option.some.injEq] at hes
    have hle := read_exceptions_le_eq m (byteAt m (p + 1))
      (p + 2 + bytes_for_packed_bits num (byteAt m p &&& 0x3f) + 1) []
    rw [hes] at hle
    simp only [List.length_nil, Nat.zero_add] at hle
    exact ⟨hle.1, hle.2⟩
  · intro h255
    simpa only [read_exceptions, if_neg h255] using hes

/-- Witness for `decode_pfor_vb_value_rule`, the spec's scenario 5: the block
`41 01 00 B1 7B 02` (`b = 1`, one exception of value 300 at index 2, base values 0) with
`num = 4` after the value 0 decodes to 1, 2, 603, 604 and ends 6 bytes further. -/
theorem decode_pfor_vb_value_rule_witness :
    byteAt (memOf [0x41, 0x01, 0x00, 0xB1, 0x7B, 0x02]) 0 &&& 0x3f < 32 ∧
    byteAt (memOf [0x41, 0x01, 0x00, 0xB1, 0x7B, 0x02]) (0 + 1) ≤ 128 ∧
    (∀ k, k < byteAt (memOf [0x41, 0x01, 0x00, 0xB1, 0x7B, 0x02]) (0 + 1) →
      byteAt (memOf [0x41, 0x01, 0x00, 0xB1, 0x7B, 0x02]) (5 + k) < 4) ∧
    ∃ r, decode_pfor_vb 128 (memOf [0x41, 0x01, 0x00, 0xB1, 0x7B, 0x02]) 0 4 (fun _ => 0) 1
        = some (6, r) ∧
      r.slice 1 4 = [1, 2, 603, 604] := by
  have hidx : ∀ k, k < byteAt (memOf [0x41, 0x01, 0x00, 0xB1, 0x7B, 0x02]) (0 + 1) →
      byteAt (memOf [0x41, 0x01, 0x00, 0xB1, 0x7B, 0x02]) (5 + k) < 4 := by
    intro k hk
    have h1 : byteAt (memOf [0x41, 0x01, 0x00, 0xB1, 0x7B, 0x02]) (0 + 1) = 1 := by decide
    have hk0 : k = 0 := by omega
    subst hk0
    decide
  obtain ⟨r, hr, _, _⟩ :=
    (decode_pfor_vb_value_rule 128 (memOf [0x41, 0x01, 0x00, 0xB1, 0x7B, 0x02]) 0 4
      (fun _ => 0) 1 5 [300] (by decide) (by decide) (by decide) hidx).1
  refine ⟨by decide, by decide, hidx, r, hr, ?_⟩
  have hv : (decode_pfor_vb 128 (memOf [0x41, 0x01, 0x00, 0xB1, 0x7B, 0x02]) 0 4
      (fun _ => 0) 1).map (fun x => x.2.slice 1 4) = some [1, 2, 603, 604] := by decide
  rw [hr] at hv
  exact Option.some.inj hv

theorem ffs_from_spec (w : Nat) :
    ∀ (fuel k t : Nat), k ≤ t → t < k + fuel → w.testBit t = true →
      (∀ s, k ≤ s → s < t → w.testBit s = false) → ffs_from w fuel k = t + 1 := by
  intro fuel
  induction fuel with
  | zero => intro k t h1 h2 _ _; omega
  | succ fuel ih =>
    intro k t h1 h2 ht hmin
    simp only [ffs_from]
    by_cases hk : w.testBit k = true
    · have : k = t := by
        by_contra hne
        have := hmin k (le_refl k) (by omega)
        rw [this] at hk
        exact Bool.false_ne_true hk
      rw [if_pos hk, this]
    · have hkt : k ≠ t := fun e => hk (e ▸ ht)
      rw [if_neg hk]
      exact ih (k + 1) t (by omega) (by omega) ht (fun s hs1 hs2 => hmin s (by omega) hs2)

/-- A nonzero 64-bit word has a least set bit, and `ffsll` returns its index plus one. -/
theorem ffsll_spec {w : Nat} (hw : w ≠ 0) (hlt : w < 2 ^ 64) :
    ∃ t, t < 64 ∧ ffsll w = t + 1 ∧ w.testBit t = true ∧ ∀ s, s < t → w.testBit s = false := by
  have hex : ∃ t, w.testBit t = true := Nat.ne_zero_implies_bit_true hw
  refine ⟨Nat.find hex, ?_, ?_, Nat.find_spec hex, ?_⟩
  · by_contra hge
    have h1 : 2 ^ 64 ≤ 2 ^ Nat.find hex := Nat.pow_le_pow_right (by decide) (by omega)
    have h2 := Nat.testBit_implies_ge (Nat.find_spec hex)
    omega
  · have hlt64 : Nat.find hex < 64 := by
      by_contra hge
      have h1 : 2 ^ 64 ≤ 2 ^ Nat.find hex := Nat.pow_le_pow_right (by decide) (by omega)
      have h2 := Nat.testBit_implies_ge (Nat.find_spec hex)
      omega
    refine ffs_from_spec w 64 0 _ (Nat.zero_le _) (by omega) (Nat.find_spec hex) ?_
    intro s _ hs
    have := Nat.find_min hex hs
    simpa using this
  · intro s hs
    have := Nat.find_min hex hs
    simpa using this

/-- Bits of `w - 1` when `t0` is the least set bit of `w`. -/
theorem testBit_pred_of_least :
    ∀ (t0 w s : Nat), w.testBit t0 = true → (∀ s, s < t0 → w.testBit s = false) →
      (w - 1).testBit s = if s < t0 then true else if s = t0 then false else w.testBit s := by
  intro t0
  induction t0 with
  | zero =>
    intro w s h0 _
    have hodd : w % 2 = 1 := by simpa using h0
    cases s with
    | zero =>
      have : (w - 1) % 2 ≠ 1 := by omega
      simp [this]
    | succ s =>
      have e : (w - 1) / 2 = w / 2 := by omega
      simp only [Nat.testBit_add_one, e, Nat.not_lt_zero, if_false, Nat.succ_ne_zero]
  | succ t0 ih =>
    intro w s ht hmin
    have h0 : w.testBit 0 = false := hmin 0 (Nat.succ_pos _)
    have heven : w % 2 = 0 := Nat.mod_two_eq_zero_iff_testBit_zero.mpr h0
    have hne : w ≠ 0 := by
      intro e; rw [e] at ht; simp at ht
    cases s with
    | zero =>
      have : (w - 1) % 2 = 1 := by omega
      simp [this]
    | succ s =>
      have e : (w - 1) / 2 = w / 2 - 1 := by omega
      rw [Nat.testBit_add_one, e, ih (w / 2) s (by rw [Nat.testBit_div_two]; exact ht)
        (fun s hs => by rw [Nat.testBit_div_two]; exact hmin (s + 1) (by omega)),
        Nat.testBit_div_two]
      simp only [Nat.add_lt_add_iff_right, Nat.add_right_cancel_iff]

/-- Clearing the least set bit: `w & (w - 1)` is `w` without its least set bit `t0`. -/
theorem testBit_clear_least (t0 w s : Nat) (ht : w.testBit t0 = true)
    (hmin : ∀ s, s < t0 → w.testBit s = false) :
    (w &&& (w - 1)).testBit s = (w.testBit s && decide (s ≠ t0)) := by
  rw [Nat.testBit_and, testBit_pred_of_least t0 w s ht hmin]
  by_cases h1 : s < t0
  · simp [h1, hmin s h1]
  · by_cases h2 : s = t0
    · simp [h2]
    · simp [h1, h2]

theorem count_below_congr (f g : Nat → Bool) :
    ∀ t, (∀ s, s < t → f s = g s) → count_below f t = count_below g t := by
  intro t
  induction t with
  | zero => intro _; rfl
  | succ t ih =>
    intro h
    simp only [count_below]
    rw [ih (fun s hs => h s (by omega)), h t (by omega)]

theorem count_below_zero_of_false (f : Nat → Bool) :
    ∀ t, (∀ s, s < t → f s = false) → count_below f t = 0 := by
  intro t
  induction t with
  | zero => intro _; rfl
  | succ t ih =>
    intro h
    simp only [count_below]
    rw [ih (fun s hs => h s (by omega)), h t (by omega)]
    rfl

theorem count_below_le (f : Nat → Bool) : ∀ t, count_below f t ≤ t := by
  intro t
  induction t with
  | zero => exact le_refl _
  | succ t ih =>
    simp only [count_below]
    split_ifs <;> omega

/-- Counting the set bits of `w` below `t` after the least set bit `t0` was cleared. -/
theorem count_below_clear_least (t0 w : Nat) (ht : w.testBit t0 = true)
    (hmin : ∀ s, s < t0 → w.testBit s = false) :
    ∀ t, count_below w.testBit t =
      count_below (w &&& (w - 1)).testBit t + (if t0 < t then 1 else 0) := by
  intro t
  induction t with
  | zero => rfl
  | succ t ih =>
    simp only [count_below]
    rw [ih, testBit_clear_least t0 w t ht hmin]
    by_cases h1 : t = t0
    · subst h1
      simp [ht]
    · by_cases h2 : t0 < t
      · have h3 : t0 < t + 1 := by omega
        simp [h1, h2, h3]
        omega
      · have h3 : ¬ t0 < t + 1 := by omega
        simp [h1, h2, h3]

/-- The inner exception loop over one bitmap word `w` at block offset `i`: the reader is
read once per set bit, in ascending bit order; the slot of set bit `t` receives the read
number `count_below w.testBit t` shifted left by `bit_width`; other slots are kept. -/
theorem exception_word_loop_spec (m : Mem) (bit_width : Nat) (o : Int) (i : Nat) :
    ∀ (fuel w : Nat) (st : ExcState), w < 2 ^ 64 → count_below w.testBit 64 ≤ fuel →
      (exception_word_loop m bit_width o i fuel w st).bs =
        BitReader.next^[count_below w.testBit 64] st.bs ∧
      (exception_word_loop m bit_width o i fuel w st).num_exceptions =
        st.num_exceptions + count_below w.testBit 64 ∧
      (∀ t, t < 64 → w.testBit t = true →
        (exception_word_loop m bit_width o i fuel w st).out (o + ((i + t : Nat) : Int)) =
          u32 ((BitReader.next^[count_below w.testBit t] st.bs).val m <<< bit_width)) ∧
      (∀ j : Int, (∀ t, t < 64 → w.testBit t = true → j ≠ o + ((i + t : Nat) : Int)) →
        (exception_word_loop m bit_width o i fuel w st).out j = st.out j) := by
  intro fuel
  induction fuel with
  | zero =>
    intro w st _ hc
    have h0 : count_below w.testBit 64 = 0 := by omega
    have hnone : ∀ t, t < 64 → w.testBit t = false := by
      by_contra hcon
      push_neg at hcon
      obtain ⟨t, ht, hb⟩ := hcon
      have hb : w.testBit t = true := by simpa using hb
      have hw : w ≠ 0 := by intro e; rw [e] at hb; simp at hb
      obtain ⟨t0, ht0, _, hset, hmin⟩ := ffsll_spec hw (by assumption)
      have := count_below_clear_least t0 w hset hmin 64
      rw [if_pos ht0] at this
      omega
    refine ⟨by rw [h0]; rfl, by rw [h0]; rfl, ?_, fun j _ => rfl⟩
    intro t ht hb
    rw [hnone t ht] at hb
    exact absurd hb Bool.false_ne_true
  | succ fuel ih =>
    intro w st hw hc
    by_cases hz : w = 0
    · subst hz
      have h0 : count_below (Nat.testBit 0) 64 = 0 :=
        count_below_zero_of_false _ 64 (fun s _ => Nat.zero_testBit s)
      have e : exception_word_loop m bit_width o i (fuel + 1) 0 st = st := by
        simp [exception_word_loop]
      rw [e]
      refine ⟨by rw [h0]; rfl, by rw [h0]; rfl, ?_, fun j _ => rfl⟩
      intro t _ hb
      simp at hb
    · obtain ⟨t0, ht0, hffs, hset, hmin⟩ := ffsll_spec hz hw
      have hcnt := count_below_clear_least t0 w hset hmin
      have hw1 : w &&& (w - 1) < 2 ^ 64 := Nat.lt_of_le_of_lt Nat.and_le_left hw
      have hc64 := hcnt 64
      rw [if_pos ht0] at hc64
      simp only [exception_word_loop, if_neg hz, hffs, Nat.add_sub_cancel]
      obtain ⟨ib, inn, iset, ifr⟩ := ih (w &&& (w - 1))
        { bs := st.bs.next, num_exceptions := st.num_exceptions + 1,
          out := st.out.set (o + ((t0 + i : Nat) : Int)) (u32 (st.bs.val m <<< bit_width)) }
        hw1 (by omega)
      dsimp only at ib inn iset ifr
      refine ⟨?_, ?_, ?_, ?_⟩
      · rw [ib, hc64, Function.iterate_succ_apply]
      · rw [inn, hc64]; omega
      · intro t ht hb
        by_cases htt : t = t0
        · subst htt
          rw [ifr _ (fun s _ hs => by
            have := testBit_clear_least t w s hset hmin
            rw [hs] at this
            have hne : s ≠ t := by
              intro e; subst e; simp at this
            intro e
            apply hne
            have : ((i + t : Nat) : Int) = ((i + s : Nat) : Int) := by omega
            omega)]
          have e : (o + ((i + t : Nat) : Int)) = o + ((t + i : Nat) : Int) := by
            push_cast; omega
          rw [e, Buf.set_same, count_below_zero_of_false _ t hmin]
          rfl
        · have hb1 : (w &&& (w - 1)).testBit t = true := by
            rw [testBit_clear_least t0 w t hset hmin, hb]
            simp [htt]
          have hlt : t0 < t := by
            by_contra hge
            have := hmin t (by omega)
            rw [this] at hb
            exact Bool.false_ne_true hb
          rw [iset t ht hb1, hcnt t, if_pos hlt, Function.iterate_succ_apply]
      · intro j hj
        rw [ifr j (fun s hs hb => by
          have := testBit_clear_least t0 w s hset hmin
          rw [hb] at this
          have hws : w.testBit s = true := by
            cases h : w.testBit s
            · rw [h] at this; simp at this
            · rfl
          exact hj s hs hws)]
        exact Buf.set_other _ _ _ _ (by
          have := hj t0 ht0 hset
          intro e
          apply this
          rw [e]; push_cast; omega)

theorem testBit_byte_cons {b : Nat} (hb : b < 256) (A t : Nat) :
    (b + 256 * A).testBit t = if t < 8 then b.testBit t else A.testBit (t - 8) := by
  have h := Nat.testBit_mul_pow_two_add A (by omega : b < 2 ^ 8) t
  have e : 2 ^ 8 * A + b = b + 256 * A := by omega
  rw [e] at h
  exact h

/-- Bit `t` of a little-endian value is bit `t mod 8` of byte `t div 8`. -/
theorem testBit_le_bytes (m : Mem) :
    ∀ (n a t : Nat), (le_bytes m a n).testBit t =
      if t < 8 * n then (byteAt m (a + t / 8)).testBit (t % 8) else false := by
  intro n
  induction n with
  | zero => intro a t; simp [le_bytes]
  | succ n ih =>
    intro a t
    simp only [le_bytes]
    rw [testBit_byte_cons (byteAt_lt m a), ih]
    by_cases h8 : t < 8
    · have e1 : t / 8 = 0 := by omega
      have e2 : t % 8 = t := by omega
      rw [if_pos h8, if_pos (by omega), e1, e2, Nat.add_zero]
    · rw [if_neg h8]
      have e1 : a + 1 + (t - 8) / 8 = a + t / 8 := by omega
      have e2 : (t - 8) % 8 = t % 8 := by omega
      rw [e1, e2]
      by_cases hn : t < 8 * (n + 1)
      · rw [if_pos hn, if_pos (by omega)]
      · rw [if_neg hn, if_neg (by omega)]

theorem le_bytes_lt (m : Mem) : ∀ (n a : Nat), le_bytes m a n < 2 ^ (8 * n) := by
  intro n
  induction n with
  | zero => intro a; simp [le_bytes]
  | succ n ih =>
    intro a
    simp only [le_bytes]
    have h1 := byteAt_lt m a
    have h2 := ih (a + 1)
    have e : 2 ^ (8 * (n + 1)) = 256 * 2 ^ (8 * n) := by
      rw [Nat.mul_add, Nat.pow_add]; omega
    rw [e]
    omega

theorem read_le32_eq_le_bytes (m : Mem) (a : Nat) : read_le32 m a = le_bytes m a 4 := by
  simp only [read_le32, le_bytes, Nat.add_assoc, Nat.reduceAdd]
  omega

theorem read_le64_eq_le_bytes (m : Mem) (a : Nat) : read_le64 m a = le_bytes m a 8 := by
  simp only [read_le64, read_le32, le_bytes, Nat.add_assoc, Nat.reduceAdd]
  omega

theorem read_le64_lt (m : Mem) (a : Nat) : read_le64 m a < 2 ^ 64 := by
  rw [read_le64_eq_le_bytes]
  exact le_bytes_lt m 8 a

/-- Bit `t < 64` of the 64-bit word loaded at `bitmap + 8 q` is bitmap bit `64 q + t`. -/
theorem testBit_read_le64 (m : Mem) (bitmap q t : Nat) (ht : t < 64) :
    (read_le64 m (bitmap + 8 * q)).testBit t = bitmap_bit m bitmap (64 * q + t) := by
  rw [read_le64_eq_le_bytes, testBit_le_bytes, if_pos (by omega)]
  unfold bitmap_bit
  have e1 : bitmap + 8 * q + t / 8 = bitmap + (64 * q + t) / 8 := by omega
  have e2 : t % 8 = (64 * q + t) % 8 := by omega
  rw [e1, e2]

theorem count_below_add (f : Nat → Bool) (a : Nat) :
    ∀ t, count_below f (a + t) = count_below f a + count_below (fun s => f (a + s)) t := by
  intro t
  induction t with
  | zero => rfl
  | succ t ih =>
    rw [← Nat.add_assoc]
    simp only [count_below]
    rw [ih, Nat.add_assoc]

theorem count_below_stable (f : Nat → Bool) (a : Nat) (h : ∀ s, a ≤ s → f s = false) :
    ∀ N, a ≤ N → count_below f N = count_below f a := by
  intro N hN
  obtain ⟨d, rfl⟩ := Nat.exists_eq_add_of_le hN
  rw [count_below_add, count_below_zero_of_false _ d (fun s _ => h (a + s) (by omega))]
  rfl

/-- The word the exception loop works on at block offset `64 q < num` holds the masked
bitmap bits `64 q .. 64 q + 63`. -/
theorem bitmap_word_bits (m : Mem) (bitmap num q t : Nat) (hq : 64 * q < num) (ht : t < 64) :
    (if num - 64 * q < 64 then
        read_le64 m (bitmap + 8 * q) &&& ((1 <<< (num - 64 * q)) - 1)
      else read_le64 m (bitmap + 8 * q)).testBit t = masked_bit m bitmap num (64 * q + t) := by
  unfold masked_bit
  by_cases h : num - 64 * q < 64
  · rw [if_pos h, Nat.testBit_and, Nat.shiftLeft_eq, Nat.one_mul, Nat.testBit_two_pow_sub_one,
      testBit_read_le64 m bitmap q t ht]
    congr 1
    apply decide_eq_decide.mpr
    omega
  · rw [if_neg h, testBit_read_le64 m bitmap q t ht]
    have : 64 * q + t < num := by omega
    simp [this]

theorem bitmap_word_lt (m : Mem) (bitmap num q : Nat) :
    (if num - 64 * q < 64 then
        read_le64 m (bitmap + 8 * q) &&& ((1 <<< (num - 64 * q)) - 1)
      else read_le64 m (bitmap + 8 * q)) < 2 ^ 64 := by
  split_ifs
  · exact Nat.lt_of_le_of_lt Nat.and_le_left (read_le64_lt m _)
  · exact read_le64_lt m _

/-- The exception loop of `decode_pfor_bitmap` from block offset `64 q` on, entered after
the exceptions below `64 q` were read: the reader is read once per set bitmap bit below
`num`, in ascending position order, and the slot of a set bit `t` receives the read number
`count_below (masked_bit ..) t` shifted left by `bit_width`. -/
theorem exception_bitmap_loop_spec (m : Mem) (bit_width num : Nat) (o : Int) (bitmap : Nat)
    (bs0 : BitReader) :
    ∀ (fuel q : Nat) (st : ExcState), num ≤ 64 * (q + fuel) →
      st.bs = BitReader.next^[count_below (masked_bit m bitmap num) (64 * q)] bs0 →
      st.num_exceptions = count_below (masked_bit m bitmap num) (64 * q) →
      (exception_bitmap_loop m bit_width num o fuel (64 * q) (bitmap + 8 * q) st).bs =
        BitReader.next^[count_below (masked_bit m bitmap num) num] bs0 ∧
      (exception_bitmap_loop m bit_width num o fuel (64 * q) (bitmap + 8 * q) st).num_exceptions
        = count_below (masked_bit m bitmap num) num ∧
      (∀ t, 64 * q ≤ t → masked_bit m bitmap num t = true →
        (exception_bitmap_loop m bit_width num o fuel (64 * q) (bitmap + 8 * q) st).out
          (o + (t : Int)) =
          u32 ((BitReader.next^[count_below (masked_bit m bitmap num) t] bs0).val m
            <<< bit_width)) ∧
      (∀ j : Int, (∀ t, 64 * q ≤ t → masked_bit m bitmap num t = true → j ≠ o + (t : Int)) →
        (exception_bitmap_loop m bit_width num o fuel (64 * q) (bitmap + 8 * q) st).out j
          = st.out j) := by
  have hfalse : ∀ s, num ≤ s → masked_bit m bitmap num s = false := by
    intro s hs
    unfold masked_bit
    have : ¬ s < num := by omega
    simp [this]
  have hdone : ∀ (q : Nat) (st : ExcState), num ≤ 64 * q →
      st.bs = BitReader.next^[count_below (masked_bit m bitmap num) (64 * q)] bs0 →
      st.num_exceptions = count_below (masked_bit m bitmap num) (64 * q) →
      st.bs = BitReader.next^[count_below (masked_bit m bitmap num) num] bs0 ∧
      st.num_exceptions = count_below (masked_bit m bitmap num) num ∧
      (∀ t, 64 * q ≤ t → masked_bit m bitmap num t = true →
        st.out (o + (t : Int)) =
          u32 ((BitReader.next^[count_below (masked_bit m bitmap num) t] bs0).val m
            <<< bit_width)) ∧
      (∀ j : Int, (∀ t, 64 * q ≤ t → masked_bit m bitmap num t = true → j ≠ o + (t : Int)) →
        st.out j = st.out j) := by
    intro q st hq hbs hn
    have hst := count_below_stable _ num hfalse (64 * q) hq
    refine ⟨by rw [hbs, hst], by rw [hn, hst], ?_, fun j _ => rfl⟩
    intro t ht hb
    rw [hfalse t (by omega)] at hb
    exact absurd hb Bool.false_ne_true
  intro fuel
  induction fuel with
  | zero =>
    intro q st hq hbs hn
    exact hdone q st (by omega) hbs hn
  | succ fuel ih =>
    intro q st hq hbs hn
    by_cases hlt : 64 * q < num
    · simp only [exception_bitmap_loop, if_pos hlt]
      have hwb := bitmap_word_bits m bitmap num q
      have hwlt := bitmap_word_lt m bitmap num q
      generalize (if num - 64 * q < 64 then
        read_le64 m (bitmap + 8 * q) &&& ((1 <<< (num - 64 * q)) - 1)
        else read_le64 m (bitmap + 8 * q)) = w at hwb hwlt
      have hwb := fun t ht => hwb t hlt ht
      obtain ⟨wb, wn, wset, wfr⟩ := exception_word_loop_spec m bit_width o (64 * q) 64 w st
        hwlt (count_below_le _ 64)
      have hcw : ∀ t, t ≤ 64 → count_below w.testBit t =
          count_below (fun s => masked_bit m bitmap num (64 * q + s)) t :=
        fun t ht => count_below_congr _ _ t (fun s hs => hwb s (by omega))
      have e1 : 64 * q + 64 = 64 * (q + 1) := by omega
      have e2 : bitmap + 8 * q + 8 = bitmap + 8 * (q + 1) := by omega
      rw [e1, e2]
      obtain ⟨ib, inn, iset, ifr⟩ := ih (q + 1)
        (exception_word_loop m bit_width o (64 * q) 64 w st) (by omega)
        (by rw [wb, hbs, ← Function.iterate_add_apply, ← e1, count_below_add, hcw 64 (le_refl _),
              Nat.add_comm])
        (by rw [wn, hn, ← e1, count_below_add, hcw 64 (le_refl _)])
      refine ⟨ib, inn, ?_, ?_⟩
      · intro t ht hb
        by_cases h64 : t < 64 * q + 64
        · obtain ⟨d, rfl⟩ := Nat.exists_eq_add_of_le ht
          have hd : d < 64 := by omega
          rw [ifr _ (fun s hs _ => by omega)]
          have hwd : w.testBit d = true := by rw [hwb d hd]; exact hb
          have := wset d hd hwd
          rw [this, hbs, ← Function.iterate_add_apply, count_below_add, hcw d (by omega),
            Nat.add_comm]
        · exact iset t (by omega) hb
      · intro j hj
        rw [ifr j (fun t ht hb => hj t (by omega) hb)]
        apply wfr
        intro t ht hb
        rw [hwb t ht] at hb
        have := hj (64 * q + t) (by omega) hb
        exact this
    · have e : exception_bitmap_loop m bit_width num o (fuel + 1) (64 * q) (bitmap + 8 * q) st
          = st := by
        simp only [exception_bitmap_loop, if_neg hlt]
      rw [e]
      exact hdone q st (by omega) hbs hn

theorem pfor_bitmap_base_loop_eq (m : Mem) (o : Int) :
    ∀ (n i : Nat) (bs : BitReader) (prev : Nat) (out : Buf),
      pfor_bitmap_base_loop m o n i bs prev out =
        scan_loop (fun (bs : BitReader) (old : Nat) => old ||| bs.val m) BitReader.next
          o n i bs prev out := by
  intro n
  induction n with
  | zero => intro i bs prev out; rfl
  | succ n ih => intro i bs prev out; simp only [pfor_bitmap_base_loop, scan_loop, ih]

theorem masked_rank_eq (m : Mem) (bitmap num i : Nat) (hi : i ≤ num) :
    count_below (masked_bit m bitmap num) i = bitmap_rank m bitmap i := by
  unfold bitmap_rank
  apply count_below_congr
  intro s hs
  unfold masked_bit
  have : s < num := by omega
  simp [this]

/-- The state after the exception loop of `decode_pfor_bitmap`: the exception count is the
number of set bitmap bits below `num`, a slot `i < num` holds the shifted exception of its
rank when bitmap bit `i` is set and 0 otherwise, and the slot before the block is kept. -/
theorem decode_pfor_bitmap_exceptions (m : Mem) (p num : Nat) (out : Buf) (o : Int) :
    (exception_bitmap_loop m (byteAt m p &&& 0x3f) num o num 0 (p + 2)
        { bs := BitReader.init (p + 2 + div_round_up num 8) (byteAt m (p + 1)),
          num_exceptions := 0, out := out.zero o num }).num_exceptions
      = bitmap_rank m (p + 2) num ∧
    (exception_bitmap_loop m (byteAt m p &&& 0x3f) num o num 0 (p + 2)
        { bs := BitReader.init (p + 2 + div_round_up num 8) (byteAt m (p + 1)),
          num_exceptions := 0, out := out.zero o num }).out (o - 1) = out (o - 1) ∧
    ∀ i : Nat, i < num →
      (exception_bitmap_loop m (byteAt m p &&& 0x3f) num o num 0 (p + 2)
        { bs := BitReader.init (p + 2 + div_round_up num 8) (byteAt m (p + 1)),
          num_exceptions := 0, out := out.zero o num }).out (o + (i : Int)) =
        if bitmap_bit m (p + 2) i then
          u32 ((BitReader.init (p + 2 + div_round_up num 8) (byteAt m (p + 1))).nth m
            (bitmap_rank m (p + 2) i) <<< (byteAt m p &&& 0x3f))
        else 0 := by
  have h := exception_bitmap_loop_spec m (byteAt m p &&& 0x3f) num o (p + 2)
    (BitReader.init (p + 2 + div_round_up num 8) (byteAt m (p + 1))) num 0
    { bs := BitReader.init (p + 2 + div_round_up num 8) (byteAt m (p + 1)),
      num_exceptions := 0, out := out.zero o num } (by omega) rfl rfl
  simp only [Nat.mul_zero, Nat.add_zero] at h
  obtain ⟨_, hn, hset, hfr⟩ := h
  refine ⟨by rw [hn, masked_rank_eq m (p + 2) num num (le_refl _)], ?_, ?_⟩
  · rw [hfr _ (fun t _ _ => by omega)]
    simp [Buf.zero]
  · intro i hi
    by_cases hb : bitmap_bit m (p + 2) i = true
    · have hmb : masked_bit m (p + 2) num i = true := by
        unfold masked_bit; simp [hb, hi]
      rw [if_pos hb, hset i (Nat.zero_le _) hmb, masked_rank_eq m (p + 2) num i (by omega)]
      rfl
    · rw [if_neg hb, hfr _ (fun t _ ht => by
        intro e
        have : t = i := by omega
        subst this
        unfold masked_bit at ht
        simp [hb] at ht)]
      have : o + (i : Int) < o + (num : Int) := by omega
      simp [Buf.zero, this]

/-- Result of `decode_pfor_bitmap`: the slot before the block is kept and every slot
`i < num` is the slot before it plus the combined value of position `i` plus one. -/
theorem decode_pfor_bitmap_spec (m : Mem) (p num : Nat) (out : Buf) (o : Int) :
    (decode_pfor_bitmap m p num out o).2 (o - 1) = out (o - 1) ∧
    ∀ i : Nat, i < num →
      (decode_pfor_bitmap m p num out o).2 (o + (i : Int)) =
        u32 ((decode_pfor_bitmap m p num out o).2 (o + (i : Int) - 1) +
          pfor_bitmap_combined m p num i + 1) := by
  obtain ⟨hn, hprev, hout⟩ := decode_pfor_bitmap_exceptions m p num out o
  simp only [decode_pfor_bitmap, pfor_bitmap_base_loop_eq]
  refine ⟨by rw [scan_loop_frame _ _ _ _ _ _ _ _ _ (by push_cast; omega), hprev], ?_⟩
  intro i hi
  rw [scan_loop_step _ _ _ _ _ _ i hi, hout i hi, hn]
  congr 2
  unfold pfor_bitmap_combined BitReader.nth
  by_cases hb : bitmap_bit m (p + 2) i = true
  · simp only [hb, if_true]
    rw [Nat.lor_comm]
  · simp only [hb]
    rw [if_neg (by simp), if_neg (by simp), Nat.zero_or]
/-- C2: PFOR_BITMAP block with header bit width `b < 32` and exception width `b_exc ≤ 32`:
the slot before the block is kept, and for every `i < num`, `out[i] = out[i-1] + c_i + 1`
modulo `2^32`, where `c_i = base_i | (h_r << b)` when bitmap bit `i` is set, `r` being the
number of set bitmap bits below `i`, and `c_i = base_i` otherwise; `base_i` and `h_j` are the
successive reads of contiguous readers of widths `b` and `b_exc` over the base-value region
and the exception region. -/
theorem decode_pfor_bitmap_value_rule (m : Mem) (p num : Nat) (out : Buf) (o : Int)
    (_hb : byteAt m p &&& 0x3f < 32) (_hbe : byteAt m (p + 1) ≤ 32) :
    (decode_pfor_bitmap m p num out o).2 (o - 1) = out (o - 1) ∧
    ∀ i : Nat, i < num →
      (decode_pfor_bitmap m p num out o).2 (o + (i : Int)) =
        u32 ((decode_pfor_bitmap m p num out o).2 (o + (i : Int) - 1) +
          pfor_bitmap_combined m p num i + 1) := by
  exact decode_pfor_bitmap_spec m p num out o

/-- Witness for `decode_pfor_bitmap_value_rule` on the block `82 04 24 65 55 55` (`b = 2`,
`b_exc = 4`, bitmap `0x24`, exceptions 5 and 6, base values 1) with `num = 8`: the combined
value of position 2 is `1 | (5 << 2) = 21` and `out[2] = out[1] + 21 + 1`. -/
theorem decode_pfor_bitmap_value_rule_witness :
    byteAt (memOf [0x82, 0x04, 0x24, 0x65, 0x55, 0x55]) 0 &&& 0x3f < 32 ∧
    byteAt (memOf [0x82, 0x04, 0x24, 0x65, 0x55, 0x55]) (0 + 1) ≤ 32 ∧
    (decode_pfor_bitmap (memOf [0x82, 0x04, 0x24, 0x65, 0x55, 0x55]) 0 8 (fun _ => 0) 1).2
        (1 + ((2 : Nat) : Int)) =
      u32 ((decode_pfor_bitmap (memOf [0x82, 0x04, 0x24, 0x65, 0x55, 0x55]) 0 8 (fun _ => 0) 1).2
        (1 + ((2 : Nat) : Int) - 1) +
        pfor_bitmap_combined (memOf [0x82, 0x04, 0x24, 0x65, 0x55, 0x55]) 0 8 2 + 1) ∧
    pfor_bitmap_combined (memOf [0x82, 0x04, 0x24, 0x65, 0x55, 0x55]) 0 8 2 = 21 :=
  ⟨by decide, by decide,
    (decode_pfor_bitmap_value_rule (memOf [0x82, 0x04, 0x24, 0x65, 0x55, 0x55]) 0 8 (fun _ => 0) 1
      (by decide) (by decide)).2 2 (by decide),
    by decide⟩

/-- Exception width 32: the constructor's mask `(1U << 32) - 1` is 0, so every exception
value is read as 0.  The PFOR_BITMAP block `80 20 01 01 00 00 00` (`b = 0`, `b_exc = 32`,
bitmap `01`, one exception stored as `00000001`) with `num = 2` after the value 0 decodes to
1, 2 and ends 7 bytes further. -/
theorem decode_pfor_bitmap_exception_width_32 :
    (decode_pfor_bitmap (memOf [0x80, 0x20, 0x01, 0x01, 0x00, 0x00, 0x00]) 0 2
      (fun _ => 0) 1).1 = 7 ∧
    (decode_pfor_bitmap (memOf [0x80, 0x20, 0x01, 0x01, 0x00, 0x00, 0x00]) 0 2
      (fun _ => 0) 1).2.slice 1 2 = [1, 2] ∧
    (BitReader.init 3 32).nth (memOf [0x80, 0x20, 0x01, 0x01, 0x00, 0x00, 0x00]) 0 = 0 := by
  refine ⟨by decide, by decide, by decide⟩

theorem decode_for_loop_eq (m : Mem) (o : Int) :
    ∀ (n i : Nat) (bs : BitReader) (prev : Nat) (out : Buf),
      decode_for_loop m o n i bs prev out =
        scan_loop (fun (bs : BitReader) (_ : Nat) => bs.val m) BitReader.next
          o n i bs prev out := by
  intro n
  induction n with
  | zero => intro i bs prev out; rfl
  | succ n ih => intro i bs prev out; simp only [decode_for_loop, scan_loop, ih]

/-- Result of `decode_constant`: every slot is the slot before it plus the stored value plus
one; the slot before the block is kept. -/
theorem decode_constant_spec (m : Mem) (p num : Nat) (out : Buf) (o : Int) :
    (decode_constant m p num out o).2 (o - 1) = out (o - 1) ∧
    ∀ i : Nat, i < num →
      (decode_constant m p num out o).2 (o + (i : Int)) =
        u32 ((decode_constant m p num out o).2 (o + (i : Int) - 1) +
          (if byteAt m p &&& 0x3f < 32 then read_le32 m (p + 1) &&& mask_of (byteAt m p &&& 0x3f)
            else read_le32 m (p + 1)) + 1) := by
  simp only [decode_constant, decode_constant_loop_eq]
  refine ⟨scan_loop_frame _ _ _ _ _ _ _ _ _ (by push_cast; omega), ?_⟩
  intro i hi
  rw [scan_loop_step _ _ _ _ _ _ i hi]

/-- Result of `decode_for`: every slot is the slot before it plus the next read of the
contiguous reader plus one; the slot before the block is kept. -/
theorem decode_for_spec (m : Mem) (p num : Nat) (out : Buf) (o : Int) :
    (decode_for m p num out o).2 (o - 1) = out (o - 1) ∧
    ∀ i : Nat, i < num →
      (decode_for m p num out o).2 (o + (i : Int)) =
        u32 ((decode_for m p num out o).2 (o + (i : Int) - 1) +
          (BitReader.init (p + 1) (byteAt m p &&& 0x3f)).nth m i + 1) := by
  simp only [decode_for, decode_for_loop_eq]
  refine ⟨scan_loop_frame _ _ _ _ _ _ _ _ _ (by push_cast; omega), ?_⟩
  intro i hi
  rw [scan_loop_step _ _ _ _ _ _ i hi]
  rfl

/-- Two arrays that obey the same delta-plus-one recurrence over `[0, num)` and whose
previous values differ by `D0` differ by `D0` (modulo `2^32`) at every position. -/
theorem seed_shift_of_rec (r r1 : Buf) (o : Int) (c : Nat → Nat) (num D0 : Nat)
    (h0 : r1 (o - 1) = u32 (r (o - 1) + D0))
    (hr : ∀ i : Nat, i < num → r (o + (i : Int)) = u32 (r (o + (i : Int) - 1) + c i + 1))
    (hr1 : ∀ i : Nat, i < num → r1 (o + (i : Int)) = u32 (r1 (o + (i : Int) - 1) + c i + 1)) :
    ∀ i : Nat, i < num → r1 (o + (i : Int)) = u32 (r (o + (i : Int)) + D0) := by
  intro i
  induction i with
  | zero =>
    intro hi
    have e : o + ((0 : Nat) : Int) - 1 = o - 1 := by push_cast; omega
    rw [hr1 0 hi, hr 0 hi, e, h0]
    unfold u32
    omega
  | succ i ih =>
    intro hi
    have e : o + ((i + 1 : Nat) : Int) - 1 = o + (i : Int) := by push_cast; omega
    rw [hr1 (i + 1) hi, hr (i + 1) hi, e, ih (by omega)]
    unfold u32
    omega

/-- A successful `decode_pfor_vb` had room for its exceptions and decoded them. -/
theorem decode_pfor_vb_some (BlockSize : Nat) (m : Mem) (p num : Nat) (out : Buf) (o : Int)
    (c : Nat) (r : Buf) (h : decode_pfor_vb BlockSize m p num out o = some (c, r)) :
    byteAt m (p + 1) ≤ BlockSize ∧
    ∃ in2 es, read_exceptions m (p + 2 + bytes_for_packed_bits num (byteAt m p &&& 0x3f))
      (byteAt m (p + 1)) = some (in2, es) := by
  unfold decode_pfor_vb at h
  simp only at h
  split_ifs at h with hlt
  refine ⟨by omega, ?_⟩
  cases hre : read_exceptions m (p + 2 + bytes_for_packed_bits num (byteAt m p &&& 0x3f))
      (byteAt m (p + 1)) with
  | none => rw [hre] at h; simp at h
  | some x => exact ⟨x.1, x.2, rfl⟩

/-- C10: seed independence of the block decoders `decode_constant`, `decode_for`,
`decode_pfor_bitmap` and `decode_pfor_vb`: decoding with the previous value `s0 + D0`
(as a 32-bit value) instead of `s0 = out[-1]` returns the same cursor, and every output
`out[i]`, `i < num`, is the output of the `s0` run plus `D0`, modulo `2^32`; for
`decode_pfor_vb` whenever the `s0` run succeeds. -/
theorem block_seed_independence (BlockSize : Nat) (m : Mem) (p num : Nat) (out : Buf)
    (o : Int) (D0 : Nat) :
    ((decode_constant m p num (out.set (o - 1) (u32 (out (o - 1) + D0))) o).1 =
        (decode_constant m p num out o).1 ∧
      ∀ i : Nat, i < num →
        (decode_constant m p num (out.set (o - 1) (u32 (out (o - 1) + D0))) o).2 (o + (i : Int)) =
          u32 ((decode_constant m p num out o).2 (o + (i : Int)) + D0)) ∧
    ((decode_for m p num (out.set (o - 1) (u32 (out (o - 1) + D0))) o).1 =
        (decode_for m p num out o).1 ∧
      ∀ i : Nat, i < num →
        (decode_for m p num (out.set (o - 1) (u32 (out (o - 1) + D0))) o).2 (o + (i : Int)) =
          u32 ((decode_for m p num out o).2 (o + (i : Int)) + D0)) ∧
    ((decode_pfor_bitmap m p num (out.set (o - 1) (u32 (out (o - 1) + D0))) o).1 =
        (decode_pfor_bitmap m p num out o).1 ∧
      ∀ i : Nat, i < num →
        (decode_pfor_bitmap m p num (out.set (o - 1) (u32 (out (o - 1) + D0))) o).2
            (o + (i : Int)) =
          u32 ((decode_pfor_bitmap m p num out o).2 (o + (i : Int)) + D0)) ∧
    (∀ (c : Nat) (r : Buf), decode_pfor_vb BlockSize m p num out o = some (c, r) →
      ∃ r1, decode_pfor_vb BlockSize m p num (out.set (o - 1) (u32 (out (o - 1) + D0))) o =
          some (c, r1) ∧
        ∀ i : Nat, i < num → r1 (o + (i : Int)) = u32 (r (o + (i : Int)) + D0)) := by
  refine ⟨⟨rfl, ?_⟩, ⟨rfl, ?_⟩, ⟨?_, ?_⟩, ?_⟩
  · have h := decode_constant_spec m p num out o
    have h1 := decode_constant_spec m p num (out.set (o - 1) (u32 (out (o - 1) + D0))) o
    exact seed_shift_of_rec _ _ o _ num D0 (by rw [h1.1, h.1, Buf.set_same]) h.2 h1.2
  · have h := decode_for_spec m p num out o
    have h1 := decode_for_spec m p num (out.set (o - 1) (u32 (out (o - 1) + D0))) o
    exact seed_shift_of_rec _ _ o _ num D0 (by rw [h1.1, h.1, Buf.set_same]) h.2 h1.2
  · have h := (decode_pfor_bitmap_exceptions m p num out o).1
    have h1 := (decode_pfor_bitmap_exceptions m p num
      (out.set (o - 1) (u32 (out (o - 1) + D0))) o).1
    simp only [decode_pfor_bitmap, h, h1]
  · have h := decode_pfor_bitmap_spec m p num out o
    have h1 := decode_pfor_bitmap_spec m p num (out.set (o - 1) (u32 (out (o - 1) + D0))) o
    exact seed_shift_of_rec _ _ o _ num D0 (by rw [h1.1, h.1, Buf.set_same]) h.2 h1.2
  · intro c r hdec
    obtain ⟨hn, in2, es, hes⟩ := decode_pfor_vb_some BlockSize m p num out o c r hdec
    obtain ⟨r0, hr0, hp0, hs0⟩ := decode_pfor_vb_spec BlockSize m p num out o in2 es hn hes
    obtain ⟨r1, hr1, hp1, hs1⟩ := decode_pfor_vb_spec BlockSize m p num
      (out.set (o - 1) (u32 (out (o - 1) + D0))) o in2 es hn hes
    rw [hr0] at hdec
    simp only [Option.some.injEq, Prod.mk.injEq] at hdec
    obtain ⟨hc, hr⟩ := hdec
    subst hr
    rw [hc] at hr1
    exact ⟨r1, hr1,
      seed_shift_of_rec _ _ o _ num D0 (by rw [hp1, hp0, Buf.set_same]) hs0 hs1⟩

/-- Witness for `block_seed_independence`: the PFOR_VB block `41 01 00 B1 7B 02` with
`num = 4` decodes after the value 0 and, after the value 1000, gives every output plus 1000. -/
theorem block_seed_independence_witness :
    ∃ r r1, decode_pfor_vb 128 (memOf [0x41, 0x01, 0x00, 0xB1, 0x7B, 0x02]) 0 4 (fun _ => 0) 1
        = some (6, r) ∧
      decode_pfor_vb 128 (memOf [0x41, 0x01, 0x00, 0xB1, 0x7B, 0x02]) 0 4
        (Buf.set (fun _ => 0) (1 - 1) (u32 ((fun _ => 0 : Buf) (1 - 1) + 1000))) 1
        = some (6, r1) ∧
      ∀ i : Nat, i < 4 → r1 (1 + (i : Int)) = u32 (r (1 + (i : Int)) + 1000) := by
  obtain ⟨r, hr, _⟩ := decode_pfor_vb_spec 128 (memOf [0x41, 0x01, 0x00, 0xB1, 0x7B, 0x02]) 0 4
    (fun _ => 0) 1 5 [300] (by decide) (by decide)
  have hr6 : decode_pfor_vb 128 (memOf [0x41, 0x01, 0x00, 0xB1, 0x7B, 0x02]) 0 4 (fun _ => 0) 1
      = some (6, r) := hr
  obtain ⟨r1, h1, h2⟩ := (block_seed_independence 128
    (memOf [0x41, 0x01, 0x00, 0xB1, 0x7B, 0x02]) 0 4 (fun _ => 0) 1 1000).2.2.2 6 r hr6
  exact ⟨r, r1, hr6, h1, h2⟩

/-- Slots outside `[4 i, 4 (i + n))` are left alone by the interleaved unpacking loop. -/
theorem unpack_interleaved_frame (m : Mem) (o : Int) :
    ∀ (n i : Nat) (l : Lanes) (out : Buf) (j : Int),
      (j < o + 4 * (i : Int) ∨ o + 4 * ((i : Int) + n) ≤ j) →
        unpack_interleaved m o n i l out j = out j := by
  intro n
  induction n with
  | zero => intro i l out j _; rfl
  | succ n ih =>
    intro i l out j hj
    simp only [unpack_interleaved]
    rw [ih (i + 1) _ _ j (by push_cast; omega)]
    rw [Buf.set_other _ _ _ _ (by push_cast; omega), Buf.set_other _ _ _ _ (by push_cast; omega),
      Buf.set_other _ _ _ _ (by push_cast; omega), Buf.set_other _ _ _ _ (by push_cast; omega)]

theorem Lanes.nth_next (m : Mem) (l : Lanes) (k : Nat) :
    l.next.nth m k = l.nth m (k + 4) := by
  have e1 : (k + 4) % 4 = k % 4 := by omega
  have e2 : (k + 4) / 4 = k / 4 + 1 := by omega
  simp only [Lanes.nth, Lanes.next, InterleavedBitReader.nth, e1, e2,
    Function.iterate_succ_apply]

/-- The interleaved unpacking loop stores at position `4 i + k` the value the lanes deliver
for position `k`. -/
theorem unpack_interleaved_get (m : Mem) (o : Int) :
    ∀ (n i : Nat) (l : Lanes) (out : Buf) (k : Nat), k < 4 * n →
      unpack_interleaved m o n i l out (o + ((4 * i + k : Nat) : Int)) = l.nth m k := by
  intro n
  induction n with
  | zero => intro i l out k hk; omega
  | succ n ih =>
    intro i l out k hk
    simp only [unpack_interleaved]
    by_cases h4 : k < 4
    · rw [unpack_interleaved_frame m o n (i + 1) _ _ _ (by push_cast; omega)]
      have hk4 : k = 0 ∨ k = 1 ∨ k = 2 ∨ k = 3 := by omega
      rcases hk4 with rfl | rfl | rfl | rfl
      · rw [Buf.set_other _ _ _ _ (by push_cast; omega),
          Buf.set_other _ _ _ _ (by push_cast; omega),
          Buf.set_other _ _ _ _ (by push_cast; omega)]
        have e : (o + ((4 * i + 0 : Nat) : Int)) = o + ((i * 4 + 0 : Nat) : Int) := by
          push_cast; omega
        rw [e, Buf.set_same]
        rfl
      · rw [Buf.set_other _ _ _ _ (by push_cast; omega),
          Buf.set_other _ _ _ _ (by push_cast; omega)]
        have e : (o + ((4 * i + 1 : Nat) : Int)) = o + ((i * 4 + 1 : Nat) : Int) := by
          push_cast; omega
        rw [e, Buf.set_same]
        rfl
      · rw [Buf.set_other _ _ _ _ (by push_cast; omega)]
        have e : (o + ((4 * i + 2 : Nat) : Int)) = o + ((i * 4 + 2 : Nat) : Int) := by
          push_cast; omega
        rw [e, Buf.set_same]
        rfl
      · have e : (o + ((4 * i + 3 : Nat) : Int)) = o + ((i * 4 + 3 : Nat) : Int) := by
          push_cast; omega
        rw [e, Buf.set_same]
        rfl
    · obtain ⟨d, rfl⟩ := Nat.exists_eq_add_of_le (Nat.le_of_not_lt h4)
      have e : (o + ((4 * i + (4 + d) : Nat) : Int)) = o + ((4 * (i + 1) + d : Nat) : Int) := by
        push_cast; omega
      rw [e, ih (i + 1) _ _ d (by omega), Lanes.nth_next, Nat.add_comm d 4]

set_option maxRecDepth 1000000 in
/-- C4 at a failing input: a full block of 128 gaps of width `b = 27`, previous value 0, gap
`2^26` at position 2. On the contiguous packing `decode_for` writes `out[2] = 3`: the third
read starts at bit 6 of its 32-bit load, so bit 26 of the field is lost.
`decode_for_interleaved` on the 4-lane packing writes `out[2] = 2^26 + 3`. Both return the
cursor `1 + 432`. -/
theorem decode_for_wide_field_mismatch :
    (decode_for (memOf (27 :: pack_contiguous 27 wide_gap_block)) 0 128 (fun _ => 0) 1).1 = 433 ∧
    (decode_for_interleaved 128 (memOf (27 :: pack_interleaved 27 wide_gap_block)) 0
      (fun _ => 0) 1).1 = 433 ∧
    (decode_for (memOf (27 :: pack_contiguous 27 wide_gap_block)) 0 128 (fun _ => 0) 1).2 (1 + 2)
      = 3 ∧
    (decode_for_interleaved 128 (memOf (27 :: pack_interleaved 27 wide_gap_block)) 0
      (fun _ => 0) 1).2 (1 + 2) = 67108867 := by
  refine ⟨by decide, by decide, by decide, by decide⟩

/-- Every slot written by a scan loop over `[0, n)` holds a 32-bit value. -/
theorem scan_loop_lt {σ : Type} (g : σ → Nat → Nat) (adv : σ → σ) (o : Int) (n : Nat) (s : σ)
    (prev : Nat) (out : Buf) (t : Nat) (ht : t < n) :
    scan_loop g adv o n 0 s prev out (o + (t : Int)) < 4294967296 := by
  have h := scan_loop_get g adv o n 0 s prev out t ht
  simp only [Nat.zero_add] at h
  rw [h]
  exact scan_val_lt _ _ _

theorem Buf.zero_frame (out : Buf) (o : Int) (n : Nat) (j : Int) (hj : j < o) :
    out.zero o n j = out j := by
  have : ¬ (o ≤ j ∧ j < o + (n : Int)) := by omega
  simp [Buf.zero, this]

/-- The inner exception loop keeps the slots before the block. -/
theorem exception_word_loop_frame (m : Mem) (bit_width : Nat) (o : Int) (i : Nat) :
    ∀ (fuel w : Nat) (st : ExcState) (j : Int), j < o →
      (exception_word_loop m bit_width o i fuel w st).out j = st.out j := by
  intro fuel
  induction fuel with
  | zero => intro w st j _; rfl
  | succ fuel ih =>
    intro w st j hj
    simp only [exception_word_loop]
    split_ifs
    · rfl
    · rw [ih _ _ j hj]
      exact Buf.set_other _ _ _ _ (by push_cast; omega)

theorem exception_bitmap_loop_frame (m : Mem) (bit_width num : Nat) (o : Int) :
    ∀ (fuel i ptr : Nat) (st : ExcState) (j : Int), j < o →
      (exception_bitmap_loop m bit_width num o fuel i ptr st).out j = st.out j := by
  intro fuel
  induction fuel with
  | zero => intro i ptr st j _; rfl
  | succ fuel ih =>
    intro i ptr st j hj
    simp only [exception_bitmap_loop]
    split_ifs
    · rw [ih _ _ _ j hj, exception_word_loop_frame _ _ _ _ _ _ _ j hj]
    · rw [ih _ _ _ j hj, exception_word_loop_frame _ _ _ _ _ _ _ j hj]
    · rfl

theorem exception_bitmap_loop_interleaved_frame (m : Mem) (bit_width BlockSize : Nat)
    (o : Int) :
    ∀ (fuel i ptr : Nat) (st : ExcState) (j : Int), j < o →
      (exception_bitmap_loop_interleaved m bit_width BlockSize o fuel i ptr st).out j
        = st.out j := by
  intro fuel
  induction fuel with
  | zero => intro i ptr st j _; rfl
  | succ fuel ih =>
    intro i ptr st j hj
    simp only [exception_bitmap_loop_interleaved]
    split_ifs
    · rw [ih _ _ _ j hj, exception_word_loop_frame _ _ _ _ _ _ _ j hj]
    · rfl

theorem unpack_interleaved_or_frame (m : Mem) (o : Int) :
    ∀ (n i : Nat) (l : Lanes) (out : Buf) (j : Int), j < o →
      unpack_interleaved_or m o n i l out j = out j := by
  intro n
  induction n with
  | zero => intro i l out j _; rfl
  | succ n ih =>
    intro i l out j hj
    simp only [unpack_interleaved_or]
    rw [ih (i + 1) _ _ j hj]
    rw [Buf.set_other _ _ _ _ (by push_cast; omega), Buf.set_other _ _ _ _ (by push_cast; omega),
      Buf.set_other _ _ _ _ (by push_cast; omega), Buf.set_other _ _ _ _ (by push_cast; omega)]

/-- The final delta loop writes 32-bit values into `[0, n)` and keeps the slots before the
block. -/
theorem delta_decode_frame_bound (o : Int) (n prev : Nat) (out : Buf) :
    (∀ j : Int, j < o → delta_decode o n 0 prev out j = out j) ∧
    (∀ t : Nat, t < n → delta_decode o n 0 prev out (o + (t : Int)) < 4294967296) := by
  rw [delta_decode_eq]
  exact ⟨fun j hj => scan_loop_frame _ _ _ _ _ _ _ _ j (by push_cast; omega),
    fun t ht => scan_loop_lt _ _ _ _ _ _ _ t ht⟩

theorem apply_exceptions_fst (m : Mem) (bit_width : Nat) (es : List Nat) (o : Int) :
    ∀ (n k p : Nat) (out : Buf), (apply_exceptions m bit_width es o n k p out).1 = p + n := by
  intro n
  induction n with
  | zero => intro k p out; rfl
  | succ n ih =>
    intro k p out
    simp only [apply_exceptions]
    rw [ih]
    omega

/-- A block decoded by `decode_block` keeps every slot before its output pointer and fills
its `n` slots with 32-bit values (`n` being `BlockSize` for the interleaved decoders). -/
theorem decode_block_frame_bound (BlockSize : Nat) (m : Mem) (interleaved : Bool) (p n : Nat)
    (out : Buf) (o : Int) (p1 : Nat) (out1 : Buf)
    (h : decode_block BlockSize m interleaved p n out o = some (p1, out1)) :
    (∀ j : Int, j < o → out1 j = out j) ∧
    (∀ t : Nat, t < n → out1 (o + (t : Int)) < 4294967296) := by
  have hty : byteAt m p >>> 6 < 4 := by
    have := byteAt_lt m p
    rw [Nat.shiftRight_eq_div_pow]
    omega
  unfold decode_block at h
  split_ifs at h with h0 hi h1 hi h2 hi h3
  · -- FOR, interleaved
    simp only [decode_for_interleaved, Option.some.injEq, Prod.mk.injEq] at h
    obtain ⟨_, rfl⟩ := h
    obtain ⟨hf, hb⟩ := delta_decode_frame_bound o BlockSize
      (unpack_interleaved m o (BlockSize / 4) 0 (Lanes.init (p + 1) (byteAt m p &&& 0x3f)) out
        (o - 1))
      (unpack_interleaved m o (BlockSize / 4) 0 (Lanes.init (p + 1) (byteAt m p &&& 0x3f)) out)
    refine ⟨fun j hj => ?_, fun t ht => hb t (by omega)⟩
    rw [hf j hj, unpack_interleaved_frame _ _ _ _ _ _ _ (by push_cast; omega)]
  · -- FOR
    simp only [decode_for, decode_for_loop_eq, Option.some.injEq, Prod.mk.injEq] at h
    obtain ⟨_, rfl⟩ := h
    exact ⟨fun j hj => scan_loop_frame _ _ _ _ _ _ _ _ j (by push_cast; omega),
      fun t ht => scan_loop_lt _ _ _ _ _ _ _ t ht⟩
  · -- PFOR_VB, interleaved
    unfold decode_pfor_vb_interleaved at h
    simp only at h
    split_ifs at h
    cases hre : read_exceptions m (p + 2 + bytes_for_packed_bits BlockSize (byteAt m p &&& 0x3f))
        (byteAt m (p + 1)) with
    | none => rw [hre] at h; simp at h
    | some x =>
      rw [hre] at h
      simp only [Option.some.injEq, Prod.mk.injEq] at h
      obtain ⟨_, rfl⟩ := h
      obtain ⟨hf, hb⟩ := delta_decode_frame_bound o BlockSize
        ((apply_exceptions m (byteAt m p &&& 0x3f) x.2 o (byteAt m (p + 1)) 0 x.1
          (unpack_interleaved m o (BlockSize / 4) 0 (Lanes.init (p + 2) (byteAt m p &&& 0x3f))
            out)).2 (o - 1))
        (apply_exceptions m (byteAt m p &&& 0x3f) x.2 o (byteAt m (p + 1)) 0 x.1
          (unpack_interleaved m o (BlockSize / 4) 0 (Lanes.init (p + 2) (byteAt m p &&& 0x3f))
            out)).2
      refine ⟨fun j hj => ?_, fun t ht => hb t (by omega)⟩
      rw [hf j hj, apply_exceptions_frame _ _ _ _ _ _ _ _ j hj,
        unpack_interleaved_frame _ _ _ _ _ _ _ (by push_cast; omega)]
  · -- PFOR_VB
    unfold decode_pfor_vb at h
    simp only at h
    split_ifs at h
    cases hre : read_exceptions m (p + 2 + bytes_for_packed_bits n (byteAt m p &&& 0x3f))
        (byteAt m (p + 1)) with
    | none => rw [hre] at h; simp at h
    | some x =>
      rw [hre] at h
      simp only [Option.some.injEq, Prod.mk.injEq] at h
      obtain ⟨_, rfl⟩ := h
      obtain ⟨hf, hb⟩ := delta_decode_frame_bound o n
        ((apply_exceptions m (byteAt m p &&& 0x3f) x.2 o (byteAt m (p + 1)) 0 x.1
          (unpack_contiguous m o n 0 (BitReader.init (p + 2) (byteAt m p &&& 0x3f)) out)).2
            (o - 1))
        (apply_exceptions m (byteAt m p &&& 0x3f) x.2 o (byteAt m (p + 1)) 0 x.1
          (unpack_contiguous m o n 0 (BitReader.init (p + 2) (byteAt m p &&& 0x3f)) out)).2
      refine ⟨fun j hj => ?_, hb⟩
      rw [hf j hj, apply_exceptions_frame _ _ _ _ _ _ _ _ j hj,
        unpack_contiguous_frame _ _ _ _ _ _ _ (by push_cast; omega)]
  · -- PFOR_BITMAP, interleaved
    simp only [decode_pfor_bitmap_interleaved, Option.some.injEq, Prod.mk.injEq] at h
    obtain ⟨_, rfl⟩ := h
    refine ⟨fun j hj => ?_, fun t ht => ?_⟩
    · rw [(delta_decode_frame_bound o BlockSize _ _).1 j hj,
        unpack_interleaved_or_frame _ _ _ _ _ _ j hj,
        exception_bitmap_loop_interleaved_frame _ _ _ _ _ _ _ _ j hj]
      exact Buf.zero_frame _ _ _ _ hj
    · exact (delta_decode_frame_bound o BlockSize _ _).2 t (by omega)
  · -- PFOR_BITMAP
    simp only [decode_pfor_bitmap, pfor_bitmap_base_loop_eq, Option.some.injEq,
      Prod.mk.injEq] at h
    obtain ⟨_, rfl⟩ := h
    refine ⟨fun j hj => ?_, fun t ht => scan_loop_lt _ _ _ _ _ _ _ t ht⟩
    rw [scan_loop_frame _ _ _ _ _ _ _ _ j (by push_cast; omega),
      exception_bitmap_loop_frame _ _ _ _ _ _ _ _ j hj]
    exact Buf.zero_frame _ _ _ _ hj
  · -- CONSTANT
    simp only [decode_constant, decode_constant_loop_eq, Option.some.injEq, Prod.mk.injEq] at h
    obtain ⟨_, rfl⟩ := h
    exact ⟨fun j hj => scan_loop_frame _ _ _ _ _ _ _ _ j (by push_cast; omega),
      fun t ht => scan_loop_lt _ _ _ _ _ _ _ t ht⟩
  · omega

/-- The block loop of the driver keeps every slot before its output pointer and fills the
remaining `num - i` slots with 32-bit values. -/
theorem decode_pfor_delta1_loop_frame_bound (BlockSize : Nat) (m : Mem) (num : Nat)
    (interleaved : Bool) :
    ∀ (fuel i p : Nat) (out : Buf) (o : Int) (c : Nat) (r : Buf),
      decode_pfor_delta1_loop BlockSize m num interleaved fuel i p out o = some (c, r) →
      (∀ j : Int, j < o → r j = out j) ∧
      (∀ t : Nat, t < num - i → r (o + (t : Int)) < 4294967296) := by
  intro fuel
  induction fuel with
  | zero =>
    intro i p out o c r h
    simp only [decode_pfor_delta1_loop] at h
    split_ifs at h with hlt
    simp only [Option.some.injEq, Prod.mk.injEq] at h
    obtain ⟨_, rfl⟩ := h
    exact ⟨fun j _ => rfl, fun t ht => by omega⟩
  | succ fuel ih =>
    intro i p out o c r h
    simp only [decode_pfor_delta1_loop] at h
    split_ifs at h with hlt
    · cases hb : decode_block BlockSize m interleaved p (min (num - i) BlockSize) out o with
      | none => rw [hb] at h; simp at h
      | some x =>
        rw [hb] at h
        simp only at h
        obtain ⟨bf, bb⟩ := decode_block_frame_bound BlockSize m interleaved p _ out o x.1 x.2 hb
        obtain ⟨lf, lb⟩ := ih _ _ _ _ _ _ h
        refine ⟨fun j hj => by rw [lf j (by omega), bf j hj], ?_⟩
        intro t ht
        by_cases hB : t < BlockSize
        · rw [lf _ (by omega)]
          exact bb t (by omega)
        · obtain ⟨d, rfl⟩ := Nat.exists_eq_add_of_le (Nat.le_of_not_lt hB)
          have := lb d (by omega)
          have e : o + ((BlockSize + d : Nat) : Int) = o + (BlockSize : Int) + (d : Int) := by
            push_cast; omega
          rw [e]
          exact this
    · simp only [Option.some.injEq, Prod.mk.injEq] at h
      obtain ⟨_, rfl⟩ := h
      exact ⟨fun j _ => rfl, fun t ht => by omega⟩

theorem read_baseval_lt (m : Mem) (p c v : Nat) (h : read_baseval m p = some (c, v)) :
    v < 2097152 := by
  have hx := byteAt_lt m p
  unfold read_baseval at h
  split_ifs at h <;> simp only [Option.some.injEq, Prod.mk.injEq] at h <;> obtain ⟨_, rfl⟩ := h
  · omega
  · exact Nat.lt_of_le_of_lt Nat.and_le_right (by decide)
  · exact Nat.lt_of_le_of_lt Nat.and_le_right (by decide)

/-- C11: cursor accounting of `decode_pfor_bitmap`: for every input and every `num` the
returned cursor is the input cursor plus `2 + ceil(num / 8) + ceil(n_exc * b_exc / 8) +
ceil(num * b / 8)`, where `n_exc` is the number of set bitmap bits at the positions below
`num`; bits at positions `num` and above are not counted. -/
theorem decode_pfor_bitmap_cursor (m : Mem) (p num : Nat) (out : Buf) (o : Int) :
    (decode_pfor_bitmap m p num out o).1 =
      p + (2 + (num + 7) / 8 + (bitmap_rank m (p + 2) num * byteAt m (p + 1) + 7) / 8 +
        (num * (byteAt m p &&& 0x3f) + 7) / 8) := by
  have h := (decode_pfor_bitmap_exceptions m p num out o).1
  simp only [decode_pfor_bitmap]
  rw [h]
  simp only [bytes_for_packed_bits, div_round_up]
  omega

/-- An instance of the cursor rule with junk after the bitmap: `num = 4`, `b = 1`,
`b_exc = 4`, bitmap byte `F1` (only bit 0 lies below `num`), so `n_exc = 1` and the cursor
advances by `2 + 1 + 1 + 1 = 5` bytes. -/
theorem decode_pfor_bitmap_cursor_tail :
    bitmap_rank (memOf [0x81, 0x04, 0xF1, 0x03, 0x00, 0xFF, 0xFF]) (0 + 2) 4 = 1 ∧
    (decode_pfor_bitmap (memOf [0x81, 0x04, 0xF1, 0x03, 0x00, 0xFF, 0xFF]) 0 4 (fun _ => 0) 1).1
      = 5 := by
  refine ⟨by decide, by decide⟩

/-- A block of fewer than `BlockSize` positions is decoded by the contiguous decoders
whatever the interleaved flag says. -/
theorem decode_block_short (BlockSize : Nat) (m : Mem) (interleaved : Bool) (p n : Nat)
    (out : Buf) (o : Int) (hn : n < BlockSize) :
    decode_block BlockSize m interleaved p n out o =
      if byteAt m p >>> 6 = 0 then some (decode_for m p n out o)
      else if byteAt m p >>> 6 = 1 then decode_pfor_vb BlockSize m p n out o
      else if byteAt m p >>> 6 = 2 then some (decode_pfor_bitmap m p n out o)
      else if byteAt m p >>> 6 = 3 then some (decode_constant m p n out o)
      else some (p, out) := by
  have hne : ¬ (interleaved = true ∧ n = BlockSize) := fun h => by omega
  simp only [decode_block, if_neg hne]

/-- With `num ≤ BlockSize` the block loop of the driver, entered at `i ≥ 1`, does not depend
on the interleaved flag. -/
theorem decode_pfor_delta1_loop_flag (BlockSize : Nat) (m : Mem) (num : Nat)
    (hle : num ≤ BlockSize) :
    ∀ (fuel i p : Nat) (out : Buf) (o : Int), 1 ≤ i →
      decode_pfor_delta1_loop BlockSize m num true fuel i p out o =
        decode_pfor_delta1_loop BlockSize m num false fuel i p out o := by
  intro fuel
  induction fuel with
  | zero => intro i p out o _; rfl
  | succ fuel ih =>
    intro i p out o hi
    simp only [decode_pfor_delta1_loop]
    by_cases hlt : i < num
    · have hn : min (num - i) BlockSize < BlockSize := by
        have : num - i < BlockSize := by omega
        exact Nat.lt_of_le_of_lt (Nat.min_le_left _ _) this
      rw [if_pos hlt, if_pos hlt, decode_block_short BlockSize m true p _ out o hn,
        decode_block_short BlockSize m false p _ out o hn]
      split
      · rfl
      · exact ih _ _ _ _ (by omega)
    · rw [if_neg hlt, if_neg hlt]

/-- C12: partial blocks use the contiguous decoders. A block of fewer than `BlockSize`
positions is decoded by `decode_for` / `decode_pfor_vb` / `decode_pfor_bitmap` /
`decode_constant` according to its type, flag or no flag; and for `1 ≤ num ≤ BlockSize` the
calls `decode_pfor_delta1(in, num, true, out)` and `decode_pfor_delta1(in, num, false, out)`
give the same result: the same cursor and array, or both fail. -/
theorem partial_blocks_contiguous (BlockSize : Nat) (m : Mem) (p num : Nat) (out : Buf)
    (o : Int) :
    (∀ (interleaved : Bool) (q n : Nat) (buf : Buf) (ob : Int), n < BlockSize →
      decode_block BlockSize m interleaved q n buf ob =
        if byteAt m q >>> 6 = 0 then some (decode_for m q n buf ob)
        else if byteAt m q >>> 6 = 1 then decode_pfor_vb BlockSize m q n buf ob
        else if byteAt m q >>> 6 = 2 then some (decode_pfor_bitmap m q n buf ob)
        else some (decode_constant m q n buf ob)) ∧
    (1 ≤ num → num ≤ BlockSize →
      decode_pfor_delta1 BlockSize m p num true out o =
        decode_pfor_delta1 BlockSize m p num false out o) := by
  constructor
  · intro interleaved q n buf ob hn
    rw [decode_block_short BlockSize m interleaved q n buf ob hn]
    have hty : byteAt m q >>> 6 < 4 := by
      have := byteAt_lt m q
      rw [Nat.shiftRight_eq_div_pow]
      omega
    by_cases h0 : byteAt m q >>> 6 = 0
    · simp only [h0, if_true]
    · by_cases h1 : byteAt m q >>> 6 = 1
      · simp only [h1, if_true, if_false, one_ne_zero]
      · by_cases h2 : byteAt m q >>> 6 = 2
        · simp [h2]
        · have h3 : byteAt m q >>> 6 = 3 := by omega
          simp [h3]
  · intro _ hle
    unfold decode_pfor_delta1
    split_ifs
    · rfl
    · split
      · rfl
      · exact decode_pfor_delta1_loop_flag BlockSize m num hle _ _ _ _ _ (le_refl 1)

/-- Witness for `partial_blocks_contiguous`: the sequence `0A 04 A9 0B` with `num = 4` and
`BlockSize = 128` decodes alike with and without the flag, to 10, 20, 31, 43 in 4 bytes. -/
theorem partial_blocks_contiguous_witness :
    1 ≤ 4 ∧ 4 ≤ 128 ∧
    decode_pfor_delta1 128 (memOf [0x0A, 0x04, 0xA9, 0x0B]) 0 4 true (fun _ => 0) 0 =
      decode_pfor_delta1 128 (memOf [0x0A, 0x04, 0xA9, 0x0B]) 0 4 false (fun _ => 0) 0 ∧
    (decode_pfor_delta1 128 (memOf [0x0A, 0x04, 0xA9, 0x0B]) 0 4 true (fun _ => 0) 0).map
      (fun x => (x.1, x.2.slice 0 4)) = some (4, [10, 20, 31, 43]) :=
  ⟨by decide, by decide,
    (partial_blocks_contiguous 128 (memOf [0x0A, 0x04, 0xA9, 0x0B]) 0 4 (fun _ => 0) 0).2
      (by decide) (by decide),
    by decide⟩

/-- C14: with `num = 0`, `decode_pfor_delta1` returns the input cursor and leaves the output
array as it is, for every cursor, flag, block size and array; it reads no input byte: the
result is the same for every input memory. -/
theorem decode_pfor_delta1_empty (BlockSize : Nat) (m : Mem) (p : Nat) (interleaved : Bool)
    (out : Buf) (o : Int) :
    decode_pfor_delta1 BlockSize m p 0 interleaved out o = some (p, out) ∧
    ∀ m1 : Mem, decode_pfor_delta1 BlockSize m1 p 0 interleaved out o =
      decode_pfor_delta1 BlockSize m p 0 interleaved out o :=
  ⟨rfl, fun _ => rfl⟩

/-- A successful `decode_pfor_delta1` with `num ≥ 1` read its seed with `read_baseval`
and left it in `out[0]`. -/
theorem decode_pfor_delta1_seed (BlockSize : Nat) (m : Mem) (p num : Nat) (interleaved : Bool)
    (out : Buf) (o : Int) (c : Nat) (r : Buf) (hnum : 1 ≤ num)
    (h : decode_pfor_delta1 BlockSize m p num interleaved out o = some (c, r)) :
    ∃ p1 v, read_baseval m p = some (p1, v) ∧ r o = v := by
  unfold decode_pfor_delta1 at h
  rw [if_neg (by omega)] at h
  cases hb : read_baseval m p with
  | none => rw [hb] at h; simp at h
  | some x =>
    rw [hb] at h
    simp only at h
    obtain ⟨lf, _⟩ := decode_pfor_delta1_loop_frame_bound _ _ _ _ _ _ _ _ _ _ _ h
    exact ⟨x.1, x.2, rfl, by rw [lf o (by omega), Buf.set_same]⟩

/-- C20: every value `read_baseval` returns is below `2^21`: below 128 for the 1-byte form
(first byte below 128), below `2^14` for the 2-byte form (first byte below 192); so the
first identifier `out[0]` of every successful `decode_pfor_delta1` with `num ≥ 1` is at most
2097151. -/
theorem seed_range_bound (m : Mem) (p : Nat) :
    (∀ c v, read_baseval m p = some (c, v) →
      v < 2097152 ∧ (byteAt m p < 128 → v < 128) ∧ (byteAt m p < 192 → v < 16384)) ∧
    (∀ (BlockSize num : Nat) (interleaved : Bool) (out : Buf) (o : Int) (c : Nat) (r : Buf),
      1 ≤ num → decode_pfor_delta1 BlockSize m p num interleaved out o = some (c, r) →
        r o ≤ 2097151) := by
  constructor
  · intro c v h
    refine ⟨read_baseval_lt m p c v h, ?_, ?_⟩
    · intro hx
      unfold read_baseval at h
      rw [if_pos hx] at h
      simp only [Option.some.injEq, Prod.mk.injEq] at h
      omega
    · intro hx
      unfold read_baseval at h
      split_ifs at h with h1
      · simp only [Option.some.injEq, Prod.mk.injEq] at h
        omega
      · simp only [Option.some.injEq, Prod.mk.injEq] at h
        obtain ⟨_, rfl⟩ := h
        exact Nat.lt_of_le_of_lt Nat.and_le_right (by decide)
  · intro BlockSize num interleaved out o c r hnum h
    obtain ⟨p1, v, hb, hv⟩ := decode_pfor_delta1_seed BlockSize m p num interleaved out o c r
      hnum h
    have := read_baseval_lt m p p1 v hb
    omega

/-- Witness for `seed_range_bound`: the largest seed, bytes `DF FF FF`, is 2097151. -/
theorem seed_range_bound_witness :
    read_baseval (memOf [0xDF, 0xFF, 0xFF]) 0 = some (3, 2097151) ∧ 2097151 < 2097152 :=
  ⟨by decide,
    ((seed_range_bound (memOf [0xDF, 0xFF, 0xFF]) 0).1 3 2097151 (by decide)).1⟩

/-- C15 (as stated) fails: the PFOR_BITMAP block `82 04 24 65 55 55` with `num = 8` after
the seed 0 does not decode to 1, 2, 23, 24, 25, 49, 50, 51. -/
theorem scenario4_not_as_stated :
    (decode_pfor_bitmap (memOf [0x82, 0x04, 0x24, 0x65, 0x55, 0x55]) 0 8 (fun _ => 0) 1).2.slice
      1 8 ≠ [1, 2, 23, 24, 25, 49, 50, 51] := by
  decide

/-- C15 (amended): the PFOR_BITMAP block `82 04 24 65 55 55` (`num = 8`, `b = 2`,
`b_exc = 4`, exceptions 5 and 6 at positions 2 and 5, base values 1) after the seed 0
decodes to 2, 4, 26, 28, 30, 56, 58, 60 and ends 6 bytes further: each identifier is the one
before it plus the combined value (1, 1, 21, 1, 1, 25, 1, 1) plus one. -/
theorem scenario4_decoded :
    (decode_pfor_bitmap (memOf [0x82, 0x04, 0x24, 0x65, 0x55, 0x55]) 0 8 (fun _ => 0) 1).1 = 6 ∧
    (fun _ => 0 : Buf) (1 - 1) = 0 ∧
    (decode_pfor_bitmap (memOf [0x82, 0x04, 0x24, 0x65, 0x55, 0x55]) 0 8 (fun _ => 0) 1).2.slice
      1 8 = [2, 4, 26, 28, 30, 56, 58, 60] ∧
    (List.range 8).map (pfor_bitmap_combined (memOf [0x82, 0x04, 0x24, 0x65, 0x55, 0x55]) 0 8)
      = [1, 1, 21, 1, 1, 25, 1, 1] := by
  refine ⟨by decide, rfl, by decide, by decide⟩

theorem bit_reader_iterate_mask (bs : BitReader) (k : Nat) :
    (BitReader.next^[k] bs).mask = bs.mask ∧ (BitReader.next^[k] bs).bits = bs.bits := by
  induction k generalizing bs with
  | zero => exact ⟨rfl, rfl⟩
  | succ k ih =>
    rw [Function.iterate_succ_apply]
    exact ih bs.next

theorem lane_reader_iterate_mask (bs : InterleavedBitReader) (k : Nat) :
    (InterleavedBitReader.next^[k] bs).mask = bs.mask ∧
    (InterleavedBitReader.next^[k] bs).bits = bs.bits ∧
    (InterleavedBitReader.next^[k] bs).stride = bs.stride := by
  induction k generalizing bs with
  | zero => exact ⟨rfl, rfl, rfl⟩
  | succ k ih =>
    rw [Function.iterate_succ_apply]
    exact ih bs.next

/-- A contiguous reader of width 0 returns 0 at every read. -/
theorem bit_reader_nth_width_zero (m : Mem) (p k : Nat) : (BitReader.init p 0).nth m k = 0 := by
  unfold BitReader.nth BitReader.val
  rw [(bit_reader_iterate_mask (BitReader.init p 0) k).1]
  show _ &&& mask_of 0 = 0
  have : mask_of 0 = 0 := by decide
  rw [this, Nat.and_zero]

/-- An interleaved reader of width 0 returns 0 at every read. -/
theorem lane_reader_nth_width_zero (m : Mem) (s p k : Nat) :
    (InterleavedBitReader.init s p 0).nth m k = 0 := by
  unfold InterleavedBitReader.nth InterleavedBitReader.val
  rw [(lane_reader_iterate_mask (InterleavedBitReader.init s p 0) k).1]
  show _ &&& mask_of 0 = 0
  have : mask_of 0 = 0 := by decide
  rw [this, Nat.and_zero]

theorem lanes_nth_width_zero (m : Mem) (p k : Nat) : (Lanes.init p 0).nth m k = 0 := by
  unfold Lanes.nth Lanes.init
  simp only [lane_reader_nth_width_zero]
  split_ifs <;> rfl

/-- C13: bit width 0 is legal for FOR blocks. When the low six bits of the header byte are 0,
`decode_for` writes `out[i] = prev + i + 1` modulo `2^32` for every `i < num`, `prev`
being `out[-1]`, and returns the cursor advanced by the header byte only;
`decode_for_interleaved` does the same for `num = BlockSize` (a multiple of 4). Through the
driver, the bytes `64 00` with `num = 4` decode to 100, 101, 102, 103 with 2 bytes consumed. -/
theorem decode_for_width_zero (BlockSize : Nat) (m : Mem) (p num : Nat) (out : Buf) (o : Int)
    (hb : byteAt m p &&& 0x3f = 0) :
    ((decode_for m p num out o).1 = p + 1 ∧
      ∀ i : Nat, i < num →
        (decode_for m p num out o).2 (o + (i : Int)) = u32 (out (o - 1) + i + 1)) ∧
    (BlockSize % 4 = 0 →
      (decode_for_interleaved BlockSize m p out o).1 = p + 1 ∧
      ∀ i : Nat, i < BlockSize →
        (decode_for_interleaved BlockSize m p out o).2 (o + (i : Int)) =
          u32 (out (o - 1) + i + 1)) ∧
    (decode_pfor_delta1 128 (memOf [0x64, 0x00]) 0 4 false (fun _ => 0) 0).map
      (fun x => (x.1, x.2.slice 0 4)) = some (2, [100, 101, 102, 103]) ∧
    (decode_pfor_delta1 128 (memOf [0x64, 0x00]) 0 4 true (fun _ => 0) 0).map
      (fun x => (x.1, x.2.slice 0 4)) = some (2, [100, 101, 102, 103]) := by
  refine ⟨⟨?_, ?_⟩, ?_, by decide, by decide⟩
  · simp [decode_for, hb, bytes_for_packed_bits, div_round_up]
  · intro i hi
    simp only [decode_for, decode_for_loop_eq, hb]
    have h := scan_loop_get (fun (bs : BitReader) (_ : Nat) => bs.val m) BitReader.next o num 0
      (BitReader.init (p + 1) 0) (out (o - 1)) out i hi
    simp only [Nat.zero_add] at h
    rw [h, scan_val_congr
      (fun t => BitReader.val m (BitReader.next^[t] (BitReader.init (p + 1) 0)))
      (fun _ => 0) _ i (fun t _ => bit_reader_nth_width_zero m (p + 1) t), scan_val_const]
    congr 1
    omega
  · intro h4
    constructor
    · simp [decode_for_interleaved, hb, bytes_for_packed_bits, div_round_up]
    · intro i hi
      simp only [decode_for_interleaved, delta_decode_eq, hb]
      have h := scan_loop_get (fun (_ : Unit) (old : Nat) => old) id o BlockSize 0 ()
        (unpack_interleaved m o (BlockSize / 4) 0 (Lanes.init (p + 1) 0) out (o - 1))
        (unpack_interleaved m o (BlockSize / 4) 0 (Lanes.init (p + 1) 0) out) i hi
      simp only [Nat.zero_add] at h
      rw [h, scan_val_congr _ (fun _ => 0) _ i (fun t ht => by
          have hg := unpack_interleaved_get m o (BlockSize / 4) 0 (Lanes.init (p + 1) 0) out t
            (by omega)
          simp only [Nat.mul_zero, Nat.zero_add] at hg
          rw [hg, lanes_nth_width_zero]),
        scan_val_const, unpack_interleaved_frame _ _ _ _ _ _ _ (by push_cast; omega)]
      congr 1
      omega

/-- Witness for `decode_for_width_zero`: the block `00` with `BlockSize = num = 4` after the
value 100. -/
theorem decode_for_width_zero_witness :
    byteAt (memOf [0x00]) 0 &&& 0x3f = 0 ∧ 4 % 4 = 0 ∧
    (decode_for (memOf [0x00]) 0 4 (fun _ => 100) 1).1 = 0 + 1 ∧
    (decode_for_interleaved 4 (memOf [0x00]) 0 (fun _ => 100) 1).1 = 0 + 1 ∧
    (decode_for_interleaved 4 (memOf [0x00]) 0 (fun _ => 100) 1).2 (1 + ((3 : Nat) : Int)) =
      u32 ((fun _ => 100 : Buf) (1 - 1) + 3 + 1) :=
  ⟨by decide, by decide,
    (decode_for_width_zero 4 (memOf [0x00]) 0 4 (fun _ => 100) 1 (by decide)).1.1,
    ((decode_for_width_zero 4 (memOf [0x00]) 0 4 (fun _ => 100) 1 (by decide)).2.1
      (by decide)).1,
    ((decode_for_width_zero 4 (memOf [0x00]) 0 4 (fun _ => 100) 1 (by decide)).2.1
      (by decide)).2 3 (by decide)⟩

theorem bits_value_lt (f : Nat → Bool) (start : Nat) : ∀ b, bits_value f start b < 2 ^ b := by
  intro b
  induction b with
  | zero => simp [bits_value]
  | succ b ih =>
    simp only [bits_value]
    have e : 2 ^ (b + 1) = 2 ^ b + 2 ^ b := by rw [Nat.pow_succ]; omega
    split_ifs <;> omega

/-- Bit `t` of `bits_value f start b` is `f (start + t)` for `t < b` and 0 above. -/
theorem testBit_bits_value (f : Nat → Bool) (start : Nat) :
    ∀ b t, (bits_value f start b).testBit t = (decide (t < b) && f (start + t)) := by
  intro b
  induction b with
  | zero => intro t; simp [bits_value]
  | succ b ih =>
    intro t
    simp only [bits_value]
    have hlt := bits_value_lt f start b
    by_cases hf : f (start + b) = true
    · rw [if_pos hf, Nat.add_comm]
      rcases Nat.lt_trichotomy t b with h | h | h
      · rw [Nat.testBit_two_pow_add_gt h, ih]
        have h1 : t < b + 1 := by omega
        simp [h, h1]
      · subst h
        rw [Nat.testBit_two_pow_add_eq, Nat.testBit_lt_two_pow hlt]
        simp [hf]
      · have h1 : ¬ t < b + 1 := by omega
        have h2 : 2 ^ b + bits_value f start b < 2 ^ t := by
          have : 2 ^ (b + 1) ≤ 2 ^ t := Nat.pow_le_pow_right (by decide) h
          have e : 2 ^ (b + 1) = 2 ^ b + 2 ^ b := by rw [Nat.pow_succ]; omega
          omega
        rw [Nat.testBit_lt_two_pow h2]
        simp [h1]
    · rw [if_neg hf, Nat.add_zero, ih]
      have hf' : f (start + b) = false := by simpa using hf
      by_cases h : t = b
      · subst h
        simp [hf']
      · have : (t < b + 1) ↔ t < b := by omega
        simp [this]

/-- State of an interleaved reader after `k` reads: `k b` bits into its lane. -/
theorem lane_reader_iterate_state (p b : Nat) :
    ∀ k, (InterleavedBitReader.next^[k] (InterleavedBitReader.init 4 p b)).bits_used
        = (k * b) % 32 ∧
      (InterleavedBitReader.next^[k] (InterleavedBitReader.init 4 p b)).inp
        = p + 16 * ((k * b) / 32) := by
  intro k
  induction k with
  | zero => simp [InterleavedBitReader.init]
  | succ k ih =>
    obtain ⟨_, hbits, hstride⟩ :=
      lane_reader_iterate_mask (InterleavedBitReader.init 4 p b) k
    rw [Function.iterate_succ_apply']
    simp only [InterleavedBitReader.next, ih.1, ih.2, hbits, hstride]
    have e : (k + 1) * b = k * b + b := Nat.succ_mul k b
    rw [e]
    generalize k * b = X
    simp only [InterleavedBitReader.init]
    constructor <;> omega

/-- Bit `t` of the value an interleaved reader of width `b < 32` returns at its
`(k + 1)`-th read is lane bit `k b + t` for `t < b`, and 0 above. -/
theorem lane_reader_testBit_nth (m : Mem) (p b k t : Nat) (hb : b < 32) :
    ((InterleavedBitReader.init 4 p b).nth m k).testBit t =
      (decide (t < b) && lane_bit m p (k * b + t)) := by
  obtain ⟨hmask, hbits, hstride⟩ :=
    lane_reader_iterate_mask (InterleavedBitReader.init 4 p b) k
  obtain ⟨hbu, hinp⟩ := lane_reader_iterate_state p b k
  unfold InterleavedBitReader.nth InterleavedBitReader.val
  rw [Nat.testBit_and, hmask, hbits, hstride, hbu, hinp]
  simp only [InterleavedBitReader.init]
  rw [mask_of_eq hb, Nat.testBit_two_pow_sub_one, Bool.and_comm]
  by_cases ht : t < b
  · simp only [ht, decide_True, Bool.true_and]
    unfold lane_bit
    generalize k * b = X
    have hw0 := read_le32_lt m (p + 16 * (X / 32))
    by_cases hs : X % 32 + t < 32
    · have e1 : (X + t) / 32 = X / 32 := by omega
      have e2 : (X + t) % 32 = X % 32 + t := by omega
      rw [e1, e2]
      split_ifs with hbr
      · rw [Nat.testBit_or, Nat.testBit_shiftRight]
        unfold u32
        rw [show (4294967296 : Nat) = 2 ^ 32 from rfl, Nat.testBit_mod_two_pow,
          Nat.testBit_shiftLeft]
        have : ¬ (t ≥ 32 - X % 32) := by omega
        simp [this]
      · rw [Nat.testBit_shiftRight]
    · have hbr : X % 32 + b > 32 := by omega
      have e1 : (X + t) / 32 = X / 32 + 1 := by omega
      have e2 : (X + t) % 32 = t - (32 - X % 32) := by omega
      have e3 : p + 16 * (X / 32) + 4 * 4 = p + 16 * (X / 32 + 1) := by omega
      rw [if_pos hbr, e1, e2, e3, Nat.testBit_or, Nat.testBit_shiftRight]
      have hz : (read_le32 m (p + 16 * (X / 32))).testBit (X % 32 + t) = false := by
        apply Nat.testBit_lt_two_pow
        have : 2 ^ 32 ≤ 2 ^ (X % 32 + t) := Nat.pow_le_pow_right (by decide) (by omega)
        omega
      unfold u32
      rw [hz, show (4294967296 : Nat) = 2 ^ 32 from rfl, Nat.testBit_mod_two_pow,
        Nat.testBit_shiftLeft]
      have h1 : t < 32 := by omega
      have h2 : t ≥ 32 - X % 32 := by omega
      simp [h1, h2]
  · simp [ht]

/-- An `InterleavedBitReader<4>` of width `b`, `1 ≤ b ≤ 31`, constructed at address `p`:
its `(k + 1)`-th read returns the integer formed by the bits `[k b, (k + 1) b)` of the
lane bit string (the little-endian 32-bit words at `p`, `p + 16`, `p + 32`, ...
concatenated, least significant bit first); after it `bits_used = ((k + 1) b) mod 32`, which
lies in `[0, 31]`, and the cursor is `16 * floor((k + 1) b / 32)` bytes further; and at that
read the second word is used only if `bits_used + b > 32`, in which case the left shift
`32 - bits_used` lies in `[1, 31]`. -/
theorem lane_reader_reads_field (m : Mem) (p b k : Nat) (hb1 : 1 ≤ b) (hb32 : b < 32) :
    (InterleavedBitReader.init 4 p b).nth m k = bits_value (lane_bit m p) (k * b) b ∧
    (InterleavedBitReader.next^[k + 1] (InterleavedBitReader.init 4 p b)).bits_used
      = ((k + 1) * b) % 32 ∧
    (InterleavedBitReader.next^[k + 1] (InterleavedBitReader.init 4 p b)).bits_used < 32 ∧
    (InterleavedBitReader.next^[k + 1] (InterleavedBitReader.init 4 p b)).inp
      = p + 16 * (((k + 1) * b) / 32) ∧
    ((InterleavedBitReader.next^[k] (InterleavedBitReader.init 4 p b)).bits_used +
        (InterleavedBitReader.next^[k] (InterleavedBitReader.init 4 p b)).bits > 32 →
      1 ≤ 32 - (InterleavedBitReader.next^[k] (InterleavedBitReader.init 4 p b)).bits_used ∧
      32 - (InterleavedBitReader.next^[k] (InterleavedBitReader.init 4 p b)).bits_used ≤ 31) := by
  obtain ⟨hbu1, hinp1⟩ := lane_reader_iterate_state p b (k + 1)
  obtain ⟨hbu, _⟩ := lane_reader_iterate_state p b k
  obtain ⟨_, hbits, _⟩ :=
    lane_reader_iterate_mask (InterleavedBitReader.init 4 p b) k
  refine ⟨?_, hbu1, ?_, hinp1, ?_⟩
  · apply Nat.eq_of_testBit_eq
    intro t
    rw [lane_reader_testBit_nth m p b k t hb32, testBit_bits_value]
  · rw [hbu1]
    exact Nat.mod_lt _ (by decide)
  · rw [hbu, hbits]
    simp only [InterleavedBitReader.init]
    intro h
    have := Nat.mod_lt (k * b) (by decide : 32 > 0)
    omega

/-- C17 at a failing input: width `b = 32`, second read (`k = 1`) of lane 0 of the words
`04030201` (at address 0) and `14131211` (at address 16).  Bits `[32, 64)` of the lane bit
string form `0x14131211`, but the read returns 0.  The constructor computes the mask
`(1U << 32) - 1`, which is 0, so every read of a width-32 reader returns 0, whatever the
memory.  The state part of the claim holds: after the read `bits_used = 64 mod 32 = 0` and
the cursor is 32 bytes further. -/
theorem interleaved_reader_width32_reads_zero :
    bits_value (lane_bit (memOf ([1, 2, 3, 4] ++ List.replicate 12 0 ++ [0x11, 0x12, 0x13, 0x14]))
      0) (1 * 32) 32 = 0x14131211 ∧
    (InterleavedBitReader.init 4 0 32).nth
      (memOf ([1, 2, 3, 4] ++ List.replicate 12 0 ++ [0x11, 0x12, 0x13, 0x14])) 1 = 0 ∧
    (InterleavedBitReader.init 4 0 32).mask = 0 ∧
    (InterleavedBitReader.next^[1 + 1] (InterleavedBitReader.init 4 0 32)).bits_used = 0 ∧
    (InterleavedBitReader.next^[1 + 1] (InterleavedBitReader.init 4 0 32)).inp = 32 ∧
    (∀ (m : Mem) (p k : Nat), (InterleavedBitReader.init 4 p 32).nth m k = 0) := by
  refine ⟨by decide, by decide, by decide, by decide, by decide, ?_⟩
  intro m p k
  obtain ⟨hmask, _, _⟩ := lane_reader_iterate_mask (InterleavedBitReader.init 4 p 32) k
  unfold InterleavedBitReader.nth InterleavedBitReader.val
  rw [hmask]
  have e : (InterleavedBitReader.init 4 p 32).mask = 0 := by
    show mask_of 32 = 0
    decide
  rw [e, Nat.and_zero]

/-- State of a contiguous reader after `k` reads: `k b` bits into its stream. -/
theorem bit_reader_iterate_state (p b : Nat) :
    ∀ k, (BitReader.next^[k] (BitReader.init p b)).bits_used = (k * b) % 8 ∧
      (BitReader.next^[k] (BitReader.init p b)).inp = p + (k * b) / 8 := by
  intro k
  induction k with
  | zero => simp [BitReader.init]
  | succ k ih =>
    obtain ⟨_, hbits⟩ := bit_reader_iterate_mask (BitReader.init p b) k
    rw [Function.iterate_succ_apply']
    simp only [BitReader.next, ih.1, ih.2, hbits]
    have e : (k + 1) * b = k * b + b := Nat.succ_mul k b
    rw [e]
    generalize k * b = X
    simp only [BitReader.init]
    constructor <;> omega

/-- Bits of the mask `(1U << b) - 1`: the low `b mod 32` bits are set (all `b` of them
when `b < 32`, none when `b = 32`). -/
theorem testBit_mask_of (b t : Nat) : (mask_of b).testBit t = decide (t < b % 32) := by
  have e : mask_of b = mask_of (b % 32) := by
    unfold mask_of
    rw [Nat.mod_mod]
  rw [e, mask_of_eq (Nat.mod_lt b (by decide)), Nat.testBit_two_pow_sub_one]

/-- What `BitReader::read()` returns: bit `t` of the `(k + 1)`-th read is stream bit
`k b + t` when the mask keeps it (`t < b mod 32`, that is `t < b` for a width `b < 32`) and
the bit lies inside the 32-bit word loaded at the reader's byte cursor
(`(k b) mod 8 + t < 32`); all other bits are 0. -/
theorem bit_reader_testBit_nth (m : Mem) (p b k t : Nat) :
    ((BitReader.init p b).nth m k).testBit t =
      (decide (t < b % 32 ∧ (k * b) % 8 + t < 32) && stream_bit m p (k * b + t)) := by
  obtain ⟨hmask, _⟩ := bit_reader_iterate_mask (BitReader.init p b) k
  obtain ⟨hbu, hinp⟩ := bit_reader_iterate_state p b k
  unfold BitReader.nth BitReader.val
  rw [Nat.testBit_and, hmask, hbu, hinp, Nat.testBit_shiftRight, read_le32_eq_le_bytes,
    testBit_le_bytes]
  simp only [BitReader.init]
  rw [testBit_mask_of]
  unfold stream_bit
  generalize k * b = X
  by_cases h1 : X % 8 + t < 32
  · have e1 : p + X / 8 + (X % 8 + t) / 8 = p + (X + t) / 8 := by omega
    have e2 : (X % 8 + t) % 8 = (X + t) % 8 := by omega
    rw [if_pos (by omega), e1, e2]
    by_cases h2 : t < b % 32
    · simp [h1, h2]
    · simp [h2]
  · rw [if_neg (by omega)]
    simp [h1]

/-- A read of width `b < 32` whose field lies inside the loaded word,
`(k b) mod 8 + b ≤ 32`, returns the integer formed by the stream bits `[k b, (k + 1) b)`. -/
theorem bit_reader_nth_eq_bits_value (m : Mem) (p b k : Nat) (hb : b < 32)
    (h : (k * b) % 8 + b ≤ 32) :
    (BitReader.init p b).nth m k = bits_value (stream_bit m p) (k * b) b := by
  apply Nat.eq_of_testBit_eq
  intro t
  rw [bit_reader_testBit_nth, testBit_bits_value, Nat.mod_eq_of_lt hb]
  by_cases ht : t < b
  · have : (k * b) % 8 + t < 32 := by omega
    simp [ht, this]
  · simp [ht]

/-- C16 at a failing input: width `b = 27`, third read (`k = 2`) of the stream whose only
set bit is bit 80 (byte 10 is `01`). The bits `[54, 81)` of the stream form `2^26`, but the
read returns 0: it starts at bit 6 of the word loaded at byte 6, and the field's top bit lies
beyond that word. The state after the read is as the claim says: `bits_used = 81 mod 8 = 1`
and the cursor is `81 div 8 = 10` bytes further. -/
theorem bit_reader_drops_top_bits :
    bits_value (stream_bit (memOf (List.replicate 10 0 ++ [1, 0, 0, 0])) 0) (2 * 27) 27
      = 67108864 ∧
    (BitReader.init 0 27).nth (memOf (List.replicate 10 0 ++ [1, 0, 0, 0])) 2 = 0 ∧
    (BitReader.next^[2 + 1] (BitReader.init 0 27)).bits_used = 1 ∧
    (BitReader.next^[2 + 1] (BitReader.init 0 27)).inp = 10 := by
  refine ⟨by decide, by decide, by decide, by decide⟩

/-- Number of blocks still to decode: one more than after the next block. -/
theorem blocks_left_succ {B n : Nat} (hB : 1 ≤ B) (hn : 1 ≤ n) :
    (n + B - 1) / B = (n - B + B - 1) / B + 1 := by
  rcases Nat.lt_or_ge n B with h | h
  · have e0 : n - B = 0 := by omega
    rw [e0, Nat.zero_add, Nat.div_eq_of_lt (by omega : B - 1 < B)]
    have e1 : n + B - 1 = (n - 1) + B := by omega
    rw [e1, Nat.add_div_right _ (by omega : 0 < B), Nat.div_eq_of_lt (by omega : n - 1 < B)]
  · have e1 : n + B - 1 = (n - B + B - 1) + B := by omega
    rw [e1, Nat.add_div_right _ (by omega : 0 < B)]

/-- The block loop of the driver, entered before block `a` with enough fuel, decodes the
remaining `ceil((num - i) / BlockSize)` blocks in order. -/
theorem decode_pfor_delta1_loop_eq_chain (BlockSize : Nat) (m : Mem) (num : Nat)
    (interleaved : Bool) (o : Int) (hB : 1 ≤ BlockSize) :
    ∀ (fuel a p : Nat) (out : Buf), num - (1 + a * BlockSize) ≤ fuel →
      decode_pfor_delta1_loop BlockSize m num interleaved fuel (1 + a * BlockSize) p out
          (o + 1 + ((a * BlockSize : Nat) : Int)) =
        block_chain BlockSize m num interleaved o
          ((num - (1 + a * BlockSize) + BlockSize - 1) / BlockSize) a (p, out) := by
  intro fuel
  induction fuel with
  | zero =>
    intro a p out hf
    have e : num - (1 + a * BlockSize) = 0 := by omega
    rw [e, Nat.zero_add, Nat.div_eq_of_lt (by omega : BlockSize - 1 < BlockSize)]
    simp only [decode_pfor_delta1_loop, block_chain]
    rw [if_neg (by omega)]
  | succ fuel ih =>
    intro a p out hf
    simp only [decode_pfor_delta1_loop]
    by_cases hlt : 1 + a * BlockSize < num
    · rw [if_pos hlt, blocks_left_succ hB (by omega : 1 ≤ num - (1 + a * BlockSize))]
      simp only [block_chain]
      cases hb : decode_block BlockSize m interleaved p
          (min (num - (1 + a * BlockSize)) BlockSize) out
          (o + 1 + ((a * BlockSize : Nat) : Int)) with
      | none => rfl
      | some x =>
        simp only
        have e1 : 1 + a * BlockSize + BlockSize = 1 + (a + 1) * BlockSize := by
          rw [Nat.succ_mul]; omega
        have e2 : o + 1 + ((a * BlockSize : Nat) : Int) + (BlockSize : Int) =
            o + 1 + (((a + 1) * BlockSize : Nat) : Int) := by
          rw [Nat.succ_mul]; push_cast; omega
        have e3 : num - (1 + a * BlockSize) - BlockSize = num - (1 + (a + 1) * BlockSize) := by
          rw [← e1]; omega
        rw [e1, e2, e3]
        exact ih (a + 1) x.1 x.2 (by rw [← e1]; omega)
    · have e : num - (1 + a * BlockSize) = 0 := by omega
      rw [if_neg hlt, e, Nat.zero_add, Nat.div_eq_of_lt (by omega : BlockSize - 1 < BlockSize)]
      rfl

/-- For `num ≥ 1` and `BlockSize ≥ 1` the driver is `read_baseval` followed by the chain of
the `ceil((num - 1) / BlockSize)` blocks; in particular it never runs out of fuel. -/
theorem decode_pfor_delta1_eq_chain (BlockSize : Nat) (m : Mem) (p num : Nat)
    (interleaved : Bool) (out : Buf) (o : Int) (hB : 1 ≤ BlockSize) (hnum : 1 ≤ num) :
    decode_pfor_delta1 BlockSize m p num interleaved out o =
      match read_baseval m p with
      | none => none
      | some (p1, v) =>
        block_chain BlockSize m num interleaved o ((num - 1 + BlockSize - 1) / BlockSize) 0
          (p1, out.set o v) := by
  unfold decode_pfor_delta1
  rw [if_neg (by omega)]
  cases read_baseval m p with
  | none => rfl
  | some x =>
    simp only
    have h := decode_pfor_delta1_loop_eq_chain BlockSize m num interleaved o hB num 0 x.1
      (out.set o x.2) (by omega)
    simp only [Nat.zero_mul, Nat.add_zero, Nat.cast_zero, add_zero] at h
    exact h

/-- A chain of blocks that starts with block `a` keeps every slot before the output
positions of block `a`. -/
theorem block_chain_frame (BlockSize : Nat) (m : Mem) (num : Nat) (interleaved : Bool)
    (o : Int) :
    ∀ (count a : Nat) (s s1 : Nat × Buf),
      block_chain BlockSize m num interleaved o count a s = some s1 →
      ∀ j : Int, j < o + 1 + ((a * BlockSize : Nat) : Int) → s1.2 j = s.2 j := by
  intro count
  induction count with
  | zero =>
    intro a s s1 h j _
    simp only [block_chain, Option.some.injEq] at h
    rw [h]
  | succ count ih =>
    intro a s s1 h j hj
    simp only [block_chain] at h
    cases hb : decode_block BlockSize m interleaved s.1
        (min (num - (1 + a * BlockSize)) BlockSize) s.2
        (o + 1 + ((a * BlockSize : Nat) : Int)) with
    | none => rw [hb] at h; simp at h
    | some x =>
      rw [hb] at h
      simp only at h
      have hf := (decode_block_frame_bound BlockSize m interleaved s.1 _ s.2 _ x.1 x.2 hb).1
      rw [ih (a + 1) x s1 h j (by rw [Nat.succ_mul]; push_cast; omega), hf j hj]

/-- A chain of `c1 + c2` blocks is the chain of the first `c1` followed by the chain of the
next `c2`. -/
theorem block_chain_add (BlockSize : Nat) (m : Mem) (num : Nat) (interleaved : Bool)
    (o : Int) (c2 : Nat) :
    ∀ (c1 a : Nat) (s : Nat × Buf),
      block_chain BlockSize m num interleaved o (c1 + c2) a s =
        match block_chain BlockSize m num interleaved o c1 a s with
        | none => none
        | some s1 => block_chain BlockSize m num interleaved o c2 (a + c1) s1 := by
  intro c1
  induction c1 with
  | zero => intro a s; simp [block_chain]
  | succ c1 ih =>
    intro a s
    have e : c1 + 1 + c2 = (c1 + c2) + 1 := by omega
    rw [e]
    simp only [block_chain]
    cases decode_block BlockSize m interleaved s.1
        (min (num - (1 + a * BlockSize)) BlockSize) s.2
        (o + 1 + ((a * BlockSize : Nat) : Int)) with
    | none => rfl
    | some x =>
      simp only
      rw [ih (a + 1) x]
      have e2 : a + 1 + c1 = a + (c1 + 1) := by omega
      rw [e2]

/-- The cursor `read_baseval` returns is 1 to 3 bytes further. -/
theorem read_baseval_cursor (m : Mem) (p c v : Nat) (h : read_baseval m p = some (c, v)) :
    p < c ∧ c ≤ p + 3 := by
  unfold read_baseval at h
  split_ifs at h <;> simp only [Option.some.injEq, Prod.mk.injEq] at h <;> omega

/-- C18 (as stated) fails in its last part: the sequence `00 41 01 00 B1 7B 05` (seed 0,
then a PFOR_VB block whose only exception has index 5) with `num = 5` decodes to
0, 1, 2, 3, 4 in 7 bytes, and also changes the slot `out[6]`, outside the positions
`0 .. num - 1`, from 0 to 600. -/
theorem driver_writes_beyond_num :
    (decode_pfor_delta1 128 (memOf [0x00, 0x41, 0x01, 0x00, 0xB1, 0x7B, 0x05]) 0 5 false
      (fun _ => 0) 0).map (fun x => (x.1, x.2.slice 0 5, x.2 6)) =
        some (7, [0, 1, 2, 3, 4], 600) ∧
    (fun _ => 0 : Buf) 6 = 0 := by
  refine ⟨by decide, rfl⟩

/-- C19 (as stated) fails for a block whose exception count is 0: the PFOR_VB block
`41 00 00` (`b = 1`, exception count 0, one byte of base values) with `num = 4` after the
value 0. Followed by the byte `00` it decodes to 1, 2, 3, 4 and ends 3 bytes further. A second
input with the same first 3 bytes, followed by `FF`, decodes to the same outputs but ends
4 bytes further: the exception area of the layout starts with a form byte, which is tested
against 255 and skipped when it matches, also when there is no exception to read. -/
theorem pfor_vb_zero_exceptions_peeks :
    (decode_pfor_vb 128 (memOf [0x41, 0x00, 0x00, 0x00]) 0 4 (fun _ => 0) 1).map
      (fun x => (x.1, x.2.slice 1 4)) = some (3, [1, 2, 3, 4]) ∧
    (∀ a, a < 3 →
      byteAt (memOf [0x41, 0x00, 0x00, 0x00]) a = byteAt (memOf [0x41, 0x00, 0x00, 0xFF]) a) ∧
    (decode_pfor_vb 128 (memOf [0x41, 0x00, 0x00, 0xFF]) 0 4 (fun _ => 0) 1).map
      (fun x => (x.1, x.2.slice 1 4)) = some (4, [1, 2, 3, 4]) := by
  refine ⟨by decide, ?_, by decide⟩
  intro a ha
  have : a = 0 ∨ a = 1 ∨ a = 2 := by omega
  rcases this with rfl | rfl | rfl <;> rfl

/-- The cursor `read_vb` returns is 1 to 5 bytes further. -/
theorem read_vb_cursor (m : Mem) (a c v : Nat) (h : read_vb m a = some (c, v)) :
    a < c ∧ c ≤ a + 5 := by
  unfold read_vb at h
  split_ifs at h <;> simp only [Option.some.injEq, Prod.mk.injEq] at h <;> omega

/-- The result of `read_vb` depends only on the bytes it consumes. -/
theorem read_vb_local (m m1 : Mem) (a c v : Nat) (h : read_vb m a = some (c, v))
    (hag : ∀ x, a ≤ x → x < c → byteAt m x = byteAt m1 x) : read_vb m1 a = some (c, v) := by
  have hc := read_vb_cursor m a c v h
  have e0 : byteAt m1 a = byteAt m a := (hag a (le_refl a) hc.1).symm
  unfold read_vb at h ⊢
  rw [e0]
  split_ifs at h ⊢ with h1 h2 h3 h4 h5 <;>
    simp only [Option.some.injEq, Prod.mk.injEq] at h <;> obtain ⟨rfl, rfl⟩ := h
  · rfl
  · rw [hag (a + 1) (by omega) (by omega)]
  · have e1 : read_le16 m1 (a + 1) = read_le16 m (a + 1) := by
      unfold read_le16
      rw [hag (a + 1) (by omega) (by omega), hag (a + 1 + 1) (by omega) (by omega)]
    rw [e1]
  · rw [hag (a + 1) (by omega) (by omega), hag (a + 2) (by omega) (by omega),
      hag (a + 3) (by omega) (by omega)]
  · have e1 : read_le32 m1 (a + 1) = read_le32 m (a + 1) := by
      unfold read_le32
      rw [hag (a + 1) (by omega) (by omega), hag (a + 1 + 1) (by omega) (by omega),
        hag (a + 1 + 2) (by omega) (by omega), hag (a + 1 + 3) (by omega) (by omega)]
    rw [e1]

/-- The varbyte exception loop consumes at least one byte per exception. -/
theorem read_exceptions_vb_cursor (m : Mem) :
    ∀ (n a : Nat) (acc : List Nat) (c : Nat) (es : List Nat),
      read_exceptions_vb m n a acc = some (c, es) → a + n ≤ c := by
  intro n
  induction n with
  | zero =>
    intro a acc c es h
    simp only [read_exceptions_vb, Option.some.injEq, Prod.mk.injEq] at h
    omega
  | succ n ih =>
    intro a acc c es h
    simp only [read_exceptions_vb] at h
    cases hv : read_vb m a with
    | none => rw [hv] at h; simp at h
    | some x =>
      rw [hv] at h
      simp only at h
      have := ih _ _ _ _ h
      have := (read_vb_cursor m a x.1 x.2 hv).1
      omega

/-- The varbyte exception loop depends only on the bytes it consumes. -/
theorem read_exceptions_vb_local (m m1 : Mem) :
    ∀ (n a : Nat) (acc : List Nat) (c : Nat) (es : List Nat),
      read_exceptions_vb m n a acc = some (c, es) →
      (∀ x, a ≤ x → x < c → byteAt m x = byteAt m1 x) →
      read_exceptions_vb m1 n a acc = some (c, es) := by
  intro n
  induction n with
  | zero => intro a acc c es h _; exact h
  | succ n ih =>
    intro a acc c es h hag
    simp only [read_exceptions_vb] at h ⊢
    cases hv : read_vb m a with
    | none => rw [hv] at h; simp at h
    | some x =>
      rw [hv] at h
      simp only at h
      have hc1 := (read_vb_cursor m a x.1 x.2 hv).1
      have hc2 := read_exceptions_vb_cursor m _ _ _ _ _ h
      rw [read_vb_local m m1 a x.1 x.2 hv (fun y h1 h2 => hag y h1 (by omega))]
      simp only
      exact ih _ _ _ _ h (fun y h1 h2 => hag y (by omega) h2)

/-- The little-endian exception loop depends only on the `4 n` bytes it consumes. -/
theorem read_exceptions_le_local (m m1 : Mem) :
    ∀ (n a : Nat) (acc : List Nat),
      (∀ x, a ≤ x → x < a + 4 * n → byteAt m x = byteAt m1 x) →
      read_exceptions_le m1 n a acc = read_exceptions_le m n a acc := by
  intro n
  induction n with
  | zero => intro a acc _; rfl
  | succ n ih =>
    intro a acc hag
    simp only [read_exceptions_le]
    have e1 : read_le32 m1 a = read_le32 m a := by
      unfold read_le32
      rw [hag a (by omega) (by omega), hag (a + 1) (by omega) (by omega),
        hag (a + 2) (by omega) (by omega), hag (a + 3) (by omega) (by omega)]
    rw [e1]
    exact ih _ _ (fun y h1 h2 => hag y (by omega) (by omega))

/-- The exception application loop depends only on the `n` index bytes it consumes. -/
theorem apply_exceptions_local (m m1 : Mem) (bit_width : Nat) (es : List Nat) (o : Int) :
    ∀ (n k q : Nat) (out : Buf),
      (∀ x, q ≤ x → x < q + n → byteAt m x = byteAt m1 x) →
      apply_exceptions m1 bit_width es o n k q out = apply_exceptions m bit_width es o n k q out := by
  intro n
  induction n with
  | zero => intro k q out _; rfl
  | succ n ih =>
    intro k q out hag
    simp only [apply_exceptions]
    rw [hag q (le_refl q) (by omega)]
    exact ih _ _ _ (fun y h1 h2 => hag y (by omega) (by omega))

/-- The contiguous unpacking loop depends on the input only through the values read. -/
theorem unpack_contiguous_local (m m1 : Mem) (o : Int) :
    ∀ (n i : Nat) (bs : BitReader) (out : Buf),
      (∀ k, k < n → (BitReader.next^[k] bs).val m1 = (BitReader.next^[k] bs).val m) →
      unpack_contiguous m1 o n i bs out = unpack_contiguous m o n i bs out := by
  intro n
  induction n with
  | zero => intro i bs out _; rfl
  | succ n ih =>
    intro i bs out h
    simp only [unpack_contiguous]
    have h0 := h 0 (Nat.succ_pos n)
    simp only [Function.iterate_zero, id_eq] at h0
    rw [h0]
    exact ih _ _ _ (fun k hk => by
      have := h (k + 1) (by omega)
      rwa [Function.iterate_succ_apply] at this)

/-- The `(k + 1)`-th read of a contiguous reader depends only on the bytes that hold the
first `(k + 1) b` bits of its stream. -/
theorem bit_reader_nth_local (m m1 : Mem) (a b k : Nat)
    (hag : ∀ x, a ≤ x → x < a + ((k + 1) * b + 7) / 8 → byteAt m x = byteAt m1 x) :
    (BitReader.init a b).nth m1 k = (BitReader.init a b).nth m k := by
  apply Nat.eq_of_testBit_eq
  intro t
  rw [bit_reader_testBit_nth, bit_reader_testBit_nth]
  by_cases hd : t < b % 32 ∧ (k * b) % 8 + t < 32
  · have e : (k + 1) * b = k * b + b := Nat.succ_mul k b
    have hle : b % 32 ≤ b := Nat.mod_le b 32
    have hx : a + (k * b + t) / 8 < a + ((k + 1) * b + 7) / 8 := by
      rw [e]; omega
    simp only [hd, and_self, decide_True, Bool.true_and]
    unfold stream_bit
    rw [hag _ (by omega) hx]
  · simp [hd]

/-- C19 (amended): a PFOR_VB block with at least one exception, or with a `0xFF` byte after
its base values, is self-delimiting: if `decode_pfor_vb` succeeds on `m` and returns the
cursor `c`, then on every input `m1` that agrees with `m` on the consumed bytes `[p, c)` it
succeeds with the same cursor and the same outputs, for the same `num` and previous value. -/
theorem decode_pfor_vb_self_delimiting (BlockSize : Nat) (m m1 : Mem) (p num : Nat)
    (out : Buf) (o : Int) (c : Nat) (r : Buf)
    (h : decode_pfor_vb BlockSize m p num out o = some (c, r))
    (hag : ∀ x, p ≤ x → x < c → byteAt m x = byteAt m1 x)
    (hne : 1 ≤ byteAt m (p + 1) ∨
      byteAt m (p + 2 + bytes_for_packed_bits num (byteAt m p &&& 0x3f)) = 255) :
    decode_pfor_vb BlockSize m1 p num out o = some (c, r) := by
  obtain ⟨hn, in2, es, hes⟩ := decode_pfor_vb_some BlockSize m p num out o c r h
  -- the cursor: c = in2 + n_exc, and in2 lies after the tested byte
  have hc : c = in2 + byteAt m (p + 1) := by
    unfold decode_pfor_vb at h
    simp only [if_neg (Nat.not_lt.mpr hn), hes, Option.some.injEq, Prod.mk.injEq] at h
    rw [← h.1, apply_exceptions_fst]
  have hin : p + 2 + bytes_for_packed_bits num (byteAt m p &&& 0x3f) < c := by
    unfold read_exceptions at hes
    split_ifs at hes with h255
    · simp only [Option.some.injEq] at hes
      have := (read_exceptions_le_eq m (byteAt m (p + 1))
        (p + 2 + bytes_for_packed_bits num (byteAt m p &&& 0x3f) + 1) []).1
      rw [hes] at this
      simp only at this
      omega
    · have := read_exceptions_vb_cursor m _ _ _ _ _ hes
      rcases hne with h1 | h1
      · omega
      · exact absurd h1 h255
  have hin0 : p + 2 ≤ p + 2 + bytes_for_packed_bits num (byteAt m p &&& 0x3f) := by omega
  have e0 : byteAt m1 p = byteAt m p := (hag p (le_refl p) (by omega)).symm
  have e1 : byteAt m1 (p + 1) = byteAt m (p + 1) := (hag (p + 1) (by omega) (by omega)).symm
  -- exceptions
  have hes1 : read_exceptions m1 (p + 2 + bytes_for_packed_bits num (byteAt m p &&& 0x3f))
      (byteAt m (p + 1)) = some (in2, es) := by
    have ein : byteAt m1 (p + 2 + bytes_for_packed_bits num (byteAt m p &&& 0x3f)) =
        byteAt m (p + 2 + bytes_for_packed_bits num (byteAt m p &&& 0x3f)) :=
      (hag _ (by omega) hin).symm
    unfold read_exceptions at hes ⊢
    rw [ein]
    split_ifs at hes ⊢ with h255
    · simp only [Option.some.injEq] at hes ⊢
      have hcur := (read_exceptions_le_eq m (byteAt m (p + 1))
        (p + 2 + bytes_for_packed_bits num (byteAt m p &&& 0x3f) + 1) []).1
      rw [hes] at hcur
      simp only at hcur
      rw [read_exceptions_le_local m m1 _ _ _
        (fun y h1 h2 => hag y (by omega) (by omega))]
      exact hes
    · exact read_exceptions_vb_local m m1 _ _ _ _ _ hes
        (fun y h1 h2 => hag y (by omega) (by omega))
  -- base values
  have hun : unpack_contiguous m1 o num 0 (BitReader.init (p + 2) (byteAt m p &&& 0x3f)) out =
      unpack_contiguous m o num 0 (BitReader.init (p + 2) (byteAt m p &&& 0x3f)) out := by
    apply unpack_contiguous_local
    intro k hk
    refine bit_reader_nth_local m m1 (p + 2) (byteAt m p &&& 0x3f) k (fun y h1 h2 => ?_)
    apply hag y (by omega)
    have hmul : (k + 1) * (byteAt m p &&& 0x3f) ≤ num * (byteAt m p &&& 0x3f) :=
      Nat.mul_le_mul_right _ (by omega)
    have hdiv : ((k + 1) * (byteAt m p &&& 0x3f) + 7) / 8 ≤
        (num * (byteAt m p &&& 0x3f) + 7) / 8 := Nat.div_le_div_right (by omega)
    have hb : bytes_for_packed_bits num (byteAt m p &&& 0x3f) =
        (num * (byteAt m p &&& 0x3f) + 7) / 8 := by
      simp only [bytes_for_packed_bits, div_round_up]
      congr 1
    omega
  -- index bytes
  have hap : apply_exceptions m1 (byteAt m p &&& 0x3f) es o (byteAt m (p + 1)) 0 in2
      (unpack_contiguous m o num 0 (BitReader.init (p + 2) (byteAt m p &&& 0x3f)) out) =
      apply_exceptions m (byteAt m p &&& 0x3f) es o (byteAt m (p + 1)) 0 in2
      (unpack_contiguous m o num 0 (BitReader.init (p + 2) (byteAt m p &&& 0x3f)) out) := by
    apply apply_exceptions_local
    intro y h1 h2
    have : p + 2 + bytes_for_packed_bits num (byteAt m p &&& 0x3f) ≤ in2 := by
      unfold read_exceptions at hes
      split_ifs at hes
      · simp only [Option.some.injEq] at hes
        have := (read_exceptions_le_eq m (byteAt m (p + 1))
          (p + 2 + bytes_for_packed_bits num (byteAt m p &&& 0x3f) + 1) []).1
        rw [hes] at this
        simp only at this
        omega
      · have := read_exceptions_vb_cursor m _ _ _ _ _ hes
        omega
    exact hag y (by omega) (by omega)
  rw [← h]
  unfold decode_pfor_vb
  simp only [e0, e1, if_neg (Nat.not_lt.mpr hn), hes, hes1, hun, hap]

/-- Witness for `decode_pfor_vb_self_delimiting`: the block `41 01 00 B1 7B 02` (`b = 1`, one
varbyte exception 300 at index 2) with `num = 4` ends 6 bytes further; the input that
continues with the byte `FF` instead of `00` agrees on those 6 bytes and gives the same
result. -/
theorem decode_pfor_vb_self_delimiting_witness :
    (∀ x, 0 ≤ x → x < 6 →
      byteAt (memOf [0x41, 0x01, 0x00, 0xB1, 0x7B, 0x02]) x =
        byteAt (memOf [0x41, 0x01, 0x00, 0xB1, 0x7B, 0x02, 0xFF]) x) ∧
    (1 ≤ byteAt (memOf [0x41, 0x01, 0x00, 0xB1, 0x7B, 0x02]) (0 + 1) ∨
      byteAt (memOf [0x41, 0x01, 0x00, 0xB1, 0x7B, 0x02])
        (0 + 2 + bytes_for_packed_bits 4
          (byteAt (memOf [0x41, 0x01, 0x00, 0xB1, 0x7B, 0x02]) 0 &&& 0x3f)) = 255) ∧
    (decode_pfor_vb 128 (memOf [0x41, 0x01, 0x00, 0xB1, 0x7B, 0x02]) 0 4 (fun _ => 0) 1).map
      (fun x => (x.1, x.2.slice 1 4)) = some (6, [1, 2, 603, 604]) ∧
    decode_pfor_vb 128 (memOf [0x41, 0x01, 0x00, 0xB1, 0x7B, 0x02, 0xFF]) 0 4 (fun _ => 0) 1 =
      decode_pfor_vb 128 (memOf [0x41, 0x01, 0x00, 0xB1, 0x7B, 0x02]) 0 4 (fun _ => 0) 1 := by
  have hag : ∀ x, 0 ≤ x → x < 6 →
      byteAt (memOf [0x41, 0x01, 0x00, 0xB1, 0x7B, 0x02]) x =
        byteAt (memOf [0x41, 0x01, 0x00, 0xB1, 0x7B, 0x02, 0xFF]) x := by
    intro x _ hx
    interval_cases x <;> rfl
  have hne : 1 ≤ byteAt (memOf [0x41, 0x01, 0x00, 0xB1, 0x7B, 0x02]) (0 + 1) ∨
      byteAt (memOf [0x41, 0x01, 0x00, 0xB1, 0x7B, 0x02])
        (0 + 2 + bytes_for_packed_bits 4
          (byteAt (memOf [0x41, 0x01, 0x00, 0xB1, 0x7B, 0x02]) 0 &&& 0x3f)) = 255 :=
    Or.inl (by decide)
  have h1 : (decode_pfor_vb 128 (memOf [0x41, 0x01, 0x00, 0xB1, 0x7B, 0x02]) 0 4
      (fun _ => 0) 1).map (fun x => x.1) = some 6 := by decide
  obtain ⟨⟨c, r⟩, hd, hc⟩ := Option.map_eq_some'.mp h1
  simp only at hc
  subst hc
  refine ⟨hag, hne, by decide, ?_⟩
  rw [hd]
  exact decode_pfor_vb_self_delimiting 128 _ _ 0 4 (fun _ => 0) 1 6 r hd hag hne

/-- The gap of a position of an interleaved FOR block that the unpacking loop reaches
(`t < 4 * (BlockSize / 4)`, every position when `BlockSize` is a multiple of 4) is the value
the four lanes deliver for it. -/
theorem block_gap_for_interleaved (BlockSize : Nat) (m : Mem) (p : Nat) (out : Buf) (o : Int)
    (t : Nat) (h0 : byteAt m p >>> 6 = 0) (ht : t < 4 * (BlockSize / 4)) :
    block_gap BlockSize m true p BlockSize out o t =
      (Lanes.init (p + 1) (byteAt m p &&& 0x3f)).nth m t := by
  unfold block_gap
  rw [if_pos h0, if_pos ⟨rfl, rfl⟩]
  have h := unpack_interleaved_get m o (BlockSize / 4) 0
    (Lanes.init (p + 1) (byteAt m p &&& 0x3f)) out t ht
  simp only [Nat.mul_zero, Nat.zero_add] at h
  exact h

theorem Buf.zero_upper (out : Buf) (o : Int) (n : Nat) (j : Int) (hj : o + (n : Int) ≤ j) :
    out.zero o n j = out j := by
  have : ¬ (o ≤ j ∧ j < o + (n : Int)) := by omega
  simp [Buf.zero, this]

/-- The loop `out[i * 4 + K] |= bsK.read()` keeps the slots after the positions it visits. -/
theorem unpack_interleaved_or_upper (m : Mem) (o : Int) :
    ∀ (n i : Nat) (l : Lanes) (out : Buf) (j : Int), o + 4 * ((i : Int) + n) ≤ j →
      unpack_interleaved_or m o n i l out j = out j := by
  intro n
  induction n with
  | zero => intro i l out j _; rfl
  | succ n ih =>
    intro i l out j hj
    simp only [unpack_interleaved_or]
    rw [ih (i + 1) _ _ j (by push_cast; omega)]
    rw [Buf.set_other _ _ _ _ (by push_cast; omega), Buf.set_other _ _ _ _ (by push_cast; omega),
      Buf.set_other _ _ _ _ (by push_cast; omega), Buf.set_other _ _ _ _ (by push_cast; omega)]

/-- A position that no index byte names has exception part 0. -/
theorem exception_part_zero (m : Mem) (bit_width : Nat) (es : List Nat) (idxs i : Nat) :
    ∀ (n k : Nat), (∀ k1, k ≤ k1 → k1 < k + n → byteAt m (idxs + k1) ≠ i) →
      exception_part m bit_width es idxs i n k = 0 := by
  intro n
  induction n with
  | zero => intro k _; rfl
  | succ n ih =>
    intro k h
    simp only [exception_part]
    rw [if_neg (h k (le_refl k) (by omega)), ih (k + 1) (fun k1 h1 h2 => h k1 (by omega) (by omega))]
    rfl

/-- The exception loop of `decode_pfor_bitmap_interleaved` is the exception loop of
`decode_pfor_bitmap` run over all `64 * ceil(BlockSize / 64)` positions of the bitmap words:
no bit of the last word is masked off. -/
theorem exception_bitmap_loop_interleaved_eq (m : Mem) (bit_width BlockSize : Nat) (o : Int) :
    ∀ (fuel q ptr : Nat) (st : ExcState),
      exception_bitmap_loop_interleaved m bit_width BlockSize o fuel (64 * q) ptr st =
        exception_bitmap_loop m bit_width (64 * ((BlockSize + 63) / 64)) o fuel (64 * q) ptr st := by
  intro fuel
  induction fuel with
  | zero => intro q ptr st; rfl
  | succ fuel ih =>
    intro q ptr st
    simp only [exception_bitmap_loop_interleaved, exception_bitmap_loop]
    by_cases h : 64 * q < BlockSize
    · rw [if_pos h, if_pos (by omega), if_neg (by omega)]
      have e : 64 * q + 64 = 64 * (q + 1) := by omega
      rw [e]
      exact ih _ _ _
    · rw [if_neg h, if_neg (by omega)]

/-- The exception loop of `decode_pfor_bitmap` stores only at positions below `num`. -/
theorem exception_bitmap_loop_upper (m : Mem) (bit_width num : Nat) (o : Int) (bitmap : Nat)
    (bs0 : BitReader) (out0 : Buf) (j : Int) (hj : o + (num : Int) ≤ j) :
    (exception_bitmap_loop m bit_width num o num 0 bitmap
      { bs := bs0, num_exceptions := 0, out := out0 }).out j = out0 j := by
  have h := exception_bitmap_loop_spec m bit_width num o bitmap bs0 num 0
    { bs := bs0, num_exceptions := 0, out := out0 } (by omega) rfl rfl
  simp only [Nat.mul_zero, Nat.add_zero] at h
  refine h.2.2.2 j (fun t _ ht => ?_)
  unfold masked_bit at ht
  simp only [Bool.and_eq_true, decide_eq_true_eq] at ht
  omega

/-- The exception loop of `decode_pfor_bitmap_interleaved` stores only at positions below
`BlockSize` when no bitmap bit from position `BlockSize` on is set in its last word. -/
theorem exception_bitmap_loop_interleaved_upper (m : Mem) (bit_width BlockSize : Nat) (o : Int)
    (bitmap : Nat) (bs0 : BitReader) (out0 : Buf)
    (hin : ∀ t, t < 64 * ((BlockSize + 63) / 64) → bitmap_bit m bitmap t = true → t < BlockSize)
    (j : Int) (hj : o + (BlockSize : Int) ≤ j) :
    (exception_bitmap_loop_interleaved m bit_width BlockSize o BlockSize 0 bitmap
      { bs := bs0, num_exceptions := 0, out := out0 }).out j = out0 j := by
  have e := exception_bitmap_loop_interleaved_eq m bit_width BlockSize o BlockSize 0 bitmap
    { bs := bs0, num_exceptions := 0, out := out0 }
  simp only [Nat.mul_zero] at e
  rw [e]
  have h := exception_bitmap_loop_spec m bit_width (64 * ((BlockSize + 63) / 64)) o bitmap bs0
    BlockSize 0 { bs := bs0, num_exceptions := 0, out := out0 } (by omega) rfl rfl
  simp only [Nat.mul_zero, Nat.add_zero] at h
  refine h.2.2.2 j (fun t _ ht => ?_)
  unfold masked_bit at ht
  simp only [Bool.and_eq_true, decide_eq_true_eq] at ht
  have := hin t ht.2 ht.1
  omega

/-- A block that keeps its stores inside the block (`block_in_range`) leaves every slot after
its `n` positions unchanged. -/
theorem decode_block_upper_frame (BlockSize : Nat) (m : Mem) (interleaved : Bool) (p n : Nat)
    (out : Buf) (o : Int) (s1 : Nat × Buf)
    (h : decode_block BlockSize m interleaved p n out o = some s1)
    (hin : block_in_range BlockSize m interleaved p n = true) :
    ∀ x : Int, o + (n : Int) ≤ x → s1.2 x = out x := by
  have hty : byteAt m p >>> 6 < 4 := by
    have := byteAt_lt m p
    rw [Nat.shiftRight_eq_div_pow]
    omega
  intro x hx
  have h4 : 4 * (BlockSize / 4) ≤ BlockSize := by omega
  unfold decode_block at h
  unfold block_in_range at hin
  split_ifs at h with h0 hi h1 hi h2 hi h3
  · -- FOR, interleaved
    simp only [Option.some.injEq] at h
    subst h
    obtain ⟨_, rfl⟩ := hi
    simp only [decode_for_interleaved]
    rw [delta_decode_eq, scan_loop_frame _ _ _ _ _ _ _ _ _ (by push_cast; omega),
      unpack_interleaved_frame _ _ _ _ _ _ _ (by push_cast; omega)]
  · -- FOR
    simp only [Option.some.injEq] at h
    subst h
    simp only [decode_for, decode_for_loop_eq]
    rw [scan_loop_frame _ _ _ _ _ _ _ _ _ (by push_cast; omega)]
  · -- PFOR_VB, interleaved
    obtain ⟨_, rfl⟩ := hi
    rw [if_pos h1] at hin
    unfold decode_pfor_vb_interleaved at h
    simp only at h
    split_ifs at h
    cases hre : read_exceptions m (p + 2 + bytes_for_packed_bits n (byteAt m p &&& 0x3f))
        (byteAt m (p + 1)) with
    | none => rw [hre] at h; simp at h
    | some y =>
      rw [hre] at h hin
      simp only [Option.some.injEq, decide_eq_true_eq] at h hin
      subst h
      simp only
      obtain ⟨i, rfl⟩ : ∃ i : Nat, x = o + (i : Int) := ⟨(x - o).toNat, by omega⟩
      have hap := apply_exceptions_eq m (byteAt m p &&& 0x3f) y.2 o (byteAt m (p + 1)) 0 y.1
        (unpack_interleaved m o (n / 4) 0 (Lanes.init (p + 2) (byteAt m p &&& 0x3f)) out)
      simp only [Nat.add_zero] at hap
      rw [delta_decode_eq, scan_loop_frame _ _ _ _ _ _ _ _ _ (by push_cast; omega), hap.2 i,
        exception_part_zero m _ _ _ _ _ _ (fun k1 _ hk1 => by
          have := hin k1 (by omega)
          omega),
        unpack_interleaved_frame _ _ _ _ _ _ _ (by push_cast; omega)]
      exact Nat.or_zero _
  · -- PFOR_VB
    rw [if_pos h1] at hin
    unfold decode_pfor_vb at h
    simp only at h
    split_ifs at h
    cases hre : read_exceptions m (p + 2 + bytes_for_packed_bits n (byteAt m p &&& 0x3f))
        (byteAt m (p + 1)) with
    | none => rw [hre] at h; simp at h
    | some y =>
      rw [hre] at h hin
      simp only [Option.some.injEq, decide_eq_true_eq] at h hin
      subst h
      simp only
      obtain ⟨i, rfl⟩ : ∃ i : Nat, x = o + (i : Int) := ⟨(x - o).toNat, by omega⟩
      have hap := apply_exceptions_eq m (byteAt m p &&& 0x3f) y.2 o (byteAt m (p + 1)) 0 y.1
        (unpack_contiguous m o n 0 (BitReader.init (p + 2) (byteAt m p &&& 0x3f)) out)
      simp only [Nat.add_zero] at hap
      rw [delta_decode_eq, scan_loop_frame _ _ _ _ _ _ _ _ _ (by push_cast; omega), hap.2 i,
        exception_part_zero m _ _ _ _ _ _ (fun k1 _ hk1 => by
          have := hin k1 (by omega)
          omega),
        unpack_contiguous_frame _ _ _ _ _ _ _ (by push_cast; omega)]
      exact Nat.or_zero _
  · -- PFOR_BITMAP, interleaved
    rw [if_neg h1, if_pos ⟨h2, hi⟩] at hin
    simp only [decide_eq_true_eq] at hin
    simp only [Option.some.injEq] at h
    subst h
    obtain ⟨_, rfl⟩ := hi
    simp only [decode_pfor_bitmap_interleaved]
    rw [delta_decode_eq, scan_loop_frame _ _ _ _ _ _ _ _ _ (by push_cast; omega),
      unpack_interleaved_or_upper _ _ _ _ _ _ _ (by push_cast; omega),
      exception_bitmap_loop_interleaved_upper _ _ _ _ _ _ _ hin _ hx]
    exact Buf.zero_upper _ _ _ _ hx
  · -- PFOR_BITMAP
    simp only [Option.some.injEq] at h
    subst h
    simp only [decode_pfor_bitmap, pfor_bitmap_base_loop_eq]
    rw [scan_loop_frame _ _ _ _ _ _ _ _ _ (by push_cast; omega),
      exception_bitmap_loop_upper _ _ _ _ _ _ _ _ hx]
    exact Buf.zero_upper _ _ _ _ hx
  · -- CONSTANT
    simp only [Option.some.injEq] at h
    subst h
    simp only [decode_constant, decode_constant_loop_eq]
    rw [scan_loop_frame _ _ _ _ _ _ _ _ _ (by push_cast; omega)]
  · omega

/-- A chain of blocks that all keep their stores inside the block leaves every slot from
position `num` on unchanged. -/
theorem block_chain_upper_frame (BlockSize : Nat) (m : Mem) (num : Nat) (interleaved : Bool)
    (o : Int) :
    ∀ (count a : Nat) (s r : Nat × Buf),
      block_chain BlockSize m num interleaved o count a s = some r →
      chain_in_range BlockSize m num interleaved o count a s = true →
      ∀ x : Int, o + (num : Int) ≤ x → r.2 x = s.2 x := by
  intro count
  induction count with
  | zero =>
    intro a s r h _ x _
    simp only [block_chain, Option.some.injEq] at h
    rw [h]
  | succ count ih =>
    intro a s r h hin x hx
    simp only [block_chain] at h
    simp only [chain_in_range, Bool.and_eq_true] at hin
    cases hb : decode_block BlockSize m interleaved s.1
        (min (num - (1 + a * BlockSize)) BlockSize) s.2
        (o + 1 + ((a * BlockSize : Nat) : Int)) with
    | none => rw [hb] at h; simp at h
    | some s1 =>
      rw [hb] at h hin
      simp only at h hin
      rw [ih (a + 1) s1 r h hin.2 x hx]
      by_cases hlow : x < o + 1 + ((a * BlockSize : Nat) : Int)
      · exact (decode_block_frame_bound BlockSize m interleaved s.1 _ s.2 _ s1.1 s1.2 hb).1 x hlow
      · refine decode_block_upper_frame BlockSize m interleaved s.1 _ s.2 _ s1 hb hin.1 x ?_
        have hmin : min (num - (1 + a * BlockSize)) BlockSize ≤ num - (1 + a * BlockSize) :=
          Nat.min_le_left _ _
        generalize min (num - (1 + a * BlockSize)) BlockSize = n at hmin
        generalize a * BlockSize = X at hmin hlow
        omega

/-- C18 (amended): driver block chaining, for `num ≥ 1` and `BlockSize ≥ 1`. The call is
`read_baseval` followed by exactly `ceil((num - 1) / BlockSize)` blocks decoded in order,
each from the cursor the one before returned (none when `num = 1`: then the cursor returned
is that of `read_baseval`, 1 to 3 bytes on); it fails only if `read_baseval` or a block
fails. When it succeeds, `out[0]` is the seed, no slot before `out[0]` is changed, and the
positions of block `j`, from `1 + j * BlockSize` on, hold what block `j` wrote when decoding
with `out[j * BlockSize]` before it. No slot from position `num` on is changed either,
provided every block keeps its stores inside the block (`blocks_in_range`): every PFOR_VB
exception index is below the number of positions of its block, and no interleaved
PFOR_BITMAP block has a bitmap bit set at a position from `BlockSize` on. -/
theorem driver_block_chaining (BlockSize : Nat) (m : Mem) (p num : Nat) (interleaved : Bool)
    (out : Buf) (o : Int) (hB : 1 ≤ BlockSize) (hnum : 1 ≤ num) :
    (decode_pfor_delta1 BlockSize m p num interleaved out o =
      match read_baseval m p with
      | none => none
      | some (p1, v) =>
        block_chain BlockSize m num interleaved o ((num - 1 + BlockSize - 1) / BlockSize) 0
          (p1, out.set o v)) ∧
    (∀ (c : Nat) (r : Buf), decode_pfor_delta1 BlockSize m p num interleaved out o = some (c, r) →
      ∃ p1 v, read_baseval m p = some (p1, v) ∧ p < p1 ∧ p1 ≤ p + 3 ∧
        r o = v ∧ (∀ j : Int, j < o → r j = out j) ∧ (num = 1 → c = p1) ∧
        ∀ j : Nat, j < (num - 1 + BlockSize - 1) / BlockSize →
          ∃ s s1, block_chain BlockSize m num interleaved o j 0 (p1, out.set o v) = some s ∧
            decode_block BlockSize m interleaved s.1
              (min (num - (1 + j * BlockSize)) BlockSize) s.2
              (o + 1 + ((j * BlockSize : Nat) : Int)) = some s1 ∧
            ∀ t : Nat, t < min (num - (1 + j * BlockSize)) BlockSize →
              r (o + 1 + ((j * BlockSize : Nat) : Int) + (t : Int)) =
                s1.2 (o + 1 + ((j * BlockSize : Nat) : Int) + (t : Int))) ∧
    (∀ (c : Nat) (r : Buf), decode_pfor_delta1 BlockSize m p num interleaved out o = some (c, r) →
      blocks_in_range BlockSize m p num interleaved out o = true →
      ∀ x : Int, o + (num : Int) ≤ x → r x = out x) := by
  have heq := decode_pfor_delta1_eq_chain BlockSize m p num interleaved out o hB hnum
  refine ⟨heq, ?_, ?_⟩
  swap
  · intro c r h hin x hx
    rw [heq] at h
    unfold blocks_in_range at hin
    cases hb : read_baseval m p with
    | none => rw [hb] at h; simp at h
    | some y =>
      rw [hb] at h hin
      simp only at h hin
      have hfr := block_chain_upper_frame BlockSize m num interleaved o _ 0
        (y.1, out.set o y.2) (c, r) h hin x hx
      simp only at hfr
      rw [hfr]
      exact Buf.set_other _ _ _ _ (by omega)
  intro c r h
  rw [heq] at h
  cases hb : read_baseval m p with
  | none => rw [hb] at h; simp at h
  | some x =>
    rw [hb] at h
    simp only at h
    have hex := read_baseval_cursor m p x.1 x.2 hb
    have hfr := block_chain_frame BlockSize m num interleaved o _ 0 (x.1, out.set o x.2) (c, r) h
    simp only [Nat.zero_mul, Nat.cast_zero, add_zero] at hfr
    refine ⟨x.1, x.2, rfl, hex.1, hex.2, ?_, ?_, ?_, ?_⟩
    · rw [hfr o (by omega), Buf.set_same]
    · intro j hj
      rw [hfr j (by omega), Buf.set_other _ _ _ _ (by omega)]
    · intro h1
      subst h1
      rw [show (1 - 1 + BlockSize - 1) / BlockSize = 0 from
        Nat.div_eq_of_lt (by omega)] at h
      simp only [block_chain, Option.some.injEq, Prod.mk.injEq] at h
      exact h.1.symm
    · intro j hj
      have hK : (num - 1 + BlockSize - 1) / BlockSize =
          j + (1 + ((num - 1 + BlockSize - 1) / BlockSize - j - 1)) := by omega
      rw [hK, block_chain_add] at h
      cases hs : block_chain BlockSize m num interleaved o j 0 (x.1, out.set o x.2) with
      | none => rw [hs] at h; simp at h
      | some s =>
        rw [hs] at h
        simp only [Nat.zero_add] at h
        rw [block_chain_add] at h
        simp only [block_chain] at h
        cases hd : decode_block BlockSize m interleaved s.1
            (min (num - (1 + j * BlockSize)) BlockSize) s.2
            (o + 1 + ((j * BlockSize : Nat) : Int)) with
        | none => rw [hd] at h; simp at h
        | some s1 =>
          rw [hd] at h
          simp only at h
          refine ⟨s, s1, rfl, hd, ?_⟩
          intro t ht
          have hf2 := block_chain_frame BlockSize m num interleaved o _ (j + 1) s1 (c, r) h
          apply hf2
          have : t < BlockSize := Nat.lt_of_lt_of_le ht (Nat.min_le_right _ _)
          rw [Nat.succ_mul]
          push_cast
          omega

/-- Witness for `driver_block_chaining`: the sequence `00 41 01 00 B1 7B 02` with `num = 5`
and `BlockSize = 128` is the seed 0 (cursor 1) followed by one PFOR_VB block whose only
exception has the index 2, inside the block; it decodes to 0, 1, 2, 603, 604 in 7 bytes and
changes no slot from position 5 on. -/
theorem driver_block_chaining_witness :
    1 ≤ 128 ∧ 1 ≤ 5 ∧
    decode_pfor_delta1 128 (memOf [0x00, 0x41, 0x01, 0x00, 0xB1, 0x7B, 0x02]) 0 5 false
        (fun _ => 0) 0 =
      block_chain 128 (memOf [0x00, 0x41, 0x01, 0x00, 0xB1, 0x7B, 0x02]) 5 false 0 1 0
        (1, Buf.set (fun _ => 0) 0 0) ∧
    blocks_in_range 128 (memOf [0x00, 0x41, 0x01, 0x00, 0xB1, 0x7B, 0x02]) 0 5 false
      (fun _ => 0) 0 = true ∧
    (decode_pfor_delta1 128 (memOf [0x00, 0x41, 0x01, 0x00, 0xB1, 0x7B, 0x02]) 0 5 false
      (fun _ => 0) 0).map (fun x => (x.1, x.2.slice 0 5)) = some (7, [0, 1, 2, 603, 604]) ∧
    ∀ (c : Nat) (r : Buf),
      decode_pfor_delta1 128 (memOf [0x00, 0x41, 0x01, 0x00, 0xB1, 0x7B, 0x02]) 0 5 false
        (fun _ => 0) 0 = some (c, r) →
      ∀ x : Int, 0 + ((5 : Nat) : Int) ≤ x → r x = (fun _ => 0 : Buf) x :=
  ⟨by decide, by decide,
    (driver_block_chaining 128 (memOf [0x00, 0x41, 0x01, 0x00, 0xB1, 0x7B, 0x02]) 0 5 false
      (fun _ => 0) 0 (by decide) (by decide)).1,
    by decide, by decide,
    fun c r h => (driver_block_chaining 128 (memOf [0x00, 0x41, 0x01, 0x00, 0xB1, 0x7B, 0x02])
      0 5 false (fun _ => 0) 0 (by decide) (by decide)).2.2 c r h (by decide)⟩

/-- An interleaved PFOR_BITMAP block stores beyond its positions when its last bitmap word has
a bit set at a position from `BlockSize` on: with `BlockSize = 4` the sequence
`00 80 08 20 01 00` (seed 0, then a block of bit width 0 and exception width 8 whose bitmap
word has the bits 5 and 8 set) with `num = 5` decodes to 0, 1, 2, 3, 4 and also changes the
slot `out[6]` from 0 to 1. -/
theorem interleaved_bitmap_stray_bit :
    (decode_pfor_delta1 4 (memOf [0x00, 0x80, 0x08, 0x20, 0x01, 0x00]) 0 5 true
      (fun _ => 0) 0).map (fun x => (x.2.slice 0 5, x.2 6)) = some ([0, 1, 2, 3, 4], 1) ∧
    blocks_in_range 4 (memOf [0x00, 0x80, 0x08, 0x20, 0x01, 0x00]) 0 5 true (fun _ => 0) 0
      = false := by
  refine ⟨by decide, by decide⟩

/-- Every value a contiguous reader returns is a 32-bit value. -/
theorem bit_reader_nth_lt (m : Mem) (p b k : Nat) :
    (BitReader.init p b).nth m k < 4294967296 := by
  obtain ⟨hmask, _⟩ := bit_reader_iterate_mask (BitReader.init p b) k
  unfold BitReader.nth BitReader.val
  rw [hmask]
  exact Nat.lt_of_le_of_lt Nat.and_le_right (u32_lt _)

/-- The exception part of a position is a 32-bit value. -/
theorem exception_part_lt (m : Mem) (bit_width : Nat) (es : List Nat) (idxs i : Nat) :
    ∀ (n k : Nat), exception_part m bit_width es idxs i n k < 4294967296 := by
  intro n
  induction n with
  | zero => intro k; simp [exception_part]
  | succ n ih =>
    intro k
    simp only [exception_part]
    refine Nat.or_lt_two_pow (n := 32) ?_ (ih (k + 1))
    split_ifs
    · exact u32_lt _
    · decide

/-- The gap of every position of a block decoded by a contiguous (non-interleaved) decoder
is a 32-bit value. -/
theorem block_gap_lt (BlockSize : Nat) (m : Mem) (p n : Nat) (out : Buf) (o : Int) (t : Nat) :
    block_gap BlockSize m false p n out o t < 4294967296 := by
  have hf : ¬ (false = true ∧ n = BlockSize) := by simp
  unfold block_gap
  rw [if_neg hf, if_neg hf, if_neg hf]
  split_ifs with h0 h1 h2 h3
  · exact bit_reader_nth_lt m _ _ _
  · cases read_exceptions m (p + 2 + bytes_for_packed_bits n (byteAt m p &&& 0x3f))
        (byteAt m (p + 1)) with
    | none => exact (by decide : (0 : Nat) < 4294967296)
    | some y =>
      exact Nat.or_lt_two_pow (n := 32) (bit_reader_nth_lt m _ _ _)
        (exception_part_lt m _ _ _ _ _ _)
  · unfold pfor_bitmap_combined
    simp only
    split_ifs
    · exact Nat.or_lt_two_pow (n := 32) (bit_reader_nth_lt m _ _ _) (u32_lt _)
    · exact bit_reader_nth_lt m _ _ _
  · exact Nat.lt_of_le_of_lt Nat.and_le_left (read_le32_lt m _)
  · exact read_le32_lt m _

/-- The gaps `decode_pfor_delta1` decodes without the interleaved decoders are 32-bit
values. -/
theorem decoded_gap_lt (BlockSize : Nat) (m : Mem) (p num : Nat) (out : Buf) (o : Int)
    (i : Nat) : decoded_gap BlockSize m p num false out o i < 4294967296 := by
  unfold decoded_gap
  cases read_baseval m p with
  | none => exact (by decide : (0 : Nat) < 4294967296)
  | some x =>
    simp only
    cases block_chain BlockSize m num false o (i / BlockSize) 0 (x.1, out.set o x.2) with
    | none => exact (by decide : (0 : Nat) < 4294967296)
    | some s => exact block_gap_lt BlockSize m _ _ _ _ _

/-- FOR, CONSTANT and PFOR_BITMAP blocks keep their stores inside the block, the interleaved
PFOR_BITMAP decoder provided `BlockSize` is a multiple of 64 (its bitmap words then hold no
position beyond the block). -/
theorem block_in_range_of_not_vb (BlockSize : Nat) (m : Mem) (interleaved : Bool) (p n : Nat)
    (h1 : byteAt m p >>> 6 ≠ 1) (h64 : BlockSize % 64 = 0 ∨ interleaved = false) :
    block_in_range BlockSize m interleaved p n = true := by
  unfold block_in_range
  rw [if_neg h1]
  split_ifs with h2
  · rcases h64 with h | h
    · apply decide_eq_true
      intro t ht _
      omega
    · rw [h] at h2
      simp at h2
  · rfl

end TurboPFor
